import Mathlib

/-!
# istio test-infra: dependency updater (`toolbox/deps_update`, `toolbox/util`)

A shallow embedding of the dependency-update tool and of the string helpers it
uses, followed by theorems about them.

Conventions of the embedding

* A Go `string` is a finite sequence of bytes.  It is embedded as `List Char`,
  one `Char` per byte (the byte's value is `Char.toNat`).
* A Go `error` value is embedded as `GoError`; a `nil` error is `none`.
* A function that can hit a run-time panic (slice bounds out of range) or leave
  the process through `log.Fatalf` returns an `Outcome`.
* Calls that leave the program (file system, shell, GitHub client) are answered
  by a `World`; every such call is appended, with its answer, to a trace.
-/

namespace DepsUpdate

/-- A Go string: a sequence of bytes, one `Char` per byte. -/
abbrev GoString := List Char

/-- A non-nil Go `error` value, carrying its message. -/
structure GoError where
  msg : GoString
  deriving DecidableEq, Repr

/-- How a Go function call ends. -/
inductive Outcome (α : Type) where
  /-- the function returned normally with this value -/
  | done (a : α)
  /-- a run-time panic unwound the function (index or slice out of range) -/
  | panic
  /-- the process was left through `log.Fatalf` -/
  | fatal
  deriving DecidableEq, Repr

/-! ## Package `strings` -/

/-- Position of the first occurrence of `substr` in `s`, if there is one. -/
def firstIndex (substr : GoString) : GoString → Option Nat
  | [] => if substr = [] then some 0 else none
  | c :: cs =>
    if substr.isPrefixOf (c :: cs) then some 0
    else (firstIndex substr cs).map (· + 1)

/-- Go `strings.Index(s, substr)`: the index of the first instance of `substr`
in `s`, or `-1` if `substr` is not present in `s`. -/
def stringsIndex (s substr : GoString) : Int :=
  match firstIndex substr s with
  | some i => (i : Int)
  | none => -1

/-- Go `strings.Contains(s, substr)`, which is `Index(s, substr) >= 0`. -/
def stringsContains (s substr : GoString) : Bool :=
  decide (stringsIndex s substr ≥ 0)

/-- Go `strings.Split(s, sep)` for a separator of one byte (the program only
splits at the one-byte separator `"\n"`): the pieces of `s` between the
occurrences of `sep`; always at least one piece. -/
def stringsSplit (sep : Char) : GoString → List GoString
  | [] => [[]]
  | c :: cs =>
    if c = sep then [] :: stringsSplit sep cs
    else
      match stringsSplit sep cs with
      | [] => [[c]]
      | piece :: pieces => (c :: piece) :: pieces

/-- Go `strings.Join(elems, sep)`. -/
def stringsJoin : List GoString → GoString → GoString
  | [], _ => []
  | [a], _ => a
  | a :: b :: rest, sep => a ++ sep ++ stringsJoin (b :: rest) sep

/-- Go slice expression `s[:idx]` on a string: panics unless `0 ≤ idx ≤ len(s)`. -/
def sliceTo (s : GoString) (idx : Int) : Outcome GoString :=
  if 0 ≤ idx ∧ idx ≤ (s.length : Int) then .done (s.take idx.toNat) else .panic

/-! ## `toolbox/deps_update`: data -/

/-- Modelled from the spec: the `dependency` record type is declared in a file
of package `main` that is not among the sources; its fields are the ones the
code of `main.go` reads and writes and the spec's `DependencyRecord` lists
(name, repoName, productionBranch, lastStableCommit, filePath). -/
structure dependency where
  Name : GoString
  RepoName : GoString
  ProdBranch : GoString
  LastStableSHA : GoString
  File : GoString
  deriving DecidableEq, Repr

/-- The string `"\""`. -/
def quote : GoString := ['"']

/-- `replaceCommit` (main.go 44-47): the line up to its first double quote,
then the quoted new commit and a comma.
```
idx := strings.Index(line, "\"")
return line[:idx] + "\"" + dep.LastStableSHA + "\","
```
-/
def replaceCommit (line : GoString) (dep : dependency) : Outcome GoString :=
  let idx := stringsIndex line quote
  match sliceTo line idx with
  | .done head => .done (head ++ quote ++ dep.LastStableSHA ++ "\",".toList)
  | .panic => .panic
  | .fatal => .fatal

/-- The loop of `updateDepFile` (main.go 89-93): every line that contains
`dep.Name + " = "` is replaced by `replaceCommit(line, dep)`; a panic in
`replaceCommit` ends the loop. -/
def updateDepLines (dep : dependency) : List GoString → Outcome (List GoString)
  | [] => .done []
  | line :: rest =>
    if stringsContains line (dep.Name ++ " = ".toList) then
      match replaceCommit line dep with
      | .done line' =>
        match updateDepLines dep rest with
        | .done rest' => .done (line' :: rest')
        | .panic => .panic
        | .fatal => .fatal
      | .panic => .panic
      | .fatal => .fatal
    else
      match updateDepLines dep rest with
      | .done rest' => .done (line :: rest')
      | .panic => .panic
      | .fatal => .fatal

/-- The text transformation of `updateDepFile` (main.go 88-94), between the
read and the write of the file:
```
lines := strings.Split(string(input), "\n")
for i, line := range lines { ... }
output := strings.Join(lines, "\n")
```
-/
def updateDepFileText (input : GoString) (dep : dependency) : Outcome GoString :=
  match updateDepLines dep (stringsSplit '\n' input) with
  | .done lines => .done (stringsJoin lines "\n".toList)
  | .panic => .panic
  | .fatal => .fatal

/-! ## Package `crypto/md5`, `encoding/hex` and `util.GetMD5Hash` -/

/-- Rotation amounts of the 64 steps of MD5 (RFC 1321). -/
def md5Shifts : List Nat :=
  [7, 12, 17, 22, 7, 12, 17, 22, 7, 12, 17, 22, 7, 12, 17, 22,
   5, 9, 14, 20, 5, 9, 14, 20, 5, 9, 14, 20, 5, 9, 14, 20,
   4, 11, 16, 23, 4, 11, 16, 23, 4, 11, 16, 23, 4, 11, 16, 23,
   6, 10, 15, 21, 6, 10, 15, 21, 6, 10, 15, 21, 6, 10, 15, 21]

/-- Additive constants of the 64 steps of MD5: `floor (2^32 * |sin (i + 1)|)`. -/
def md5Consts : List Nat :=
  [0xd76aa478, 0xe8c7b756, 0x242070db, 0xc1bdceee,
   0xf57c0faf, 0x4787c62a, 0xa8304613, 0xfd469501,
   0x698098d8, 0x8b44f7af, 0xffff5bb1, 0x895cd7be,
   0x6b901122, 0xfd987193, 0xa679438e, 0x49b40821,
   0xf61e2562, 0xc040b340, 0x265e5a51, 0xe9b6c7aa,
   0xd62f105d, 0x02441453, 0xd8a1e681, 0xe7d3fbc8,
   0x21e1cde6, 0xc33707d6, 0xf4d50d87, 0x455a14ed,
   0xa9e3e905, 0xfcefa3f8, 0x676f02d9, 0x8d2a4c8a,
   0xfffa3942, 0x8771f681, 0x6d9d6122, 0xfde5380c,
   0xa4beea44, 0x4bdecfa9, 0xf6bb4b60, 0xbebfbc70,
   0x289b7ec6, 0xeaa127fa, 0xd4ef3085, 0x04881d05,
   0xd9d4d039, 0xe6db99e5, 0x1fa27cf8, 0xc4ac5665,
   0xf4292244, 0x432aff97, 0xab9423a7, 0xfc93a039,
   0x655b59c3, 0x8f0ccc92, 0xffeff47d, 0x85845dd1,
   0x6fa87e4f, 0xfe2ce6e0, 0xa3014314, 0x4e0811a1,
   0xf7537e82, 0xbd3af235, 0x2ad7d2bb, 0xeb86d391]

/-- The four 32-bit words of an MD5 state. -/
structure Md5State where
  a : Nat
  b : Nat
  c : Nat
  d : Nat
  deriving DecidableEq, Repr

/-- Initial MD5 state. -/
def md5Init : Md5State := ⟨0x67452301, 0xefcdab89, 0x98badcfe, 0x10325476⟩

/-- Bitwise complement of a 32-bit word. -/
def not32 (x : Nat) : Nat := 0xffffffff - x % 2 ^ 32

/-- Left rotation of a 32-bit word. -/
def rotl32 (x n : Nat) : Nat :=
  ((x <<< n) ||| (x >>> (32 - n))) % 2 ^ 32

/-- One of the 64 steps of MD5 on a block of sixteen words `m`. -/
def md5Step (m : List Nat) (st : Md5State) (i : Nat) : Md5State :=
  let f :=
    if i < 16 then (st.b &&& st.c) ||| (not32 st.b &&& st.d)
    else if i < 32 then (st.d &&& st.b) ||| (not32 st.d &&& st.c)
    else if i < 48 then st.b ^^^ st.c ^^^ st.d
    else st.c ^^^ (st.b ||| not32 st.d)
  let g :=
    if i < 16 then i
    else if i < 32 then (5 * i + 1) % 16
    else if i < 48 then (3 * i + 5) % 16
    else (7 * i) % 16
  let sum := (f + st.a + md5Consts.getD i 0 + m.getD g 0) % 2 ^ 32
  ⟨st.d, (st.b + rotl32 sum (md5Shifts.getD i 0)) % 2 ^ 32, st.b, st.c⟩

/-- Little-endian 32-bit words of a sequence of bytes. -/
def wordsLE : List Nat → List Nat
  | b0 :: b1 :: b2 :: b3 :: rest =>
    (b0 + 2 ^ 8 * b1 + 2 ^ 16 * b2 + 2 ^ 24 * b3) :: wordsLE rest
  | _ => []

/-- The MD5 compression of one block of sixteen words into the state. -/
def md5Block (st : Md5State) (m : List Nat) : Md5State :=
  let r := (List.range 64).foldl (md5Step m) st
  ⟨(st.a + r.a) % 2 ^ 32, (st.b + r.b) % 2 ^ 32,
   (st.c + r.c) % 2 ^ 32, (st.d + r.d) % 2 ^ 32⟩

/-- All blocks of a padded message, sixteen words at a time; `n` bounds the
number of blocks. -/
def md5Blocks : Nat → Md5State → List Nat → Md5State
  | 0, st, _ => st
  | n + 1, st, ws =>
    if ws.length < 16 then st
    else md5Blocks n (md5Block st (ws.take 16)) (ws.drop 16)

/-- MD5 padding: a `0x80` byte, zero bytes up to 56 modulo 64, and the length
of the message in bits as eight little-endian bytes. -/
def md5Pad (bytes : List Nat) : List Nat :=
  let len := bytes.length
  let bits := (8 * len) % 2 ^ 64
  bytes ++ [0x80] ++ List.replicate ((55 + 64 - len % 64) % 64) 0
    ++ (List.range 8).map (fun k => (bits / 2 ^ (8 * k)) % 256)

/-- The four little-endian bytes of a 32-bit word. -/
def bytesLE (w : Nat) : List Nat :=
  [w % 256, (w / 2 ^ 8) % 256, (w / 2 ^ 16) % 256, (w / 2 ^ 24) % 256]

/-- The final MD5 state of a text. -/
def md5State (text : GoString) : Md5State :=
  let ws := wordsLE (md5Pad (text.map (fun ch => ch.toNat % 256)))
  md5Blocks ws.length md5Init ws

/-- Go `md5.Sum(data)`: the 16 bytes of the MD5 checksum. -/
def md5Sum (text : GoString) : List Nat :=
  let st := md5State text
  bytesLE st.a ++ bytesLE st.b ++ bytesLE st.c ++ bytesLE st.d

/-- The hexadecimal digit of a number below 16, in lower case. -/
def hexDigit (n : Nat) : Char := "0123456789abcdef".toList.getD n '0'

/-- Go `hex.EncodeToString(src)`: two lower-case digits per byte. -/
def hexEncodeToString (src : List Nat) : GoString :=
  src.flatMap (fun b => [hexDigit (b / 16 % 16), hexDigit (b % 16)])

/-- `GetMD5Hash` (commonUtils.go 108-111):
```
hash := md5.Sum([]byte(text))
return hex.EncodeToString(hash[:])
```
-/
def GetMD5Hash (text : GoString) : GoString :=
  hexEncodeToString (md5Sum text)

/-! ## Packages `unicode/utf8`, `unicode` and `fmt` of the Go library -/

/-- The constant `utf8.RuneError`, the rune that stands for an invalid encoding. -/
def utf8RuneError : Nat := 0xFFFD

/-- The byte `c` is a UTF-8 continuation byte between `lo` and `hi`. -/
def byteBetween (lo hi : Nat) (c : Char) : Bool :=
  decide (lo ≤ c.toNat) && decide (c.toNat ≤ hi)

/-- Go `utf8.DecodeRuneInString(s)`: the first rune of `s` and its width in
bytes; `(RuneError, 0)` for the empty string and `(RuneError, 1)` where `s` does
not begin with a valid UTF-8 encoding. -/
def utf8DecodeRuneInString (s : GoString) : Nat × Nat :=
  match s with
  | [] => (utf8RuneError, 0)
  | c0 :: rest =>
    if c0.toNat < 0x80 then (c0.toNat, 1)
    else if c0.toNat < 0xC2 then (utf8RuneError, 1)
    else if c0.toNat < 0xE0 then
      match rest with
      | c1 :: _ =>
        if byteBetween 0x80 0xBF c1 then
          (c0.toNat % 0x20 * 0x40 + c1.toNat % 0x40, 2)
        else (utf8RuneError, 1)
      | _ => (utf8RuneError, 1)
    else if c0.toNat < 0xF0 then
      match rest with
      | c1 :: c2 :: _ =>
        if byteBetween (if c0.toNat = 0xE0 then 0xA0 else 0x80)
              (if c0.toNat = 0xED then 0x9F else 0xBF) c1
            && byteBetween 0x80 0xBF c2 then
          (c0.toNat % 0x10 * 0x1000 + c1.toNat % 0x40 * 0x40 + c2.toNat % 0x40, 3)
        else (utf8RuneError, 1)
      | _ => (utf8RuneError, 1)
    else if c0.toNat < 0xF5 then
      match rest with
      | c1 :: c2 :: c3 :: _ =>
        if byteBetween (if c0.toNat = 0xF0 then 0x90 else 0x80)
              (if c0.toNat = 0xF4 then 0x8F else 0xBF) c1
            && byteBetween 0x80 0xBF c2 && byteBetween 0x80 0xBF c3 then
          (c0.toNat % 0x08 * 0x40000 + c1.toNat % 0x40 * 0x1000 + c2.toNat % 0x40 * 0x40
            + c3.toNat % 0x40, 4)
        else (utf8RuneError, 1)
      | _ => (utf8RuneError, 1)
    else (utf8RuneError, 1)

/-- Go `utf8.RuneStart(b)`: the byte is not a continuation byte. -/
def utf8RuneStart (c : Char) : Bool := c.toNat / 0x40 % 4 != 2

/-- The loop of `utf8.DecodeLastRuneInString` that walks back from the last byte
to the start of the last rune, at most `UTFMax` bytes from the end: from the
candidate `start` (given as `start + 1`, so that `0` is the candidate `-1`) down
to `lim`. Gives the `start` the loop ends with, `-1` raised to `0`. -/
def utf8LastRuneStart (s : GoString) (lim : Nat) : Nat → Nat
  | 0 => 0
  | start + 1 =>
    if start < lim then start
    else if utf8RuneStart (s.getD start 'x') then start
    else utf8LastRuneStart s lim start

/-- Go `utf8.DecodeLastRuneInString(s)`: the last rune of `s` and its width;
`(RuneError, 0)` for the empty string and `(RuneError, 1)` where `s` does not end
with a valid UTF-8 encoding. -/
def utf8DecodeLastRuneInString (s : GoString) : Nat × Nat :=
  if s.length = 0 then (utf8RuneError, 0)
  else if (s.getD (s.length - 1) 'x').toNat < 0x80 then ((s.getD (s.length - 1) 'x').toNat, 1)
  else
    let start := utf8LastRuneStart s (s.length - 4) (s.length - 1)
    let d := utf8DecodeRuneInString (s.drop start)
    if start + d.2 ≠ s.length then (utf8RuneError, 1) else d

/-- Go `unicode.IsSpace(r)`: the white space of Unicode (property White_Space). -/
def unicodeIsSpace (r : Nat) : Bool :=
  if r ≤ 0xFF then
    r = 0x09 || r = 0x0A || r = 0x0B || r = 0x0C || r = 0x0D || r = 0x20 || r = 0x85 || r = 0xA0
  else
    r = 0x1680 || (decide (0x2000 ≤ r) && decide (r ≤ 0x200A)) || r = 0x2028 || r = 0x2029
      || r = 0x202F || r = 0x205F || r = 0x3000

/-- Go `strings.TrimLeftFunc(s, unicode.IsSpace)`: the runes of `s` are decoded
from the left and dropped as long as they are white space; the first argument
bounds the number of runes, the length of `s` is enough. -/
def trimLeftSpace : Nat → GoString → GoString
  | 0, s => s
  | n + 1, s =>
    match s with
    | [] => []
    | _ :: _ =>
      if unicodeIsSpace (utf8DecodeRuneInString s).1 then
        trimLeftSpace n (s.drop (utf8DecodeRuneInString s).2)
      else s

/-- The function `lastIndexFunc(s, unicode.IsSpace, false)` of package
`strings`: the index at which the last rune of `s` that is not white space
starts, the runes being decoded from the right; `none` is Go `-1`.  The first
argument bounds the number of runes, the length of `s` is enough. -/
def lastIndexNotSpace : Nat → GoString → Option Nat
  | 0, _ => none
  | n + 1, s =>
    if s.length = 0 then none
    else if unicodeIsSpace (utf8DecodeLastRuneInString s).1 then
      lastIndexNotSpace n (s.take (s.length - (utf8DecodeLastRuneInString s).2))
    else some (s.length - (utf8DecodeLastRuneInString s).2)

/-- Go `strings.TrimRightFunc(s, unicode.IsSpace)`. -/
def trimRightSpace (s : GoString) : GoString :=
  match lastIndexNotSpace s.length s with
  | none => []
  | some i =>
    if 0x80 ≤ (s.getD i 'x').toNat then s.take (i + (utf8DecodeRuneInString (s.drop i)).2)
    else s.take (i + 1)

/-- Go `strings.TrimSpace(s)`: `s` without its leading and trailing white space,
as defined by Unicode (`strings.TrimFunc(s, unicode.IsSpace)`). -/
def stringsTrimSpace (s : GoString) : GoString :=
  trimRightSpace (trimLeftSpace s.length s)

/-- The function `tooLarge` of package `fmt`. -/
def fmtTooLarge (x : Nat) : Bool := decide (1000000 < x)

/-- The function `parsenum` of package `fmt` on the bytes up to its `end`: the
decimal number they begin with.  Gives the number, whether there was one, and
the bytes after it; a number that is too large gives no number and skips to the
end. -/
def fmtParsenum : GoString → Nat → Bool → Nat × Bool × GoString
  | [], num, isnum => (num, isnum, [])
  | c :: cs, num, isnum =>
    if decide ('0'.toNat ≤ c.toNat) && decide (c.toNat ≤ '9'.toNat) then
      if fmtTooLarge num then (0, false, [])
      else fmtParsenum cs (num * 10 + (c.toNat - '0'.toNat)) true
    else (num, isnum, c :: cs)

/-- The function `parseArgNumber` of package `fmt` on a format that begins with
`[`: the width in bytes of the bracketed argument index and whether it is a
number (the number itself plays no part where there are no operands). -/
def fmtParseArgNumber (format : GoString) : Nat × Bool :=
  if format.length < 3 then (1, false)
  else
    match (format.drop 1).indexOf? ']' with
    | none => (1, false)
    | some j =>
      let r := fmtParsenum ((format.drop 1).take j) 0 false
      (j + 2, r.2.1 && r.2.2.isEmpty)

/-- The method `argNumber` of package `fmt` where the call has no operands: an
argument index `[n]` at the start of `format` is skipped and is never good.
Gives the format after it, whether an index was found, and whether the argument
number is still good. -/
def fmtArgNumber (format : GoString) (goodArgNum : Bool) : GoString × Bool × Bool :=
  match format with
  | '[' :: _ =>
    ((format.drop (fmtParseArgNumber format).1), (fmtParseArgNumber format).2, false)
  | _ => (format, false, goodArgNum)

/-- The bytes that `doPrintf` reads as flags. -/
def fmtIsFlag (c : Char) : Bool :=
  c = '#' || c = '0' || c = '+' || c = '-' || c = ' '

/-- What `doPrintf` writes for a verb that has no operand: the verb `%` gives a
percent sign, any other verb `%!verb(BADINDEX)` after a bad argument index and
`%!verb(MISSING)` otherwise; a verb that is not valid UTF-8 is written as
`RuneError`. -/
def fmtVerbOutput (format : GoString) (goodArgNum : Bool) : GoString :=
  let d := utf8DecodeRuneInString format
  if d.1 = '%'.toNat then "%".toList
  else
    "%!".toList
      ++ (if d.1 = utf8RuneError then [Char.ofNat 0xEF, Char.ofNat 0xBF, Char.ofNat 0xBD]
          else format.take d.2)
      ++ (if goodArgNum then "(MISSING)".toList else "(BADINDEX)".toList)

/-- One pass of the loop of `doPrintf` (fmt/print.go) from behind a `%` on, where
the call has no operands: flags, argument index, width, precision, argument
index, verb.  Gives what is written and the format that is left. -/
def fmtVerb (format : GoString) : GoString × GoString :=
  let afterFlags := format.dropWhile fmtIsFlag
  let index1 := fmtArgNumber afterFlags true
  let width : GoString × GoString × Bool × Bool :=
    match index1.1 with
    | '*' :: rest => ("%!(BADWIDTH)".toList, rest, false, index1.2.2)
    | _ =>
      let n := fmtParsenum index1.1 0 false
      ([], n.2.2, index1.2.1, index1.2.2 && !(index1.2.1 && n.2.1))
  let prec : GoString × GoString × Bool × Bool :=
    match width.2.1 with
    | '.' :: rest =>
      let index2 := fmtArgNumber rest (width.2.2.2 && !width.2.2.1)
      match index2.1 with
      | '*' :: rest' => ("%!(BADPREC)".toList, rest', false, index2.2.2)
      | _ => ([], (fmtParsenum index2.1 0 false).2.2, index2.2.1, index2.2.2)
    | _ => ([], width.2.1, width.2.2.1, width.2.2.2)
  let index3 := if prec.2.2.1 then (prec.2.1, true, prec.2.2.2) else fmtArgNumber prec.2.1 prec.2.2.2
  match index3.1 with
  | [] => (width.1 ++ prec.1 ++ "%!(NOVERB)".toList, [])
  | c :: rest =>
    (width.1 ++ prec.1 ++ fmtVerbOutput (c :: rest) index3.2.2,
      (c :: rest).drop (if c.toNat < 0x80 then 1 else (utf8DecodeRuneInString (c :: rest)).2))

/-- The loop of `doPrintf` (fmt/print.go) where the call has no operands: the
bytes up to a `%` are copied, a `%` starts a verb.  The first argument bounds
the number of passes, the length of the format is enough. -/
def fmtDoPrintf : Nat → GoString → GoString
  | 0, _ => []
  | _ + 1, [] => []
  | n + 1, c :: rest =>
    if c = '%' then (fmtVerb rest).1 ++ fmtDoPrintf n (fmtVerb rest).2
    else c :: fmtDoPrintf n rest

/-- Go `fmt.Sprintf(format)` with no operands. -/
def fmtSprintf (format : GoString) : GoString :=
  fmtDoPrintf format.length format

/-! ## The world outside the program -/

/-- What a Go call of result type `(T, error)` gives back: a value with a nil
error, or a non-nil error (the value is then never read by the program). -/
inductive Res (α : Type) where
  | ok (v : α)
  | err (e : GoError)
  deriving DecidableEq, Repr

/-- A call that leaves the program, together with the answer it got. -/
inductive Event where
  /-- `os.RemoveAll(path)` -/
  | removeAll (path : GoString) (err : Option GoError)
  /-- `os.Chdir(dir)` -/
  | chdir (dir : GoString) (err : Option GoError)
  /-- `util.sh(command, muted)`: `util.Shell` is `muted = false`,
  `util.ShellSilent` is `muted = true`; `command` is the argument of the call,
  what is run is `fmt.Sprintf(command)` -/
  | sh (command : GoString) (muted : Bool) (res : Res GoString)
  /-- `exec.Command("bash", "-c", cmd).CombinedOutput()` -/
  | bash (cmd : GoString) (output : GoString) (err : Option GoError)
  /-- `ioutil.ReadFile(path)` -/
  | readFile (path : GoString) (res : Res GoString)
  /-- `ioutil.WriteFile(path, content, 0600)` -/
  | writeFile (path : GoString) (content : GoString) (err : Option GoError)
  /-- `deserializeDeps(file)` -/
  | deserializeDeps (file : GoString) (res : Res (List dependency))
  /-- `serializeDeps(file, &deps)` -/
  | serializeDeps (file : GoString) (deps : List dependency) (err : Option GoError)
  /-- `githubClnt.getHeadCommitSHA(repo, branch)` -/
  | getHeadCommitSHA (repo branch : GoString) (res : Res GoString)
  /-- `githubClnt.existBranch(repo, branch)` -/
  | existBranch (repo branch : GoString) (res : Res Bool)
  /-- `githubClnt.closeFailedPullRequests(repo, baseBranch)` -/
  | closeFailedPullRequests (repo baseBranch : GoString) (err : Option GoError)
  /-- `githubClnt.createPullRequest(branch, baseBranch, repo)` -/
  | createPullRequest (branch baseBranch repo : GoString) (err : Option GoError)
  /-- `githubClnt.listRepos()` -/
  | listRepos (res : Res (List GoString))
  /-- `util.GetAPITokenFromFile(tokenFile)` -/
  | getAPITokenFromFile (file : GoString) (res : Res GoString)
  /-- `newGithubClient(owner, token)` -/
  | newGithubClient (owner token : GoString) (err : Option GoError)
  deriving DecidableEq, Repr

/-- The calls made so far, oldest first. -/
abbrev Trace := List Event

/-- Modelled from the spec: the GitHub client (`githubClnt`, spec 4.4 "Remote
Coordinator"), the manifest reader and writer (`deserializeDeps`,
`serializeDeps`, spec 4.1) are declared in files of package `main` that are not
among the sources; with the operating system (files, working directory, child
processes) they form the world the program runs in.  Each answer may depend on
everything that happened before (the trace), so nothing is assumed about how the
remote repository or the file system behave. -/
structure World where
  remote : GoString → GoString
  removeAll : Trace → GoString → Option GoError
  chdir : Trace → GoString → Option GoError
  /-- what `util.sh` gives back for a command: the pieces of the command between
  blanks are run with `exec.Command(parts[0], parts[1:]...).CombinedOutput()` -/
  sh : Trace → GoString → Res GoString
  bash : Trace → GoString → GoString × Option GoError
  readFile : Trace → GoString → Res GoString
  writeFile : Trace → GoString → GoString → Option GoError
  deserializeDeps : Trace → GoString → Res (List dependency)
  serializeDeps : Trace → GoString → List dependency → Option GoError
  getHeadCommitSHA : Trace → GoString → GoString → Res GoString
  existBranch : Trace → GoString → GoString → Res Bool
  closeFailedPullRequests : Trace → GoString → GoString → Option GoError
  createPullRequest : Trace → GoString → GoString → GoString → Option GoError
  listRepos : Trace → Res (List GoString)
  getAPITokenFromFile : Trace → GoString → Res GoString
  newGithubClient : Trace → GoString → GoString → Option GoError

/-- The command-line flags of `deps_update` (main.go 29-35). -/
structure Flags where
  repo : GoString
  owner : GoString
  tokenFile : GoString
  baseBranch : GoString
  deriving DecidableEq, Repr

/-- A piece of program: from the calls made before it starts, how it ends and
the calls it makes, in order. -/
abbrev Prog (α : Type) := Trace → Outcome α × List Event

/-- A piece of program that returns `a` and calls nothing. -/
def Prog.ret {α : Type} (a : α) : Prog α := fun _ => (.done a, [])

/-- Sequencing: `f` runs after `m` returned; a panic or a process exit ends both. -/
def Prog.bind {α β : Type} (m : Prog α) (f : α → Prog β) : Prog β := fun hist =>
  match m hist with
  | (.done a, es) =>
    match f a (hist ++ es) with
    | (o, es') => (o, es ++ es')
  | (.panic, es) => (.panic, es)
  | (.fatal, es) => (.fatal, es)

/-- A function body with one deferred call (Go `defer`): the deferred call runs
when the body returns and when it panics, not when the process was left. -/
def Prog.defer {α : Type} (body : Prog α) (deferred : Prog Unit) : Prog α := fun hist =>
  match body hist with
  | (.fatal, es) => (.fatal, es)
  | (o, es) =>
    match deferred (hist ++ es) with
    | (.done _, es') => (o, es ++ es')
    | (.panic, es') => (.panic, es ++ es')
    | (.fatal, es') => (.fatal, es ++ es')

/-- `os.RemoveAll(path)`. -/
def osRemoveAll (w : World) (path : GoString) : Prog (Option GoError) := fun hist =>
  (.done (w.removeAll hist path), [Event.removeAll path (w.removeAll hist path)])

/-- `os.Chdir(dir)`. -/
def osChdir (w : World) (dir : GoString) : Prog (Option GoError) := fun hist =>
  (.done (w.chdir hist dir), [Event.chdir dir (w.chdir hist dir)])

/-- `sh` (commonUtils.go 125-138) called with no further arguments: the command
is the format expanded by `fmt.Sprintf`; the world runs it and gives back its
output, or an error.
```
command := fmt.Sprintf(format, args...)
parts := strings.Split(command, " ")
c := exec.Command(parts[0], parts[1:]...)
bytes, err := c.CombinedOutput()
if err != nil {
	return "", fmt.Errorf("command failed: %q %v", string(bytes), err)
}
return string(bytes), nil
```
-/
def sh (w : World) (format : GoString) (muted : Bool) : Prog (Res GoString) := fun hist =>
  let command := fmtSprintf format
  (.done (w.sh hist command), [Event.sh format muted (w.sh hist command)])

/-- `Shell` (commonUtils.go 114-116). -/
def Shell (w : World) (format : GoString) : Prog (Res GoString) := sh w format false

/-- `ShellSilent` (commonUtils.go 120-122). -/
def ShellSilent (w : World) (format : GoString) : Prog (Res GoString) := sh w format true

/-- `exec.Command("bash", "-c", cmd).CombinedOutput()`. -/
def execBash (w : World) (cmd : GoString) : Prog (GoString × Option GoError) := fun hist =>
  (.done (w.bash hist cmd), [Event.bash cmd (w.bash hist cmd).1 (w.bash hist cmd).2])

/-- `ioutil.ReadFile(path)`. -/
def ioutilReadFile (w : World) (path : GoString) : Prog (Res GoString) := fun hist =>
  (.done (w.readFile hist path), [Event.readFile path (w.readFile hist path)])

/-- `ioutil.WriteFile(path, content, 0600)`. -/
def ioutilWriteFile (w : World) (path content : GoString) : Prog (Option GoError) := fun hist =>
  (.done (w.writeFile hist path content),
    [Event.writeFile path content (w.writeFile hist path content)])

/-- `deserializeDeps(file)`. -/
def deserializeDeps (w : World) (file : GoString) : Prog (Res (List dependency)) := fun hist =>
  (.done (w.deserializeDeps hist file),
    [Event.deserializeDeps file (w.deserializeDeps hist file)])

/-- `serializeDeps(file, &deps)`. -/
def serializeDeps (w : World) (file : GoString) (deps : List dependency) :
    Prog (Option GoError) := fun hist =>
  (.done (w.serializeDeps hist file deps),
    [Event.serializeDeps file deps (w.serializeDeps hist file deps)])

/-- `githubClnt.getHeadCommitSHA(repo, branch)`. -/
def getHeadCommitSHA (w : World) (repo branch : GoString) : Prog (Res GoString) := fun hist =>
  (.done (w.getHeadCommitSHA hist repo branch),
    [Event.getHeadCommitSHA repo branch (w.getHeadCommitSHA hist repo branch)])

/-- `githubClnt.existBranch(repo, branch)`. -/
def existBranch (w : World) (repo branch : GoString) : Prog (Res Bool) := fun hist =>
  (.done (w.existBranch hist repo branch),
    [Event.existBranch repo branch (w.existBranch hist repo branch)])

/-- `githubClnt.closeFailedPullRequests(repo, baseBranch)`. -/
def closeFailedPullRequests (w : World) (repo baseBranch : GoString) :
    Prog (Option GoError) := fun hist =>
  (.done (w.closeFailedPullRequests hist repo baseBranch),
    [Event.closeFailedPullRequests repo baseBranch
      (w.closeFailedPullRequests hist repo baseBranch)])

/-- `githubClnt.createPullRequest(branch, baseBranch, repo)`. -/
def createPullRequest (w : World) (branch baseBranch repo : GoString) :
    Prog (Option GoError) := fun hist =>
  (.done (w.createPullRequest hist branch baseBranch repo),
    [Event.createPullRequest branch baseBranch repo
      (w.createPullRequest hist branch baseBranch repo)])

/-- `githubClnt.listRepos()`. -/
def listRepos (w : World) : Prog (Res (List GoString)) := fun hist =>
  (.done (w.listRepos hist), [Event.listRepos (w.listRepos hist)])

/-- `util.GetAPITokenFromFile(tokenFile)`. -/
def GetAPITokenFromFile (w : World) (file : GoString) : Prog (Res GoString) := fun hist =>
  (.done (w.getAPITokenFromFile hist file),
    [Event.getAPITokenFromFile file (w.getAPITokenFromFile hist file)])

/-- `newGithubClient(owner, token)`; the client it returns is the GitHub part of
the world. -/
def newGithubClient (w : World) (owner token : GoString) : Prog (Option GoError) := fun hist =>
  (.done (w.newGithubClient hist owner token),
    [Event.newGithubClient owner token (w.newGithubClient hist owner token)])

/-- `log.Panicf`: the message is logged and the goroutine panics. -/
def logPanicf {α : Type} : Prog α := fun _ => (.panic, [])

/-! ## `toolbox/deps_update`: the program -/

/-- The constant `istioDepsFile` (main.go 38). -/
def istioDepsFile : GoString := "istio.deps".toList

/-- The loop of `fingerPrintAndUpdateDepSHA` (main.go 58-65) over the records
not yet visited: each head commit is looked up, appended to the digest text and
stored in the record; the first failing lookup ends the function with that
error.  Gives the digest text (or the error) and the records as the loop leaves
them. -/
def fingerPrintLoop (w : World) :
    List dependency → GoString → Prog (Res GoString × List dependency)
  | [], digest => Prog.ret (.ok digest, [])
  | dep :: rest, digest =>
    Prog.bind (getHeadCommitSHA w dep.RepoName dep.ProdBranch) fun r =>
    match r with
    | .err e => Prog.ret (.err e, dep :: rest)
    | .ok commitSHA =>
      Prog.bind (fingerPrintLoop w rest (digest ++ commitSHA)) fun out =>
      Prog.ret (out.1, { dep with LastStableSHA := commitSHA } :: out.2)

/-- `fingerPrintAndUpdateDepSHA` (main.go 52-67).  Gives the returned digest,
the returned error and the records `*deps` as the call leaves them. -/
def fingerPrintAndUpdateDepSHA (w : World) (fl : Flags) (repo : GoString)
    (deps : List dependency) : Prog (GoString × Option GoError × List dependency) :=
  Prog.bind (getHeadCommitSHA w repo fl.baseBranch) fun r =>
  match r with
  | .err e => Prog.ret ([], some e, deps)
  | .ok digest =>
    Prog.bind (fingerPrintLoop w deps (digest ++ fl.baseBranch)) fun out =>
    match out.1 with
    | .err e => Prog.ret ([], some e, out.2)
    | .ok digest' => Prog.ret (GetMD5Hash digest', none, out.2)

/-- Go `strings.Replace(s, old, new, 1)`: the first occurrence of `old` replaced
by `new` (an empty `old` matches at the beginning). -/
def stringsReplaceFirst (s old new : GoString) : GoString :=
  match firstIndex old s with
  | some i => s.take i ++ new ++ s.drop (i + old.length)
  | none => s

/-- `istioVersionGet` (main.go 71-80): returns the trimmed output and the error
of the child process.
```
cmd := fmt.Sprintf("source istio.VERSION ; echo $%s", key)
value, err := exec.Command("bash", "-c", cmd).CombinedOutput()
return strings.TrimSpace(string(value)), err
```
-/
def istioVersionGet (w : World) (key : GoString) : Prog (GoString × Option GoError) :=
  Prog.bind (execBash w ("source istio.VERSION ; echo $".toList ++ key)) fun out =>
  Prog.ret (stringsTrimSpace out.1, out.2)

/-- `updateDepFile` (main.go 83-96). -/
def updateDepFile (w : World) (dep : dependency) : Prog (Option GoError) :=
  Prog.bind (ioutilReadFile w dep.File) fun r =>
  match r with
  | .err e => Prog.ret (some e)
  | .ok input =>
    match updateDepFileText input dep with
    | .done output => ioutilWriteFile w dep.File output
    | .panic => fun _ => (.panic, [])
    | .fatal => fun _ => (.fatal, [])

/-- The closure `getSHAByName` of `updateIstioDeps` (main.go 101-108). -/
def getSHAByName (deps : List dependency) (name : GoString) : GoString :=
  match deps with
  | [] => []
  | d :: rest => if d.RepoName = name then d.LastStableSHA else getSHAByName rest name

/-- `updateIstioDeps` (main.go 100-140). -/
def updateIstioDeps (w : World) (deps : List dependency) : Prog (Option GoError) :=
  let pilotSHA := getSHAByName deps "pilot".toList
  let mixerSHA := getSHAByName deps "mixer".toList
  let AuthSHA := getSHAByName deps "auth".toList
  if pilotSHA = [] ∨ mixerSHA = [] ∨ AuthSHA = [] then
    Prog.ret (some ⟨"incomplete dependencies in ".toList ++ istioDepsFile⟩)
  else
    Prog.bind (istioVersionGet w "CA_HUB".toList) fun caHub =>
    match caHub.2 with
    | some e => Prog.ret (some e)
    | none =>
    Prog.bind (istioVersionGet w "PILOT_HUB".toList) fun phub =>
    match phub.2 with
    | some e => Prog.ret (some e)
    | none =>
    Prog.bind (istioVersionGet w "MIXER_HUB".toList) fun mhub =>
    match mhub.2 with
    | some e => Prog.ret (some e)
    | none =>
    Prog.bind (istioVersionGet w "ISTIOCTL_URL".toList) fun istioctlURL =>
    match istioctlURL.2 with
    | some e => Prog.ret (some e)
    | none =>
    Prog.bind (istioVersionGet w "PILOT_TAG".toList) fun oldPilotSHA =>
    match oldPilotSHA.2 with
    | some e => Prog.ret (some e)
    | none =>
    let istioctlURL' := stringsReplaceFirst istioctlURL.1 oldPilotSHA.1 pilotSHA
    let cmd := "./install/updateVersion.sh -p ".toList ++ phub.1 ++ ",".toList ++ pilotSHA
      ++ " -x ".toList ++ mhub.1 ++ ",".toList ++ mixerSHA
      ++ " -i ".toList ++ istioctlURL'
      ++ " -c ".toList ++ caHub.1 ++ ",".toList ++ AuthSHA
    Prog.bind (Shell w cmd) fun r =>
    match r with
    | .err e => Prog.ret (some e)
    | .ok _ => Prog.ret none

/-- The loop of `updateDeps` (main.go 149-153): `updateDepFile` for every
record, up to the first error. -/
def updateDepFiles (w : World) : List dependency → Prog (Option GoError)
  | [] => Prog.ret none
  | dep :: rest =>
    Prog.bind (updateDepFile w dep) fun err =>
    match err with
    | some e => Prog.ret (some e)
    | none => updateDepFiles w rest

/-- `updateDeps` (main.go 143-156). -/
def updateDeps (w : World) (repo : GoString) (deps : List dependency) :
    Prog (Option GoError) :=
  if repo = "istio".toList then
    Prog.bind (updateIstioDeps w deps) fun err =>
    match err with
    | some e => Prog.ret (some e)
    | none => Prog.ret none
  else
    updateDepFiles w deps

/-- `cleanUp` (main.go 159-164). -/
def cleanUp (w : World) (repo : GoString) : Prog (Option GoError) :=
  Prog.bind (osChdir w "..".toList) fun err =>
  match err with
  | some e => Prog.ret (some e)
  | none => osRemoveAll w repo

/-- The deferred function of `updateDependenciesOf` (main.go 180-184): an error
of `cleanUp` leaves the process through `log.Fatalf`. -/
def deferredCleanUp (w : World) (repo : GoString) : Prog Unit :=
  Prog.bind (cleanUp w repo) fun err =>
  match err with
  | some _ => fun _ => (.fatal, [])
  | none => Prog.ret ()

/-- The statements of `updateDependenciesOf` from the creation of the local
branch on (main.go 208-226); `deps` are the records as the fingerprint step
left them. -/
def updateDependenciesOfTail (w : World) (fl : Flags) (repo : GoString)
    (deps : List dependency) (branch : GoString) : Prog (Option GoError) :=
  Prog.bind (Shell w ("git checkout -b ".toList ++ branch)) fun r =>
  match r with
  | .err e => Prog.ret (some e)
  | .ok _ =>
  Prog.bind (updateDeps w repo deps) fun err =>
  match err with
  | some e => Prog.ret (some e)
  | none =>
  Prog.bind (serializeDeps w istioDepsFile deps) fun err =>
  match err with
  | some e => Prog.ret (some e)
  | none =>
  Prog.bind (Shell w "git commit -am Update_Dependencies".toList) fun r =>
  match r with
  | .err e => Prog.ret (some e)
  | .ok _ =>
  Prog.bind (Shell w ("git push --set-upstream origin ".toList ++ branch)) fun r =>
  match r with
  | .err e => Prog.ret (some e)
  | .ok _ =>
  Prog.bind (createPullRequest w branch fl.baseBranch repo) fun err =>
  match err with
  | some e => Prog.ret (some e)
  | none => Prog.ret none

/-- The statements of `updateDependenciesOf` that follow the `defer`
(main.go 185-226); the last of them, from line 208 on, are
`updateDependenciesOfTail`. -/
def updateDependenciesOfBody (w : World) (fl : Flags) (repo : GoString) :
    Prog (Option GoError) :=
  Prog.bind (Shell w ("git checkout ".toList ++ fl.baseBranch)) fun r =>
  match r with
  | .err e => Prog.ret (some e)
  | .ok _ =>
  Prog.bind (deserializeDeps w istioDepsFile) fun r =>
  match r with
  | .err e => Prog.ret (some e)
  | .ok deps =>
  Prog.bind (fingerPrintAndUpdateDepSHA w fl repo deps) fun fp =>
  match fp.2.1 with
  | some e => Prog.ret (some e)
  | none =>
  let deps := fp.2.2
  let branch := "autoUpdateDeps_".toList ++ fp.1
  Prog.bind (existBranch w repo branch) fun r =>
  match r with
  | .err e => Prog.ret (some e)
  | .ok branchExists =>
  Prog.bind (closeFailedPullRequests w repo fl.baseBranch) fun err =>
  if branchExists = true ∨ err ≠ none then Prog.ret err
  else updateDependenciesOfTail w fl repo deps branch

/-- `updateDependenciesOf` (main.go 169-227); calls of `log.Printf` are left
out of the trace. -/
def updateDependenciesOf (w : World) (fl : Flags) (repo : GoString) :
    Prog (Option GoError) :=
  Prog.bind (osRemoveAll w repo) fun err =>
  match err with
  | some e => Prog.ret (some e)
  | none =>
  Prog.bind (ShellSilent w ("git clone ".toList ++ w.remote repo)) fun r =>
  match r with
  | .err e => Prog.ret (some e)
  | .ok _ =>
  Prog.bind (osChdir w repo) fun err =>
  match err with
  | some e => Prog.ret (some e)
  | none =>
  Prog.defer (updateDependenciesOfBody w fl repo) (deferredCleanUp w repo)

/-- The loop of `main` (main.go 253-257): `updateDependenciesOf` for every
repository of the list; an error that an attempt returns is logged and the loop
goes on. -/
def mainLoop (w : World) (fl : Flags) : List GoString → Prog Unit
  | [] => Prog.ret ()
  | r :: rest =>
    Prog.bind (updateDependenciesOf w fl r) fun _ =>
    mainLoop w fl rest

/-- `main` (main.go 229-259), with the parsed flags `fl`. -/
def main (w : World) (fl : Flags) : Prog Unit :=
  if fl.tokenFile = [] then logPanicf
  else
  Prog.bind (GetAPITokenFromFile w fl.tokenFile) fun r =>
  match r with
  | .err _ => logPanicf
  | .ok token =>
  Prog.bind (newGithubClient w fl.owner token) fun err =>
  match err with
  | some _ => logPanicf
  | none =>
  if fl.repo ≠ [] then
    Prog.bind (updateDependenciesOf w fl fl.repo) fun _ =>
    Prog.ret ()
  else
    Prog.bind (listRepos w) fun r =>
    match r with
    | .err _ => Prog.ret ()
    | .ok repos => mainLoop w fl repos

/-! ## `toolbox/util`: `UpdateKeyValueInFile` -/

/-- Go `strings.HasPrefix(s, prefix)`. -/
def stringsHasPrefix (s pre : GoString) : Bool := pre.isPrefixOf s

/-- The variable `kvSplitters` (commonUtils.go 34-40). -/
def kvSplitters : List GoString := [" = ".toList, "=".toList, ":".toList]

/-- Go index expression `s[idx]` on a string: panics unless `0 ≤ idx < len(s)`. -/
def byteAt (s : GoString) (idx : Int) : Outcome Char :=
  if 0 ≤ idx ∧ idx < (s.length : Int) then
    match s[idx.toNat]? with
    | some c => .done c
    | none => .panic
  else .panic

/-- The closure `replaceValue` of `UpdateKeyValueInFile` (commonUtils.go 73-80);
gives the new content of `*line`.
```
idx := strings.Index(*line, splitter) + len(splitter)
if (*line)[idx] == '"' {
	*line = (*line)[:idx] + "\"" + value + "\""
} else {
	*line = (*line)[:idx] + value
}
```
-/
def replaceValue (value line splitter : GoString) : Outcome GoString :=
  let idx := stringsIndex line splitter + (splitter.length : Int)
  match byteAt line idx with
  | .done c =>
    match sliceTo line idx with
    | .done head =>
      if c = '"' then .done (head ++ quote ++ value ++ quote) else .done (head ++ value)
    | .panic => .panic
    | .fatal => .fatal
  | .panic => .panic
  | .fatal => .fatal

/-- The inner loop of `UpdateKeyValueInFile` (commonUtils.go 92-98) on one line:
the value is replaced at the first splitter, in the order of `kvSplitters`, such
that the line contains `key + splitter`.  Gives the line as the loop leaves it
and whether such a splitter was found. -/
def updateKeyValueLine (key value line : GoString) :
    List GoString → Outcome (GoString × Bool)
  | [] => .done (line, false)
  | splitter :: rest =>
    if stringsContains line (key ++ splitter) then
      match replaceValue value line splitter with
      | .done line' => .done (line', true)
      | .panic => .panic
      | .fatal => .fatal
    else updateKeyValueLine key value line rest

/-- The outer loop of `UpdateKeyValueInFile` (commonUtils.go 88-99): lines that
start with `#` or `//` are skipped.  Gives the lines as the loop leaves them and
the flag `found`. -/
def updateKeyValueLines (key value : GoString) :
    List GoString → Outcome (List GoString × Bool)
  | [] => .done ([], false)
  | line :: rest =>
    if stringsHasPrefix line "#".toList || stringsHasPrefix line "//".toList then
      match updateKeyValueLines key value rest with
      | .done out => .done (line :: out.1, out.2)
      | .panic => .panic
      | .fatal => .fatal
    else
      match updateKeyValueLine key value line kvSplitters with
      | .done new =>
        match updateKeyValueLines key value rest with
        | .done out => .done (new.1 :: out.1, new.2 || out.2)
        | .panic => .panic
        | .fatal => .fatal
      | .panic => .panic
      | .fatal => .fatal

/-- `ReadFile` (commonUtils.go 44-50). -/
def ReadFile (w : World) (filePath : GoString) : Prog (Res GoString) :=
  Prog.bind (ioutilReadFile w filePath) fun r =>
  match r with
  | .err e => Prog.ret (.err e)
  | .ok b => Prog.ret (.ok b)

/-- `WriteTextFile` (commonUtils.go 53-58): a text that does not end in a
newline gets one. -/
def WriteTextFile (w : World) (filePath content : GoString) : Prog (Option GoError) :=
  if 0 < content.length ∧ content.getLast? ≠ some '\n' then
    ioutilWriteFile w filePath (content ++ "\n".toList)
  else ioutilWriteFile w filePath content

/-- `UpdateKeyValueInFile` (commonUtils.go 72-105). -/
def UpdateKeyValueInFile (w : World) (file key value : GoString) : Prog (Option GoError) :=
  Prog.bind (ReadFile w file) fun r =>
  match r with
  | .err e => Prog.ret (some e)
  | .ok input =>
    match updateKeyValueLines key value (stringsSplit '\n' input) with
    | .done out =>
      if out.2 = false then
        Prog.ret (some ⟨"no occurrence of ".toList ++ key ++ " found in ".toList ++ file⟩)
      else WriteTextFile w file (stringsJoin out.1 "\n".toList)
    | .panic => fun _ => (.panic, [])
    | .fatal => fun _ => (.fatal, [])

/-! ## `toolbox/pkg_check`: the coverage check -/

/-- A Go `float64`: an IEEE-754 binary64 value.  The finite values are the
rationals `m * 2^e` with `|m| < 2^53` and `-1074 ≤ e ≤ 971` (see `IsFloat64`).
The two zeros are the one value `finite 0`: the program only adds and compares,
and `+0` and `-0` behave alike under both. -/
inductive Float64 where
  | nan
  | inf (negative : Bool)
  | finite (q : ℚ)
  deriving DecidableEq

/-- The rationals that are finite binary64 values. -/
def IsBinary64 (q : ℚ) : Prop :=
  ∃ m e : ℤ, |m| < 2 ^ 53 ∧ -1074 ≤ e ∧ e ≤ 971 ∧ q = (m : ℚ) * (2 : ℚ) ^ e

/-- The values of type `float64`. -/
def IsFloat64 : Float64 → Prop
  | .finite q => IsBinary64 q
  | _ => True

/-- Rounding of a rational to the nearest integer, ties to the even one. -/
def roundHalfEven (x : ℚ) : ℤ :=
  if x - (⌊x⌋ : ℚ) < 1 / 2 then ⌊x⌋
  else if 1 / 2 < x - (⌊x⌋ : ℚ) then ⌊x⌋ + 1
  else if ⌊x⌋ % 2 = 0 then ⌊x⌋ else ⌊x⌋ + 1

/-- The exponent of the last place of the binary64 values around `q ≠ 0`:
53 significant bits, and not below the subnormal exponent `-1074`. -/
def binary64Exponent (q : ℚ) : ℤ := max (Int.log 2 |q| - 52) (-1074)

/-- IEEE-754 rounding of a rational to binary64, to nearest, ties to even; a
result of magnitude `2^1024` or more is an infinity. -/
def roundBinary64 (q : ℚ) : Float64 :=
  if q = 0 then .finite 0
  else if (2 : ℚ) ^ (1024 : ℤ)
      ≤ |(roundHalfEven (q / (2 : ℚ) ^ binary64Exponent q) : ℚ) * (2 : ℚ) ^ binary64Exponent q|
  then .inf (decide (q < 0))
  else .finite ((roundHalfEven (q / (2 : ℚ) ^ binary64Exponent q) : ℚ)
    * (2 : ℚ) ^ binary64Exponent q)

/-- Go `x + y` on `float64`. -/
def Float64.add : Float64 → Float64 → Float64
  | .nan, _ => .nan
  | _, .nan => .nan
  | .inf a, .inf b => if a = b then .inf a else .nan
  | .inf a, .finite _ => .inf a
  | .finite _, .inf b => .inf b
  | .finite x, .finite y => roundBinary64 (x + y)

/-- Go `-x` on `float64`. -/
def Float64.neg : Float64 → Float64
  | .nan => .nan
  | .inf a => .inf (!a)
  | .finite x => .finite (-x)

/-- Go `x < y` on `float64`: false when one side is NaN. -/
def Float64.lt : Float64 → Float64 → Bool
  | .nan, _ => false
  | _, .nan => false
  | .inf a, .inf b => a && !b
  | .inf a, .finite _ => a
  | .finite _, .inf b => !b
  | .finite x, .finite y => decide (x < y)

/-- The constant `NO_ERROR_CODE` (pkg_check/main.go 36). -/
def NO_ERROR_CODE : Int := 0

/-- The constant `THRESHOLD_EXCEEDED_ERROR` (pkg_check/main.go 37). -/
def THRESHOLD_EXCEEDED_ERROR : Int := 2

/-- The second loop of `checkDelta` (pkg_check/main.go 110-115) over the entries
of `deltas` not yet visited, `code` being the value of the variable so far.
```
if delta+*threshold < 0 {
	code = THRESHOLD_EXCEEDED_ERROR
}
```
-/
def checkDeltaLoop (threshold : Float64) : List (GoString × Float64) → Int → Int
  | [], code => code
  | entry :: rest, code =>
    if (entry.2.add threshold).lt (.finite 0) = true then
      checkDeltaLoop threshold rest THRESHOLD_EXCEEDED_ERROR
    else checkDeltaLoop threshold rest code

set_option linter.unusedVariables false in
/-- `checkDelta` (pkg_check/main.go 101-117) for the value `threshold` of the
flag.  A map is given by its entries in the order in which `range` visits them
(any order is possible); the log lines are left out. -/
def checkDelta (threshold : Float64) (deltas report baseline : List (GoString × Float64)) :
    Int :=
  checkDeltaLoop threshold deltas NO_ERROR_CODE

/-! ## Concrete inputs used in the examples -/

/-- A record for dependency `pilot` whose new commit is `ffffff`. -/
def pilotDep : dependency :=
  { Name := "pilot".toList, RepoName := "pilot".toList, ProdBranch := "stable".toList,
    LastStableSHA := "ffffff".toList, File := "WORKSPACE".toList }

/-- The manifest text of the spec's patch example. -/
def exampleManifest : GoString := "mixer = \"abc123\",\npilot = \"def456\",\n".toList

/-- A record for dependency `mixer`. -/
def mixerDep : dependency :=
  { Name := "mixer".toList, RepoName := "mixer".toList, ProdBranch := "stable".toList,
    LastStableSHA := "abc123".toList, File := "WORKSPACE".toList }

/-- A record for dependency `auth`, which the example manifest does not mention. -/
def authDep : dependency :=
  { Name := "auth".toList, RepoName := "auth".toList, ProdBranch := "stable".toList,
    LastStableSHA := "a1a1a1".toList, File := "WORKSPACE".toList }

/-- A world in which every call succeeds, except the head-commit lookups of the
repositories listed in `unreachable`.  Every file reads as the example
manifest, the manifest lists `mixer` and `pilot`, the head commit of a
repository is `head-of-` followed by its name, and the branch-exists check
answers `branchExists`. -/
def exampleWorld (branchExists : Bool) (unreachable : List GoString) : World :=
  { remote := fun repo => "https://github.com/istio/".toList ++ repo
    removeAll := fun _ _ => none
    chdir := fun _ _ => none
    sh := fun _ _ => .ok []
    bash := fun _ _ => ("hub\n".toList, none)
    readFile := fun _ _ => .ok exampleManifest
    writeFile := fun _ _ _ => none
    deserializeDeps := fun _ _ => .ok [mixerDep, pilotDep]
    serializeDeps := fun _ _ _ => none
    getHeadCommitSHA := fun _ repo _ =>
      if repo ∈ unreachable then .err ⟨"not found".toList⟩
      else .ok ("head-of-".toList ++ repo)
    existBranch := fun _ _ _ => .ok branchExists
    closeFailedPullRequests := fun _ _ _ => none
    createPullRequest := fun _ _ _ _ => none
    listRepos := fun _ => .ok ["mixer".toList, "pilot".toList]
    getAPITokenFromFile := fun _ _ => .ok "secret".toList
    newGithubClient := fun _ _ _ => none }

/-- Flags of a run on base branch `master`, as by default. -/
def exampleFlags : Flags :=
  { repo := [], owner := "istio".toList, tokenFile := "token".toList,
    baseBranch := "master".toList }

/-- A world like `exampleWorld true []`, except that the head commit of
repository `repo` is `commitOf repo`. -/
def resolvingWorld (commitOf : GoString → GoString) : World :=
  { exampleWorld true [] with getHeadCommitSHA := fun _ repo _ => .ok (commitOf repo) }

/-- The bytes of the first of two 128-byte messages with the same MD5 checksum
(X. Wang, H. Yu, "How to break MD5 and other hash functions", 2005). -/
def collisionA : GoString :=
  ([
   0xd1, 0x31, 0xdd, 0x02, 0xc5, 0xe6, 0xee, 0xc4, 0x69, 0x3d, 0x9a, 0x06, 0x98, 0xaf, 0xf9, 0x5c,
   0x2f, 0xca, 0xb5, 0x87, 0x12, 0x46, 0x7e, 0xab, 0x40, 0x04, 0x58, 0x3e, 0xb8, 0xfb, 0x7f, 0x89,
   0x55, 0xad, 0x34, 0x06, 0x09, 0xf4, 0xb3, 0x02, 0x83, 0xe4, 0x88, 0x83, 0x25, 0x71, 0x41, 0x5a,
   0x08, 0x51, 0x25, 0xe8, 0xf7, 0xcd, 0xc9, 0x9f, 0xd9, 0x1d, 0xbd, 0xf2, 0x80, 0x37, 0x3c, 0x5b,
   0xd8, 0x82, 0x3e, 0x31, 0x56, 0x34, 0x8f, 0x5b, 0xae, 0x6d, 0xac, 0xd4, 0x36, 0xc9, 0x19, 0xc6,
   0xdd, 0x53, 0xe2, 0xb4, 0x87, 0xda, 0x03, 0xfd, 0x02, 0x39, 0x63, 0x06, 0xd2, 0x48, 0xcd, 0xa0,
   0xe9, 0x9f, 0x33, 0x42, 0x0f, 0x57, 0x7e, 0xe8, 0xce, 0x54, 0xb6, 0x70, 0x80, 0xa8, 0x0d, 0x1e,
   0xc6, 0x98, 0x21, 0xbc, 0xb6, 0xa8, 0x83, 0x93, 0x96, 0xf9, 0x65, 0x2b, 0x6f, 0xf7, 0x2a, 0x70] : List Nat).map Char.ofNat

/-- The bytes of the second message; it differs from the first in six bytes
(at offsets 19, 45, 59, 83, 109 and 123). -/
def collisionB : GoString :=
  ([
   0xd1, 0x31, 0xdd, 0x02, 0xc5, 0xe6, 0xee, 0xc4, 0x69, 0x3d, 0x9a, 0x06, 0x98, 0xaf, 0xf9, 0x5c,
   0x2f, 0xca, 0xb5, 0x07, 0x12, 0x46, 0x7e, 0xab, 0x40, 0x04, 0x58, 0x3e, 0xb8, 0xfb, 0x7f, 0x89,
   0x55, 0xad, 0x34, 0x06, 0x09, 0xf4, 0xb3, 0x02, 0x83, 0xe4, 0x88, 0x83, 0x25, 0xf1, 0x41, 0x5a,
   0x08, 0x51, 0x25, 0xe8, 0xf7, 0xcd, 0xc9, 0x9f, 0xd9, 0x1d, 0xbd, 0x72, 0x80, 0x37, 0x3c, 0x5b,
   0xd8, 0x82, 0x3e, 0x31, 0x56, 0x34, 0x8f, 0x5b, 0xae, 0x6d, 0xac, 0xd4, 0x36, 0xc9, 0x19, 0xc6,
   0xdd, 0x53, 0xe2, 0x34, 0x87, 0xda, 0x03, 0xfd, 0x02, 0x39, 0x63, 0x06, 0xd2, 0x48, 0xcd, 0xa0,
   0xe9, 0x9f, 0x33, 0x42, 0x0f, 0x57, 0x7e, 0xe8, 0xce, 0x54, 0xb6, 0x70, 0x80, 0x28, 0x0d, 0x1e,
   0xc6, 0x98, 0x21, 0xbc, 0xb6, 0xa8, 0x83, 0x93, 0x96, 0xf9, 0x65, 0xab, 0x6f, 0xf7, 0x2a, 0x70] : List Nat).map Char.ofNat

/-- Head commits by repository: the repository under update (`proxy`) is at
`ownCommit`, `mixer` at `mixerCommit`, any other repository at a fixed 40-digit
commit. -/
def commitsWith (ownCommit mixerCommit : GoString) (repo : GoString) : GoString :=
  if repo = "proxy".toList then ownCommit
  else if repo = "mixer".toList then mixerCommit
  else "0123456789abcdef0123456789abcdef01234567".toList

/-- Flags for the collision example: the base branch is named by bytes 8 to 15
of the colliding messages. -/
def collisionFlags : Flags :=
  { exampleFlags with baseBranch := (collisionA.drop 8).take 8 }

/-- A world like `exampleWorld false []` in which `git clone` fails. -/
def cloneFailsWorld : World :=
  { exampleWorld false [] with
    sh := fun _ command =>
      if "git clone ".toList.isPrefixOf command then .err ⟨"clone failed".toList⟩
      else .ok [] }

/-- A world like `exampleWorld false []` in which the version file cannot be
read for the keys listed in `missing`. -/
def versionWorld (missing : List GoString) : World :=
  { exampleWorld false [] with
    bash := fun _ cmd =>
      if missing.any (fun key => decide (cmd = "source istio.VERSION ; echo $".toList ++ key))
      then ([], some ⟨"exit status 1".toList⟩)
      else if cmd = "source istio.VERSION ; echo $ISTIOCTL_URL".toList
      then ("https://storage/istioctl/old-tag/bin\n".toList, none)
      else if cmd = "source istio.VERSION ; echo $PILOT_TAG".toList
      then ("old-tag\n".toList, none)
      else ("hub\n".toList, none) }

/-- A world like `versionWorld []` whose version file gives an istioctl URL with
an escaped slash (`%2F`), and in which every command prints the command line it
was started with. -/
def escapedUrlWorld : World :=
  { exampleWorld false [] with
    sh := fun _ command => .ok command
    bash := fun _ cmd =>
      if cmd = "source istio.VERSION ; echo $ISTIOCTL_URL".toList
      then ("https://storage/istioctl%2Fold-tag/bin\n".toList, none)
      else if cmd = "source istio.VERSION ; echo $PILOT_TAG".toList
      then ("old-tag\n".toList, none)
      else ("hub\n".toList, none) }

/-- Records of the three roles of the distinguished repository. -/
def istioDeps (pilotSHA mixerSHA authSHA : GoString) : List dependency :=
  [{ pilotDep with LastStableSHA := pilotSHA },
   { mixerDep with LastStableSHA := mixerSHA },
   { authDep with LastStableSHA := authSHA }]

/-! ## Vocabulary of the statements -/

/-- The event of a head-commit lookup that succeeded with commit `c`. -/
def lookupOk (d : dependency) (c : GoString) : Event :=
  Event.getHeadCommitSHA d.RepoName d.ProdBranch (.ok c)

/-- The world resolves the records `deps`, looked up one after the other from
history `hist` on, to the commits `cs`: every lookup succeeds, the lookup of the
`i`-th record with the `i`-th commit. -/
def ResolvesTo (w : World) : Trace → List dependency → List GoString → Prop
  | _, [], [] => True
  | hist, d :: ds, c :: cs =>
    w.getHeadCommitSHA hist d.RepoName d.ProdBranch = .ok c ∧
      ResolvesTo w (hist ++ [lookupOk d c]) ds cs
  | _, _, _ => False

/-- The `(repository, branch)` pairs `fingerPrintAndUpdateDepSHA` has to look
up, in order: the repository itself on the base branch, then every record. -/
def lookupTargets (fl : Flags) (repo : GoString) (deps : List dependency) :
    List (GoString × GoString) :=
  (repo, fl.baseBranch) :: deps.map (fun d => (d.RepoName, d.ProdBranch))

/-- The text `fingerPrintAndUpdateDepSHA` digests: head commit, base-branch
name, then the commits of the dependencies in order. -/
def digestText (h b : GoString) (cs : List GoString) : GoString :=
  h ++ b ++ cs.flatten

/-- The calls by which an attempt prepares its decision (main.go 171-192):
removing a stale directory, the clone, entering the clone, checking out the base
branch, reading the manifest, and the head-commit lookups. -/
def Event.isPreparation (w : World) (fl : Flags) (repo : GoString) : Event → Prop
  | .removeAll path _ => path = repo
  | .chdir dir _ => dir = repo
  | .sh command muted _ =>
    (command = "git clone ".toList ++ w.remote repo ∧ muted = true) ∨
    (command = "git checkout ".toList ++ fl.baseBranch ∧ muted = false)
  | .deserializeDeps file _ => file = istioDepsFile
  | .getHeadCommitSHA _ _ _ => True
  | _ => False

/-- The calls of `cleanUp`: the change to the parent directory and the removal
of the clone. -/
def Event.isCleanUp (repo : GoString) : Event → Prop
  | .chdir dir _ => dir = "..".toList
  | .removeAll path _ => path = repo
  | _ => False

/-- The kinds of call made from the creation of the local branch on
(main.go 208-226): `util.Shell` commands, the file reads and writes and the
version-file lookups of the patch, the manifest save, the pull request. -/
def Event.isUpdateCall : Event → Prop
  | .sh _ muted _ => muted = false
  | .readFile _ _ => True
  | .writeFile _ _ _ => True
  | .bash _ _ _ => True
  | .serializeDeps _ _ _ => True
  | .createPullRequest _ _ _ _ => True
  | _ => False

/-- The calls that propose an update: creating the local branch, patching
(`updateDeps`), saving the manifest (`serializeDeps`), committing, pushing and
opening the pull request.  Among the shell commands these are all but the two
of the preparation, the clone and the checkout of the base branch. -/
def Event.isProposal (w : World) (fl : Flags) (repo : GoString) : Event → Prop
  | .sh command muted _ =>
    ¬ ((command = "git clone ".toList ++ w.remote repo ∧ muted = true) ∨
       (command = "git checkout ".toList ++ fl.baseBranch ∧ muted = false))
  | .readFile _ _ => True
  | .writeFile _ _ _ => True
  | .bash _ _ _ => True
  | .serializeDeps _ _ _ => True
  | .createPullRequest _ _ _ _ => True
  | _ => False

/-- A change of the working directory or a removal of a directory. -/
def Event.isDirectoryCall : Event → Prop
  | .chdir _ _ => True
  | .removeAll _ _ => True
  | _ => False

/-- The piece of program `m` never leaves the process. -/
def Prog.NeverFatal {α : Type} (m : Prog α) : Prop :=
  ∀ hist, (m hist).1 ≠ .fatal

/-- The command by which `istioVersionGet` reads `key` from the version file. -/
def versionCommand (key : GoString) : GoString :=
  "source istio.VERSION ; echo $".toList ++ key

/-- The world answers the version-file lookups of `keys`, made one after the
other from history `hist` on, without error and with the outputs `outs`. -/
def VersionFile (w : World) : Trace → List GoString → List GoString → Prop
  | _, [], [] => True
  | hist, key :: keys, out :: outs =>
    w.bash hist (versionCommand key) = (out, none) ∧
      VersionFile w (hist ++ [Event.bash (versionCommand key) out none]) keys outs
  | _, _, _ => False

/-- The error of a Go result `(T, error)`: nil when the call gave a value. -/
def Res.error {α : Type} : Res α → Option GoError
  | .ok _ => none
  | .err e => some e

/-- The command line of the version-bump script, composed of the pilot hub and
commit, the mixer hub and commit, the istioctl URL, and the CA hub and the auth
commit. -/
def versionBumpCommand (pilotHub pilotSHA mixerHub mixerSHA istioctlURL caHub authSHA :
    GoString) : GoString :=
  "./install/updateVersion.sh -p ".toList ++ pilotHub ++ ",".toList ++ pilotSHA
    ++ " -x ".toList ++ mixerHub ++ ",".toList ++ mixerSHA
    ++ " -i ".toList ++ istioctlURL
    ++ " -c ".toList ++ caHub ++ ",".toList ++ authSHA

/-- In the run `r` of a piece of program, a version-file lookup that fails is
the last call, its error is what the piece of program returns, and no shell
command is run. -/
def LookupFailureIsFinal (r : Outcome (Option GoError) × List Event) : Prop :=
  ∀ (j : Nat) (cmd out : GoString) (e : GoError),
    r.2[j]? = some (Event.bash cmd out (some e)) →
    r.1 = .done (some e) ∧ r.2.length = j + 1 ∧
      ∀ e' ∈ r.2, ∀ c m res, e' ≠ Event.sh c m res

/-- The calls of the attempts for the repositories `repos`, made one after the
other from history `hist` on. -/
def attemptsTrace (w : World) (fl : Flags) : List GoString → Trace → List Event
  | [], _ => []
  | r :: rest, hist =>
    (updateDependenciesOf w fl r hist).2
      ++ attemptsTrace w fl rest (hist ++ (updateDependenciesOf w fl r hist).2)

/-- Every attempt for the repositories `repos`, made one after the other from
history `hist` on, returns to its caller, with an error or without. -/
def AllReturn (w : World) (fl : Flags) : List GoString → Trace → Prop
  | [], _ => True
  | r :: rest, hist =>
    (∃ err, (updateDependenciesOf w fl r hist).1 = .done err) ∧
      AllReturn w fl rest (hist ++ (updateDependenciesOf w fl r hist).2)

/-- The splitter with which the inner loop of `UpdateKeyValueInFile` calls
`replaceValue` on `line`: the first of `kvSplitters` such that the line contains
`key + splitter`. -/
def selectedSplitter (key line : GoString) : Option GoString :=
  kvSplitters.find? (fun splitter => stringsContains line (key ++ splitter))

/-- Every call that the piece of program `m` makes, from any history, satisfies `P`. -/
def Prog.Emits {α : Type} (P : Event → Prop) (m : Prog α) : Prop :=
  ∀ hist, ∀ e ∈ (m hist).2, P e

/-! ## Lemmas: package `strings` -/

theorem firstIndex_le_length (substr : GoString) :
    ∀ (s : GoString) (i : Nat), firstIndex substr s = some i → i ≤ s.length := by
  intro s
  induction s with
  | nil =>
    intro i h
    by_cases hs : substr = [] <;> simp [firstIndex, hs] at h
    omega
  | cons c cs ih =>
    intro i h
    by_cases hp : substr.isPrefixOf (c :: cs) = true
    · simp [firstIndex, hp] at h
      omega
    · simp only [firstIndex, hp] at h
      cases hrec : firstIndex substr cs with
      | none => simp [hrec] at h
      | some j =>
        simp [hrec] at h
        have := ih j hrec
        simp only [List.length_cons]
        omega

theorem singleton_isPrefixOf_cons (c d : Char) (ds : GoString) :
    [c].isPrefixOf (d :: ds) = (c == d) := by
  simp [List.isPrefixOf]

theorem firstIndex_singleton_append (c : Char) :
    ∀ (pre rest : GoString), c ∉ pre →
      firstIndex [c] (pre ++ c :: rest) = some pre.length := by
  intro pre
  induction pre with
  | nil => intro rest _; simp [firstIndex, singleton_isPrefixOf_cons]
  | cons d ds ih =>
    intro rest h
    have hd : c ≠ d := fun e => h (by simp [e])
    have hds : c ∉ ds := fun e => h (by simp [e])
    simp [firstIndex, singleton_isPrefixOf_cons, hd, ih rest hds]

theorem firstIndex_singleton_none (c : Char) :
    ∀ (s : GoString), c ∉ s → firstIndex [c] s = none := by
  intro s
  induction s with
  | nil => intro _; simp [firstIndex]
  | cons d ds ih =>
    intro h
    have hd : c ≠ d := fun e => h (by simp [e])
    have hds : c ∉ ds := fun e => h (by simp [e])
    simp [firstIndex, singleton_isPrefixOf_cons, hd, ih hds]

theorem mem_split_at (c : Char) :
    ∀ (s : GoString), c ∈ s → ∃ pre rest, c ∉ pre ∧ s = pre ++ c :: rest := by
  intro s
  induction s with
  | nil => intro h; simp at h
  | cons d ds ih =>
    intro h
    by_cases hd : c = d
    · exact ⟨[], ds, by simp, by simp [hd]⟩
    · have hds : c ∈ ds := by
        rcases List.mem_cons.mp h with e | e
        · exact absurd e hd
        · exact e
      obtain ⟨pre, rest, hpre, hs⟩ := ih hds
      refine ⟨d :: pre, rest, ?_, by simp [hs]⟩
      intro hmem
      rcases List.mem_cons.mp hmem with e | e
      · exact hd e
      · exact hpre e

theorem stringsSplit_ne_nil (sep : Char) (s : GoString) : stringsSplit sep s ≠ [] := by
  cases s with
  | nil => simp [stringsSplit]
  | cons c cs =>
    by_cases h : c = sep
    · simp [stringsSplit, h]
    · cases hrec : stringsSplit sep cs <;> simp [stringsSplit, h, hrec]

theorem stringsSplit_of_not_mem (sep : Char) :
    ∀ (s : GoString), sep ∉ s → stringsSplit sep s = [s] := by
  intro s
  induction s with
  | nil => intro _; simp [stringsSplit]
  | cons c cs ih =>
    intro h
    have hc : c ≠ sep := fun e => h (by simp [e])
    have hcs : sep ∉ cs := fun e => h (by simp [e])
    simp [stringsSplit, hc, ih hcs]

theorem stringsSplit_append_sep (sep : Char) :
    ∀ (a t : GoString), sep ∉ a →
      stringsSplit sep (a ++ sep :: t) = a :: stringsSplit sep t := by
  intro a
  induction a with
  | nil => intro t _; simp [stringsSplit]
  | cons c cs ih =>
    intro t h
    have hc : c ≠ sep := fun e => h (by simp [e])
    have hcs : sep ∉ cs := fun e => h (by simp [e])
    simp [stringsSplit, hc, ih t hcs]

/-- Splitting what `Join` built gives the pieces back, when no piece contains
the separator. -/
theorem stringsSplit_stringsJoin (sep : Char) :
    ∀ (ls : List GoString), ls ≠ [] → (∀ l ∈ ls, sep ∉ l) →
      stringsSplit sep (stringsJoin ls [sep]) = ls := by
  intro ls
  induction ls with
  | nil => intro h; exact absurd rfl h
  | cons a rest ih =>
    intro _ hno
    cases rest with
    | nil =>
      simpa [stringsJoin] using stringsSplit_of_not_mem sep a (hno a (by simp))
    | cons b rest' =>
      have ha : sep ∉ a := hno a (by simp)
      have hrest : ∀ l ∈ b :: rest', sep ∉ l := fun l hl => hno l (by simp [hl])
      have := ih (by simp) hrest
      simp only [stringsJoin, List.append_assoc, List.singleton_append]
      rw [stringsSplit_append_sep sep a _ ha, this]

/-- No piece of a split contains the separator. -/
theorem not_mem_of_mem_stringsSplit (sep : Char) :
    ∀ (s : GoString), ∀ l ∈ stringsSplit sep s, sep ∉ l := by
  intro s
  induction s with
  | nil => intro l hl; simp [stringsSplit] at hl; simp [hl]
  | cons c cs ih =>
    intro l hl
    by_cases h : c = sep
    · simp only [stringsSplit, h, if_true] at hl
      rcases List.mem_cons.mp hl with e | e
      · simp [e]
      · exact ih l e
    · simp only [stringsSplit, h, if_false] at hl
      cases hrec : stringsSplit sep cs with
      | nil => exact absurd hrec (stringsSplit_ne_nil sep cs)
      | cons piece pieces =>
        rw [hrec] at hl ih
        rcases List.mem_cons.mp hl with e | e
        · subst e
          have hp := ih piece (by simp)
          intro hmem
          rcases List.mem_cons.mp hmem with e' | e'
          · exact h e'.symm
          · exact hp e'
        · exact ih l (by simp [e])

theorem stringsJoin_cons_cons (c : Char) (a : GoString) (rest : List GoString)
    (sep : GoString) :
    stringsJoin ((c :: a) :: rest) sep = c :: stringsJoin (a :: rest) sep := by
  cases rest <;> simp [stringsJoin]

/-- Joining the pieces of a split gives the text back. -/
theorem stringsJoin_stringsSplit (sep : Char) :
    ∀ (s : GoString), stringsJoin (stringsSplit sep s) [sep] = s := by
  intro s
  induction s with
  | nil => simp [stringsSplit, stringsJoin]
  | cons c cs ih =>
    cases hrec : stringsSplit sep cs with
    | nil => exact absurd hrec (stringsSplit_ne_nil sep cs)
    | cons piece pieces =>
      rw [hrec] at ih
      by_cases h : c = sep
      · simp [stringsSplit, h, hrec, stringsJoin, ih]
      · simp [stringsSplit, h, hrec, stringsJoin_cons_cons, ih]

/-! ## Lemmas: generic patching -/

theorem replaceCommit_of_quote (pre rest : GoString) (dep : dependency)
    (h : '"' ∉ pre) :
    replaceCommit (pre ++ '"' :: rest) dep
      = .done (pre ++ quote ++ dep.LastStableSHA ++ "\",".toList) := by
  have hi := firstIndex_singleton_append '"' pre rest h
  have hpos : (0 : Int) ≤ (rest.length : Int) + 1 := by omega
  simp [replaceCommit, stringsIndex, quote, hi, sliceTo, hpos]

theorem replaceCommit_no_quote (line : GoString) (dep : dependency)
    (h : '"' ∉ line) : replaceCommit line dep = .panic := by
  have hi := firstIndex_singleton_none '"' line h
  simp [replaceCommit, stringsIndex, quote, hi, sliceTo]

theorem replaceCommit_done_iff (line : GoString) (dep : dependency) :
    (∃ out, replaceCommit line dep = .done out) ↔ '"' ∈ line := by
  constructor
  · rintro ⟨out, hout⟩
    by_contra hq
    rw [replaceCommit_no_quote line dep hq] at hout
    cases hout
  · intro hq
    obtain ⟨pre, rest, hpre, rfl⟩ := mem_split_at '"' line hq
    exact ⟨_, replaceCommit_of_quote pre rest dep hpre⟩

theorem replaceCommit_no_newline (line out : GoString) (dep : dependency)
    (hsha : '\n' ∉ dep.LastStableSHA) (hline : '\n' ∉ line)
    (h : replaceCommit line dep = .done out) : '\n' ∉ out := by
  have hq : '"' ∈ line := (replaceCommit_done_iff line dep).mp ⟨out, h⟩
  obtain ⟨pre, rest, hpre, rfl⟩ := mem_split_at '"' line hq
  rw [replaceCommit_of_quote pre rest dep hpre] at h
  injection h with h
  subst h
  have hp : '\n' ∉ pre := fun hm => hline (by simp [hm])
  simp [quote, hp, hsha]

/-- What the loop of `updateDepFile` does to each line, when it ends normally. -/
theorem updateDepLines_done (dep : dependency) :
    ∀ (ls ls' : List GoString), updateDepLines dep ls = .done ls' →
      List.Forall₂ (fun l l' =>
        (stringsContains l (dep.Name ++ " = ".toList) = true → replaceCommit l dep = .done l') ∧
        (stringsContains l (dep.Name ++ " = ".toList) = false → l' = l)) ls ls' := by
  intro ls
  induction ls with
  | nil =>
    intro ls' h
    simp [updateDepLines] at h
    subst h
    exact List.Forall₂.nil
  | cons line rest ih =>
    intro ls' h
    by_cases hc : stringsContains line (dep.Name ++ " = ".toList) = true
    · simp only [updateDepLines, hc, if_true] at h
      cases hr : replaceCommit line dep with
      | done line' =>
        cases hrest : updateDepLines dep rest with
        | done rest' =>
          simp [hr, hrest] at h
          subst h
          exact List.Forall₂.cons ⟨fun _ => hr, fun hf => absurd (hc.symm.trans hf) (by decide)⟩
            (ih rest' hrest)
        | panic => simp [hr, hrest] at h
        | fatal => simp [hr, hrest] at h
      | panic => simp [hr] at h
      | fatal => simp [hr] at h
    · simp only [updateDepLines, hc] at h
      cases hrest : updateDepLines dep rest with
      | done rest' =>
        simp [hrest] at h
        subst h
        exact List.Forall₂.cons ⟨fun ht => absurd ht hc, fun _ => rfl⟩ (ih rest' hrest)
      | panic => simp [hrest] at h
      | fatal => simp [hrest] at h

/-- The loop of `updateDepFile` ends normally exactly when every line it has to
rewrite contains a double quote. -/
theorem updateDepLines_done_iff (dep : dependency) :
    ∀ (ls : List GoString), (∃ ls', updateDepLines dep ls = .done ls') ↔
      ∀ l ∈ ls, stringsContains l (dep.Name ++ " = ".toList) = true → '"' ∈ l := by
  intro ls
  induction ls with
  | nil => simp [updateDepLines]
  | cons line rest ih =>
    by_cases hc : stringsContains line (dep.Name ++ " = ".toList) = true
    · cases hr : replaceCommit line dep with
      | done line' =>
        have hq : '"' ∈ line := (replaceCommit_done_iff line dep).mp ⟨line', hr⟩
        cases hrest : updateDepLines dep rest with
        | done rest' =>
          have := ih.mp ⟨rest', hrest⟩
          simp only [updateDepLines, hc, if_true, hr, hrest]
          constructor
          · intro _ l hl
            rcases List.mem_cons.mp hl with e | e
            · subst e; exact fun _ => hq
            · exact this l e
          · intro _; exact ⟨_, rfl⟩
        | panic =>
          simp only [updateDepLines, hc, if_true, hr, hrest]
          constructor
          · rintro ⟨_, h⟩; cases h
          · intro hall
            have := ih.mpr (fun l hl => hall l (List.mem_cons_of_mem _ hl))
            rw [hrest] at this
            obtain ⟨_, h⟩ := this
            cases h
        | fatal =>
          simp only [updateDepLines, hc, if_true, hr, hrest]
          constructor
          · rintro ⟨_, h⟩; cases h
          · intro hall
            have := ih.mpr (fun l hl => hall l (List.mem_cons_of_mem _ hl))
            rw [hrest] at this
            obtain ⟨_, h⟩ := this
            cases h
      | panic =>
        simp only [updateDepLines, hc, if_true, hr]
        constructor
        · rintro ⟨_, h⟩; cases h
        · intro hall
          have hq := hall line (List.mem_cons_self _ _) hc
          obtain ⟨_, h⟩ := (replaceCommit_done_iff line dep).mpr hq
          rw [hr] at h
          cases h
      | fatal =>
        simp only [updateDepLines, hc, if_true, hr]
        constructor
        · rintro ⟨_, h⟩; cases h
        · intro hall
          have hq := hall line (List.mem_cons_self _ _) hc
          obtain ⟨_, h⟩ := (replaceCommit_done_iff line dep).mpr hq
          rw [hr] at h
          cases h
    · cases hrest : updateDepLines dep rest with
      | done rest' =>
        have := ih.mp ⟨rest', hrest⟩
        simp only [updateDepLines, hc, hrest]
        constructor
        · intro _ l hl
          rcases List.mem_cons.mp hl with e | e
          · subst e; exact fun ht => absurd ht hc
          · exact this l e
        · intro _; exact ⟨_, rfl⟩
      | panic =>
        simp only [updateDepLines, hc, hrest]
        constructor
        · rintro ⟨_, h⟩; simp at h
        · intro hall
          have := ih.mpr (fun l hl => hall l (List.mem_cons_of_mem _ hl))
          rw [hrest] at this
          obtain ⟨_, h⟩ := this
          cases h
      | fatal =>
        simp only [updateDepLines, hc, hrest]
        constructor
        · rintro ⟨_, h⟩; simp at h
        · intro hall
          have := ih.mpr (fun l hl => hall l (List.mem_cons_of_mem _ hl))
          rw [hrest] at this
          obtain ⟨_, h⟩ := this
          cases h

/-- A loop that meets no matching line leaves the lines as they are. -/
theorem updateDepLines_of_no_match (dep : dependency) :
    ∀ (ls : List GoString),
      (∀ l ∈ ls, stringsContains l (dep.Name ++ " = ".toList) = false) →
      updateDepLines dep ls = .done ls := by
  intro ls
  induction ls with
  | nil => intro _; simp [updateDepLines]
  | cons line rest ih =>
    intro h
    have h1 := h line (List.mem_cons_self _ _)
    have h2 := ih (fun l hl => h l (List.mem_cons_of_mem _ hl))
    rw [updateDepLines, h1, h2]
    simp

theorem forall₂_getElem? {α β : Type} {R : α → β → Prop} :
    ∀ {ls : List α} {ls' : List β}, List.Forall₂ R ls ls' →
      ∀ (i : Nat) (l : α), ls[i]? = some l → ∃ l', ls'[i]? = some l' ∧ R l l' := by
  intro ls ls' h
  induction h with
  | nil => intro i l hl; simp at hl
  | cons hr _ ih =>
    intro i l hl
    cases i with
    | zero =>
      simp at hl
      subst hl
      exact ⟨_, by simp, hr⟩
    | succ j =>
      simp at hl
      obtain ⟨l', h1, h2⟩ := ih j l hl
      exact ⟨l', by simpa using h1, h2⟩

theorem forall₂_mem_right {α β : Type} {R : α → β → Prop} :
    ∀ {ls : List α} {ls' : List β}, List.Forall₂ R ls ls' →
      ∀ l' ∈ ls', ∃ l ∈ ls, R l l' := by
  intro ls ls' h
  induction h with
  | nil => intro l' hl'; simp at hl'
  | cons hr _ ih =>
    intro l' hl'
    rcases List.mem_cons.mp hl' with e | e
    · subst e
      exact ⟨_, List.mem_cons_self _ _, hr⟩
    · obtain ⟨l, h1, h2⟩ := ih l' e
      exact ⟨l, List.mem_cons_of_mem _ h1, h2⟩

/-- The lines of a patched text, when the new commit contains no newline: as
many as before, and the loop's result line by line. -/
theorem updateDepFileText_lines (input output : GoString) (dep : dependency)
    (hsha : '\n' ∉ dep.LastStableSHA)
    (h : updateDepFileText input dep = .done output) :
    updateDepLines dep (stringsSplit '\n' input) = .done (stringsSplit '\n' output) := by
  unfold updateDepFileText at h
  cases hl : updateDepLines dep (stringsSplit '\n' input) with
  | panic => simp [hl] at h
  | fatal => simp [hl] at h
  | done ls' =>
    simp only [hl] at h
    injection h with h
    have hf := updateDepLines_done dep _ _ hl
    have hne : ls' ≠ [] := by
      intro e
      have hlen := hf.length_eq
      rw [e] at hlen
      exact stringsSplit_ne_nil '\n' input (List.length_eq_zero.mp hlen)
    have hno : ∀ l' ∈ ls', '\n' ∉ l' := by
      intro l' hl'
      obtain ⟨l, hmem, h1, h2⟩ := forall₂_mem_right hf l' hl'
      have hlno := not_mem_of_mem_stringsSplit '\n' input l hmem
      cases hc : stringsContains l (dep.Name ++ " = ".toList) with
      | true => exact replaceCommit_no_newline l l' dep hsha hlno (h1 hc)
      | false => rw [h2 hc]; exact hlno
    have hsplit := stringsSplit_stringsJoin '\n' ls' hne hno
    have hsep : "\n".toList = ['\n'] := rfl
    rw [hsep] at h
    rw [← h, hsplit]

/-! ## Generic patching: theorems -/

/-- C1 (as amended).  `updateDepFile`'s text transformation leaves untouched
lines byte-identical, provided the new commit contains no newline: whenever it
produces an output, the output has as many newline-separated lines as the input
and every input line that does not contain `<name> = ` stands unchanged at the
same position.  It produces an output exactly when every line that contains
`<name> = ` also contains a double quote.  On the spec's example, patching
`pilot` with commit `ffffff` yields exactly the expected text. -/
theorem updateDepFileText_preserves_untouched_lines :
    (∀ (input : GoString) (dep : dependency), '\n' ∉ dep.LastStableSHA →
      ((∃ output, updateDepFileText input dep = .done output) ↔
        ∀ line ∈ stringsSplit '\n' input,
          stringsContains line (dep.Name ++ " = ".toList) = true → '"' ∈ line) ∧
      ∀ output, updateDepFileText input dep = .done output →
        (stringsSplit '\n' output).length = (stringsSplit '\n' input).length ∧
        ∀ (i : Nat) (line : GoString), (stringsSplit '\n' input)[i]? = some line →
          stringsContains line (dep.Name ++ " = ".toList) = false →
          (stringsSplit '\n' output)[i]? = some line) ∧
    updateDepFileText exampleManifest pilotDep
      = .done "mixer = \"abc123\",\npilot = \"ffffff\",\n".toList := by
  refine ⟨?_, by decide⟩
  intro input dep hsha
  refine ⟨?_, ?_⟩
  · rw [← updateDepLines_done_iff dep (stringsSplit '\n' input)]
    unfold updateDepFileText
    cases updateDepLines dep (stringsSplit '\n' input) <;> simp
  · intro output h
    have hl := updateDepFileText_lines input output dep hsha h
    have hf := updateDepLines_done dep _ _ hl
    refine ⟨hf.length_eq.symm, ?_⟩
    intro i line hi hc
    obtain ⟨l', h1, _, h2⟩ := forall₂_getElem? hf i line hi
    rw [h1, h2 hc]

/-- C1, the theorem applied to the spec's example: the new commit `ffffff` has
no newline, the patch produces an output, and line 0 (the `mixer` line, which
does not contain `pilot = `) is unchanged. -/
theorem updateDepFileText_preserves_untouched_lines_witness :
    '\n' ∉ pilotDep.LastStableSHA ∧
    (stringsSplit '\n' "mixer = \"abc123\",\npilot = \"ffffff\",\n".toList)[0]?
      = some "mixer = \"abc123\",".toList :=
  ⟨by decide,
   ((updateDepFileText_preserves_untouched_lines.1 exampleManifest pilotDep (by decide)).2
      "mixer = \"abc123\",\npilot = \"ffffff\",\n".toList (by decide)).2
      0 "mixer = \"abc123\",".toList (by decide) (by decide)⟩

/-- C1 as stated fails in two ways.  A line that contains `pilot = ` but no
double quote makes the patch panic, so there is no output at all; and a new
commit that contains a newline changes the number of lines (here from 1 to 2). -/
theorem updateDepFileText_counterexample :
    updateDepFileText "pilot = abc123".toList pilotDep = .panic ∧
    ∃ output,
      updateDepFileText "pilot = \"abc123\",".toList
        { pilotDep with LastStableSHA := "fff\nfff".toList } = .done output ∧
      (stringsSplit '\n' output).length = 2 ∧
      (stringsSplit '\n' "pilot = \"abc123\",".toList).length = 1 :=
  ⟨by decide, "pilot = \"fff\nfff\",".toList, by decide, by decide, by decide⟩

/-- C2 (as amended).  On a line `prefix + "\"" + oldSha + "\"" + suffix` whose
prefix contains no double quote, `replaceCommit` keeps the prefix, replaces the
quoted SHA token by the quoted new commit, and puts a single comma in place of
whatever followed the closing quote. -/
theorem replaceCommit_rewrites_quoted_token (pre oldSha suffix : GoString)
    (dep : dependency) (hpre : '"' ∉ pre) :
    replaceCommit (pre ++ quote ++ oldSha ++ quote ++ suffix) dep
      = .done (pre ++ quote ++ dep.LastStableSHA ++ quote ++ ",".toList) := by
  have h := replaceCommit_of_quote pre (oldSha ++ quote ++ suffix) dep hpre
  simpa [quote] using h

/-- C2, the theorem applied to the line `pilot = "def456",`. -/
theorem replaceCommit_rewrites_quoted_token_witness :
    replaceCommit ("pilot = ".toList ++ quote ++ "def456".toList ++ quote ++ ",".toList)
        pilotDep
      = .done ("pilot = ".toList ++ quote ++ "ffffff".toList ++ quote ++ ",".toList) :=
  replaceCommit_rewrites_quoted_token "pilot = ".toList "def456".toList ",".toList
    pilotDep (by decide)

/-- C2 as stated fails: on the line `pilot = "def456", # pinned`, which contains
`pilot = `, the text after the closing quote is not preserved; the result is
`pilot = "ffffff",`. -/
theorem replaceCommit_counterexample :
    stringsContains
        ("pilot = ".toList ++ quote ++ "def456".toList ++ quote ++ ", # pinned".toList)
        (pilotDep.Name ++ " = ".toList) = true ∧
    replaceCommit
        ("pilot = ".toList ++ quote ++ "def456".toList ++ quote ++ ", # pinned".toList)
        pilotDep
      = .done "pilot = \"ffffff\",".toList ∧
    replaceCommit
        ("pilot = ".toList ++ quote ++ "def456".toList ++ quote ++ ", # pinned".toList)
        pilotDep
      ≠ .done ("pilot = ".toList ++ quote ++ pilotDep.LastStableSHA ++ quote
                ++ ", # pinned".toList) := by
  decide

/-- C3 (as amended).  `updateDepFile` has no not-found check: when the file is
read and none of its lines contains `<name> = `, it writes the text back
unchanged and returns what the write returned, so it reports success whenever
the write succeeds. -/
theorem updateDepFile_without_match (w : World) (dep : dependency) (hist : Trace)
    (input : GoString) (hread : w.readFile hist dep.File = .ok input)
    (hno : ∀ line ∈ stringsSplit '\n' input,
      stringsContains line (dep.Name ++ " = ".toList) = false) :
    updateDepFile w dep hist
      = (.done (w.writeFile (hist ++ [Event.readFile dep.File (.ok input)]) dep.File input),
         [Event.readFile dep.File (.ok input),
          Event.writeFile dep.File input
            (w.writeFile (hist ++ [Event.readFile dep.File (.ok input)]) dep.File input)]) := by
  have hl := updateDepLines_of_no_match dep _ hno
  have hj := stringsJoin_stringsSplit '\n' input
  have hsep : "\n".toList = ['\n'] := rfl
  have ht : updateDepFileText input dep = .done input := by
    simp only [updateDepFileText, hl, hsep, hj]
  simp [updateDepFile, Prog.bind, ioutilReadFile, hread, ht, ioutilWriteFile]

/-- C3, the theorem applied to the example manifest and dependency `auth`. -/
theorem updateDepFile_without_match_witness :
    (∀ line ∈ stringsSplit '\n' exampleManifest,
      stringsContains line (authDep.Name ++ " = ".toList) = false) ∧
    updateDepFile (exampleWorld false []) authDep []
      = (.done none,
         [Event.readFile authDep.File (.ok exampleManifest),
          Event.writeFile authDep.File exampleManifest none]) :=
  ⟨by decide,
   updateDepFile_without_match (exampleWorld false []) authDep [] exampleManifest rfl
     (by decide)⟩

/-- C3 as stated fails: no line of the example manifest contains `auth = `, yet
`updateDepFile` for dependency `auth` returns a nil error. -/
theorem updateDepFile_counterexample :
    (∀ line ∈ stringsSplit '\n' exampleManifest,
      stringsContains line (authDep.Name ++ " = ".toList) = false) ∧
    (updateDepFile (exampleWorld false []) authDep []).1 = .done none := by
  decide

/-! ## Lemmas: sequencing -/

theorem Prog.bind_done {α β : Type} (m : Prog α) (f : α → Prog β) (hist : Trace)
    (a : α) (es : List Event) (h : m hist = (.done a, es)) :
    Prog.bind m f hist = ((f a (hist ++ es)).1, es ++ (f a (hist ++ es)).2) := by
  simp [Prog.bind, h]

theorem getHeadCommitSHA_run (w : World) (repo branch : GoString) (hist : Trace) :
    getHeadCommitSHA w repo branch hist
      = (.done (w.getHeadCommitSHA hist repo branch),
         [Event.getHeadCommitSHA repo branch (w.getHeadCommitSHA hist repo branch)]) := rfl

/-! ## Lemmas: the fingerprint -/

/-- One turn of the loop whose lookup fails. -/
theorem fingerPrintLoop_cons_err (w : World) (dep : dependency) (rest : List dependency)
    (digest : GoString) (hist : Trace) (e : GoError)
    (h : w.getHeadCommitSHA hist dep.RepoName dep.ProdBranch = .err e) :
    fingerPrintLoop w (dep :: rest) digest hist
      = (.done (.err e, dep :: rest),
         [Event.getHeadCommitSHA dep.RepoName dep.ProdBranch (.err e)]) := by
  rw [fingerPrintLoop, Prog.bind_done _ _ hist _ _ (getHeadCommitSHA_run w _ _ hist), h]
  simp [Prog.ret]

/-- The loop always returns: it neither panics nor leaves the process. -/
theorem fingerPrintLoop_returns (w : World) :
    ∀ (deps : List dependency) (digest : GoString) (hist : Trace),
      ∃ out, (fingerPrintLoop w deps digest hist).1 = .done out := by
  intro deps
  induction deps with
  | nil => intro digest hist; exact ⟨_, rfl⟩
  | cons dep rest ih =>
    intro digest hist
    cases h : w.getHeadCommitSHA hist dep.RepoName dep.ProdBranch with
    | err e => rw [fingerPrintLoop_cons_err w dep rest digest hist e h]; exact ⟨_, rfl⟩
    | ok c =>
      obtain ⟨out, hout⟩ := ih (digest ++ c) (hist ++ [lookupOk dep c])
      rw [fingerPrintLoop, Prog.bind_done _ _ hist _ _ (getHeadCommitSHA_run w _ _ hist), h]
      simp only [lookupOk] at hout
      cases hrun : fingerPrintLoop w rest (digest ++ c)
          (hist ++ [Event.getHeadCommitSHA dep.RepoName dep.ProdBranch (.ok c)]) with
      | mk o es =>
        rw [hrun] at hout
        simp only at hout
        subst hout
        simp [Prog.bind, hrun, Prog.ret]

/-- One turn of the loop whose lookup succeeds. -/
theorem fingerPrintLoop_cons_ok (w : World) (dep : dependency) (rest : List dependency)
    (digest : GoString) (hist : Trace) (c : GoString)
    (h : w.getHeadCommitSHA hist dep.RepoName dep.ProdBranch = .ok c)
    (out : Res GoString × List dependency) (es : List Event)
    (hrest : fingerPrintLoop w rest (digest ++ c) (hist ++ [lookupOk dep c])
      = (.done out, es)) :
    fingerPrintLoop w (dep :: rest) digest hist
      = (.done (out.1, { dep with LastStableSHA := c } :: out.2), lookupOk dep c :: es) := by
  rw [fingerPrintLoop, Prog.bind_done _ _ hist _ _ (getHeadCommitSHA_run w _ _ hist), h]
  simp only [lookupOk] at hrest
  simp [Prog.bind, hrest, Prog.ret, lookupOk]

/-- The loop as a pair: its result and its calls. -/
theorem fingerPrintLoop_pair (w : World) (deps : List dependency) (digest : GoString)
    (hist : Trace) :
    ∃ out es, fingerPrintLoop w deps digest hist = (.done out, es) := by
  obtain ⟨out, hout⟩ := fingerPrintLoop_returns w deps digest hist
  cases hrun : fingerPrintLoop w deps digest hist with
  | mk o es =>
    rw [hrun] at hout
    simp only at hout
    subst hout
    exact ⟨out, es, rfl⟩

/-- The loop on a world that resolves every record: the digest text grows by the
commits in order, every record gets its commit, one lookup is made per record. -/
theorem fingerPrintLoop_of_resolves (w : World) :
    ∀ (deps : List dependency) (cs : List GoString) (digest : GoString) (hist : Trace),
      ResolvesTo w hist deps cs →
      fingerPrintLoop w deps digest hist
        = (.done (.ok (digest ++ cs.flatten),
            List.zipWith (fun d c => { d with LastStableSHA := c }) deps cs),
           List.zipWith lookupOk deps cs) := by
  intro deps
  induction deps with
  | nil =>
    intro cs digest hist h
    cases cs with
    | nil => simp [fingerPrintLoop, Prog.ret]
    | cons c cs => simp [ResolvesTo] at h
  | cons dep rest ih =>
    intro cs digest hist h
    cases cs with
    | nil => simp [ResolvesTo] at h
    | cons c cs =>
      obtain ⟨h1, h2⟩ := h
      have hrest := ih cs (digest ++ c) (hist ++ [lookupOk dep c]) h2
      rw [fingerPrintLoop_cons_ok w dep rest digest hist c h1 _ _ hrest]
      simp

/-- A loop that ends without error ran on a world that resolves every record. -/
theorem resolves_of_fingerPrintLoop_ok (w : World) :
    ∀ (deps : List dependency) (digest : GoString) (hist : Trace) (d : GoString)
      (deps' : List dependency) (es : List Event),
      fingerPrintLoop w deps digest hist = (.done (.ok d, deps'), es) →
      ∃ cs, ResolvesTo w hist deps cs := by
  intro deps
  induction deps with
  | nil => intro _ _ _ _ _ _; exact ⟨[], trivial⟩
  | cons dep rest ih =>
    intro digest hist d deps' es hrun
    cases h : w.getHeadCommitSHA hist dep.RepoName dep.ProdBranch with
    | err e =>
      rw [fingerPrintLoop_cons_err w dep rest digest hist e h] at hrun
      simp at hrun
    | ok c =>
      obtain ⟨out, es', hrest⟩ :=
        fingerPrintLoop_pair w rest (digest ++ c) (hist ++ [lookupOk dep c])
      rw [fingerPrintLoop_cons_ok w dep rest digest hist c h out es' hrest] at hrun
      obtain ⟨o1, o2⟩ := out
      simp only [Prod.mk.injEq, Outcome.done.injEq] at hrun
      obtain ⟨⟨ho, _⟩, _⟩ := hrun
      subst ho
      obtain ⟨cs, hcs⟩ := ih (digest ++ c) (hist ++ [lookupOk dep c]) d o2 es' hrest
      exact ⟨c :: cs, h, hcs⟩

/-- The calls of the loop, whatever the world answers: the `j`-th call looks up
the `j`-th record, and a lookup that fails is the last call and its error is
the loop's result. -/
theorem fingerPrintLoop_calls (w : World) :
    ∀ (deps : List dependency) (digest : GoString) (hist : Trace)
      (out : Res GoString × List dependency) (es : List Event),
      fingerPrintLoop w deps digest hist = (.done out, es) →
      (∀ (j : Nat) (ev : Event), es[j]? = some ev →
        ∃ d res, deps[j]? = some d ∧ ev = Event.getHeadCommitSHA d.RepoName d.ProdBranch res) ∧
      (∀ (j : Nat) (r b : GoString) (e : GoError),
        es[j]? = some (Event.getHeadCommitSHA r b (.err e)) →
        out.1 = .err e ∧ es.length = j + 1) := by
  intro deps
  induction deps with
  | nil =>
    intro digest hist out es hrun
    simp [fingerPrintLoop, Prog.ret] at hrun
    obtain ⟨_, hes⟩ := hrun
    subst hes
    simp
  | cons dep rest ih =>
    intro digest hist out es hrun
    cases h : w.getHeadCommitSHA hist dep.RepoName dep.ProdBranch with
    | err e =>
      rw [fingerPrintLoop_cons_err w dep rest digest hist e h] at hrun
      simp only [Prod.mk.injEq, Outcome.done.injEq] at hrun
      obtain ⟨hout, hes⟩ := hrun
      subst hout hes
      constructor
      · intro j ev hj
        cases j with
        | zero =>
          simp at hj
          exact ⟨dep, _, by simp, hj.symm⟩
        | succ k => simp at hj
      · intro j r b e' hj
        cases j with
        | zero =>
          simp at hj
          simp [hj.2.2]
        | succ k => simp at hj
    | ok c =>
      obtain ⟨out', es', hrest⟩ :=
        fingerPrintLoop_pair w rest (digest ++ c) (hist ++ [lookupOk dep c])
      rw [fingerPrintLoop_cons_ok w dep rest digest hist c h out' es' hrest] at hrun
      simp only [Prod.mk.injEq, Outcome.done.injEq] at hrun
      obtain ⟨hout, hes⟩ := hrun
      subst hout hes
      obtain ⟨ih1, ih2⟩ := ih (digest ++ c) (hist ++ [lookupOk dep c]) out' es' hrest
      constructor
      · intro j ev hj
        cases j with
        | zero =>
          simp at hj
          exact ⟨dep, _, by simp, by rw [← hj]; rfl⟩
        | succ k =>
          simp at hj
          obtain ⟨d, res, hd, hev⟩ := ih1 k ev hj
          exact ⟨d, res, by simpa using hd, hev⟩
      · intro j r b e' hj
        cases j with
        | zero => simp [lookupOk] at hj
        | succ k =>
          simp at hj
          obtain ⟨h1, h2⟩ := ih2 k r b e' hj
          exact ⟨h1, by simp [h2]⟩

theorem fingerPrint_head_err (w : World) (fl : Flags) (repo : GoString)
    (deps : List dependency) (hist : Trace) (e : GoError)
    (h : w.getHeadCommitSHA hist repo fl.baseBranch = .err e) :
    fingerPrintAndUpdateDepSHA w fl repo deps hist
      = (.done ([], some e, deps), [Event.getHeadCommitSHA repo fl.baseBranch (.err e)]) := by
  rw [fingerPrintAndUpdateDepSHA, Prog.bind_done _ _ hist _ _ (getHeadCommitSHA_run w _ _ hist), h]
  simp [Prog.ret]

theorem fingerPrint_head_ok (w : World) (fl : Flags) (repo : GoString)
    (deps : List dependency) (hist : Trace) (c : GoString)
    (h : w.getHeadCommitSHA hist repo fl.baseBranch = .ok c)
    (out : Res GoString × List dependency) (es : List Event)
    (hloop : fingerPrintLoop w deps (c ++ fl.baseBranch)
      (hist ++ [Event.getHeadCommitSHA repo fl.baseBranch (.ok c)]) = (.done out, es)) :
    fingerPrintAndUpdateDepSHA w fl repo deps hist
      = (.done (match out.1 with
                | .err e => ([], some e, out.2)
                | .ok digest => (GetMD5Hash digest, none, out.2)),
         Event.getHeadCommitSHA repo fl.baseBranch (.ok c) :: es) := by
  rw [fingerPrintAndUpdateDepSHA, Prog.bind_done _ _ hist _ _ (getHeadCommitSHA_run w _ _ hist), h]
  obtain ⟨o1, o2⟩ := out
  cases o1 <;> simp [Prog.bind, hloop, Prog.ret]

/-- `fingerPrintAndUpdateDepSHA` always returns. -/
theorem fingerPrint_pair (w : World) (fl : Flags) (repo : GoString)
    (deps : List dependency) (hist : Trace) :
    ∃ out es, fingerPrintAndUpdateDepSHA w fl repo deps hist = (.done out, es) := by
  cases h : w.getHeadCommitSHA hist repo fl.baseBranch with
  | err e => exact ⟨_, _, fingerPrint_head_err w fl repo deps hist e h⟩
  | ok c =>
    obtain ⟨out, es, hloop⟩ := fingerPrintLoop_pair w deps (c ++ fl.baseBranch)
      (hist ++ [Event.getHeadCommitSHA repo fl.baseBranch (.ok c)])
    exact ⟨_, _, fingerPrint_head_ok w fl repo deps hist c h out es hloop⟩

theorem ResolvesTo.length_eq (w : World) :
    ∀ (deps : List dependency) (cs : List GoString) (hist : Trace),
      ResolvesTo w hist deps cs → cs.length = deps.length := by
  intro deps
  induction deps with
  | nil => intro cs hist h; cases cs <;> simp [ResolvesTo] at h ⊢
  | cons d ds ih =>
    intro cs hist h
    cases cs with
    | nil => simp [ResolvesTo] at h
    | cons c cs => simp [ih cs _ h.2]

/-- In a resolving world the `i`-th commit is the world's answer to the lookup
of the `i`-th record, asked after the lookups of the records before it. -/
theorem ResolvesTo.answer (w : World) :
    ∀ (deps : List dependency) (cs : List GoString) (hist : Trace),
      ResolvesTo w hist deps cs →
      ∀ (i : Nat) (d : dependency), deps[i]? = some d →
        ∃ c, cs[i]? = some c ∧
          w.getHeadCommitSHA (hist ++ (List.zipWith lookupOk deps cs).take i)
            d.RepoName d.ProdBranch = .ok c := by
  intro deps
  induction deps with
  | nil => intro cs hist _ i d hd; simp at hd
  | cons d0 ds ih =>
    intro cs hist h i d hd
    cases cs with
    | nil => simp [ResolvesTo] at h
    | cons c cs =>
      obtain ⟨h1, h2⟩ := h
      cases i with
      | zero =>
        simp at hd
        subst hd
        exact ⟨c, by simp, by simpa using h1⟩
      | succ k =>
        simp at hd
        obtain ⟨c', hc', hans⟩ := ih cs _ h2 k d hd
        refine ⟨c', by simpa using hc', ?_⟩
        simpa using hans

/-- Replacing one commit of the list by a different one changes the digested
text. -/
theorem flatten_set_ne :
    ∀ (cs : List GoString) (i : Nat) (c' : GoString) (hi : i < cs.length),
      c' ≠ cs[i] → (cs.set i c').flatten ≠ cs.flatten := by
  intro cs
  induction cs with
  | nil => intro i c' hi; simp at hi
  | cons c cs ih =>
    intro i c' hi hne
    cases i with
    | zero =>
      simp only [List.set_cons_zero, List.flatten_cons]
      intro h
      exact hne (by simpa using List.append_cancel_right h)
    | succ k =>
      simp only [List.set_cons_succ, List.flatten_cons]
      intro h
      have hk : k < cs.length := by simpa using hi
      exact ih k c' hk (by simpa using hne) (List.append_cancel_left h)

/-! ## The fingerprint: theorems -/

/-- C4.  The fingerprint is a function of its resolved inputs: when the head
commit of the repository on the base branch resolves to `h` and the records
resolve, in manifest order, to the commits `cs`, `fingerPrintAndUpdateDepSHA`
returns, with a nil error, the MD5 digest of `h ++ baseBranch ++ c1 ++ ... ++ cN`.
Two runs with the same `h`, base branch and `cs` therefore return the same
digest. -/
theorem fingerPrint_eq_md5_of_inputs (w : World) (fl : Flags) (repo : GoString)
    (deps : List dependency) (hist : Trace) (h : GoString) (cs : List GoString)
    (hhead : w.getHeadCommitSHA hist repo fl.baseBranch = .ok h)
    (hdeps : ResolvesTo w (hist ++ [Event.getHeadCommitSHA repo fl.baseBranch (.ok h)])
      deps cs) :
    ∃ deps', (fingerPrintAndUpdateDepSHA w fl repo deps hist).1
      = .done (GetMD5Hash (digestText h fl.baseBranch cs), none, deps') := by
  have hloop := fingerPrintLoop_of_resolves w deps cs (h ++ fl.baseBranch) _ hdeps
  rw [fingerPrint_head_ok w fl repo deps hist h hhead _ _ hloop]
  exact ⟨_, rfl⟩

/-- C4, the theorem applied to repository `proxy` with records `mixer` and
`pilot` in the example world. -/
theorem fingerPrint_eq_md5_of_inputs_witness :
    ∃ deps', (fingerPrintAndUpdateDepSHA (exampleWorld false []) exampleFlags
        "proxy".toList [mixerDep, pilotDep] []).1
      = .done (GetMD5Hash (digestText "head-of-proxy".toList "master".toList
          ["head-of-mixer".toList, "head-of-pilot".toList]), none, deps') :=
  fingerPrint_eq_md5_of_inputs (exampleWorld false []) exampleFlags "proxy".toList
    [mixerDep, pilotDep] [] "head-of-proxy".toList
    ["head-of-mixer".toList, "head-of-pilot".toList] (by decide)
    ⟨by decide, by decide, trivial⟩

/-- C5 (as amended).  Changing one dependency's resolved commit changes the
digested text: of two runs that resolve the same head commit `h` on the same
base branch, one resolving the records to `cs` and the other to `cs` with commit
`i` replaced by a different string `c'`, each returns the MD5 digest of its text
`h ++ baseBranch ++ c1 ++ ... ++ cN`, and the two texts differ; the two
fingerprints therefore differ unless the texts collide under MD5. -/
theorem fingerPrint_digests_different_texts (w w' : World) (fl : Flags) (repo : GoString)
    (deps : List dependency) (hist hist' : Trace) (h : GoString) (cs : List GoString)
    (i : Nat) (c' : GoString) (hi : i < cs.length) (hne : c' ≠ cs[i])
    (hhead : w.getHeadCommitSHA hist repo fl.baseBranch = .ok h)
    (hdeps : ResolvesTo w (hist ++ [Event.getHeadCommitSHA repo fl.baseBranch (.ok h)])
      deps cs)
    (hhead' : w'.getHeadCommitSHA hist' repo fl.baseBranch = .ok h)
    (hdeps' : ResolvesTo w' (hist' ++ [Event.getHeadCommitSHA repo fl.baseBranch (.ok h)])
      deps (cs.set i c')) :
    digestText h fl.baseBranch (cs.set i c') ≠ digestText h fl.baseBranch cs ∧
    (∃ deps1, (fingerPrintAndUpdateDepSHA w fl repo deps hist).1
      = .done (GetMD5Hash (digestText h fl.baseBranch cs), none, deps1)) ∧
    (∃ deps2, (fingerPrintAndUpdateDepSHA w' fl repo deps hist').1
      = .done (GetMD5Hash (digestText h fl.baseBranch (cs.set i c')), none, deps2)) := by
  refine ⟨?_, ?_, ?_⟩
  · unfold digestText
    intro heq
    exact flatten_set_ne cs i c' hi hne (List.append_cancel_left heq)
  · have hloop := fingerPrintLoop_of_resolves w deps cs (h ++ fl.baseBranch) _ hdeps
    rw [fingerPrint_head_ok w fl repo deps hist h hhead _ _ hloop]
    exact ⟨_, rfl⟩
  · have hloop := fingerPrintLoop_of_resolves w' deps (cs.set i c') (h ++ fl.baseBranch) _ hdeps'
    rw [fingerPrint_head_ok w' fl repo deps hist' h hhead' _ _ hloop]
    exact ⟨_, rfl⟩

/-- C5, the theorem applied to two runs on repository `proxy` with records
`mixer` and `pilot`, in worlds where `mixer` is at `aaaaaa` and at `bbbbbb`. -/
theorem fingerPrint_digests_different_texts_witness :
    digestText "111111".toList "master".toList
        (["aaaaaa".toList, "0123456789abcdef0123456789abcdef01234567".toList].set 0
          "bbbbbb".toList)
      ≠ digestText "111111".toList "master".toList
        ["aaaaaa".toList, "0123456789abcdef0123456789abcdef01234567".toList] :=
  (fingerPrint_digests_different_texts
    (resolvingWorld (commitsWith "111111".toList "aaaaaa".toList))
    (resolvingWorld (commitsWith "111111".toList "bbbbbb".toList))
    exampleFlags "proxy".toList [mixerDep, pilotDep] [] [] "111111".toList
    ["aaaaaa".toList, "0123456789abcdef0123456789abcdef01234567".toList] 0
    "bbbbbb".toList (by decide) (by decide) (by decide) ⟨by decide, by decide, trivial⟩
    (by decide) ⟨by decide, by decide, trivial⟩).1

set_option maxRecDepth 1000000 in
/-- C5 as stated fails, because MD5 has collisions.  Two runs on the same
repository and records, whose worlds differ only in the head commit of `mixer`
(the remaining bytes of one or the other colliding message), return the same
fingerprint. -/
theorem fingerPrint_collision :
    collisionB.drop 16 ≠ collisionA.drop 16 ∧
    (fingerPrintAndUpdateDepSHA (resolvingWorld (commitsWith (collisionA.take 8) (collisionA.drop 16)))
        collisionFlags "proxy".toList [mixerDep, pilotDep] []).1
      = .done ("82b9fbeeec2f338a481f907d66914c11".toList, none,
          [{ mixerDep with LastStableSHA := collisionA.drop 16 },
           { pilotDep with LastStableSHA := "0123456789abcdef0123456789abcdef01234567".toList }]) ∧
    (fingerPrintAndUpdateDepSHA (resolvingWorld (commitsWith (collisionA.take 8) (collisionB.drop 16)))
        collisionFlags "proxy".toList [mixerDep, pilotDep] []).1
      = .done ("82b9fbeeec2f338a481f907d66914c11".toList, none,
          [{ mixerDep with LastStableSHA := collisionB.drop 16 },
           { pilotDep with LastStableSHA := "0123456789abcdef0123456789abcdef01234567".toList }]) := by
  decide

/-- C6.  A failing head-commit lookup aborts fingerprinting: if the `j`-th call
of `fingerPrintAndUpdateDepSHA` is a lookup that fails with error `e`, the
function returns that error with the empty string as digest, and that lookup is
its last call.  Its calls are, in order, the lookup of the repository on the
base branch and then of the records, so no record after the failing one is
looked up. -/
theorem fingerPrint_aborts_on_failed_lookup (w : World) (fl : Flags) (repo : GoString)
    (deps : List dependency) (hist : Trace) (j : Nat) (r b : GoString) (e : GoError)
    (hfail : (fingerPrintAndUpdateDepSHA w fl repo deps hist).2[j]?
      = some (Event.getHeadCommitSHA r b (.err e))) :
    (∃ deps', (fingerPrintAndUpdateDepSHA w fl repo deps hist).1
      = .done ([], some e, deps')) ∧
    (fingerPrintAndUpdateDepSHA w fl repo deps hist).2.length = j + 1 ∧
    ∀ (k : Nat) (ev : Event),
      (fingerPrintAndUpdateDepSHA w fl repo deps hist).2[k]? = some ev →
      ∃ t res, (lookupTargets fl repo deps)[k]? = some t ∧
        ev = Event.getHeadCommitSHA t.1 t.2 res := by
  cases h : w.getHeadCommitSHA hist repo fl.baseBranch with
  | err e0 =>
    rw [fingerPrint_head_err w fl repo deps hist e0 h] at hfail ⊢
    cases j with
    | zero =>
      simp at hfail
      refine ⟨⟨deps, by simp [hfail.2.2]⟩, by simp, ?_⟩
      intro k ev hk
      cases k with
      | zero =>
        simp at hk
        exact ⟨(repo, fl.baseBranch), _, by simp [lookupTargets], hk.symm⟩
      | succ k' => simp at hk
    | succ j' => simp at hfail
  | ok c =>
    obtain ⟨out, es, hloop⟩ := fingerPrintLoop_pair w deps (c ++ fl.baseBranch)
      (hist ++ [Event.getHeadCommitSHA repo fl.baseBranch (.ok c)])
    rw [fingerPrint_head_ok w fl repo deps hist c h out es hloop] at hfail ⊢
    obtain ⟨hcalls, herr⟩ := fingerPrintLoop_calls w deps _ _ out es hloop
    cases j with
    | zero => simp at hfail
    | succ j' =>
      simp at hfail
      obtain ⟨h1, h2⟩ := herr j' r b e hfail
      refine ⟨⟨out.2, by simp [h1]⟩, by simp [h2], ?_⟩
      intro k ev hk
      cases k with
      | zero =>
        simp at hk
        exact ⟨(repo, fl.baseBranch), _, by simp [lookupTargets], hk.symm⟩
      | succ k' =>
        simp at hk
        obtain ⟨d, res, hd, hev⟩ := hcalls k' ev hk
        exact ⟨(d.RepoName, d.ProdBranch), res, by simp [lookupTargets, hd], hev⟩

/-- C6, the theorem applied to a world in which `pilot` cannot be reached: the
lookup of `pilot` is call 2, the error comes back with an empty digest, and
`auth`, the record after `pilot`, is not looked up (three calls in all). -/
theorem fingerPrint_aborts_on_failed_lookup_witness :
    (fingerPrintAndUpdateDepSHA (exampleWorld false ["pilot".toList]) exampleFlags
        "proxy".toList [mixerDep, pilotDep, authDep] []).2[2]?
      = some (Event.getHeadCommitSHA "pilot".toList "stable".toList
          (.err ⟨"not found".toList⟩)) ∧
    (∃ deps', (fingerPrintAndUpdateDepSHA (exampleWorld false ["pilot".toList]) exampleFlags
        "proxy".toList [mixerDep, pilotDep, authDep] []).1
      = .done ([], some ⟨"not found".toList⟩, deps')) ∧
    (fingerPrintAndUpdateDepSHA (exampleWorld false ["pilot".toList]) exampleFlags
        "proxy".toList [mixerDep, pilotDep, authDep] []).2.length = 3 :=
  have h := fingerPrint_aborts_on_failed_lookup (exampleWorld false ["pilot".toList])
    exampleFlags "proxy".toList [mixerDep, pilotDep, authDep] [] 2 "pilot".toList
    "stable".toList ⟨"not found".toList⟩ (by decide)
  ⟨by decide, h.1, h.2.1⟩

/-- C7.  A successful fingerprint step updates the records in place and nothing
else: the list keeps its length and order, and record `i` is the old record
`i` with `LastStableSHA` replaced by the commit `c` that the world answered to
the lookup of that record's `(RepoName, ProdBranch)` (call `i + 1` of the
step); `Name`, `RepoName`, `ProdBranch` and `File` are unchanged. -/
theorem fingerPrint_updates_records_in_place (w : World) (fl : Flags) (repo : GoString)
    (deps : List dependency) (hist : Trace) (digest : GoString)
    (deps' : List dependency) (es : List Event)
    (hrun : fingerPrintAndUpdateDepSHA w fl repo deps hist
      = (.done (digest, none, deps'), es)) :
    deps'.length = deps.length ∧
    ∀ (i : Nat) (d : dependency), deps[i]? = some d →
      ∃ c, deps'[i]? = some { d with LastStableSHA := c } ∧
        es[i + 1]? = some (Event.getHeadCommitSHA d.RepoName d.ProdBranch (.ok c)) ∧
        w.getHeadCommitSHA (hist ++ es.take (i + 1)) d.RepoName d.ProdBranch = .ok c := by
  cases h : w.getHeadCommitSHA hist repo fl.baseBranch with
  | err e0 =>
    rw [fingerPrint_head_err w fl repo deps hist e0 h] at hrun
    simp at hrun
  | ok c0 =>
    obtain ⟨out, es0, hloop⟩ := fingerPrintLoop_pair w deps (c0 ++ fl.baseBranch)
      (hist ++ [Event.getHeadCommitSHA repo fl.baseBranch (.ok c0)])
    obtain ⟨o1, o2⟩ := out
    cases o1 with
    | err e1 =>
      rw [fingerPrint_head_ok w fl repo deps hist c0 h _ es0 hloop] at hrun
      simp at hrun
    | ok dtext =>
      obtain ⟨cs, hcs⟩ := resolves_of_fingerPrintLoop_ok w deps _ _ dtext o2 es0 hloop
      have hloop' := fingerPrintLoop_of_resolves w deps cs (c0 ++ fl.baseBranch) _ hcs
      rw [fingerPrint_head_ok w fl repo deps hist c0 h _ _ hloop'] at hrun
      simp only [Prod.mk.injEq, Outcome.done.injEq, true_and] at hrun
      obtain ⟨⟨_, hdeps'⟩, hes⟩ := hrun
      subst hdeps' hes
      have hlen := ResolvesTo.length_eq w deps cs _ hcs
      refine ⟨by simp [hlen], ?_⟩
      intro i d hd
      obtain ⟨c, hc, hans⟩ := ResolvesTo.answer w deps cs _ hcs i d hd
      refine ⟨c, ?_, ?_, ?_⟩
      · simp [List.getElem?_zipWith, hd, hc]
      · simp [List.getElem?_zipWith, hd, hc, lookupOk]
      · simpa using hans

/-- C7, the theorem applied to the records `mixer` and `pilot` in the example
world: the step succeeds and only the commits change. -/
theorem fingerPrint_updates_records_in_place_witness :
    ∃ digest es,
      fingerPrintAndUpdateDepSHA (exampleWorld false []) exampleFlags "proxy".toList
          [mixerDep, pilotDep] []
        = (.done (digest, none,
            [{ mixerDep with LastStableSHA := "head-of-mixer".toList },
             { pilotDep with LastStableSHA := "head-of-pilot".toList }]), es) ∧
      [{ mixerDep with LastStableSHA := "head-of-mixer".toList },
       { pilotDep with LastStableSHA := "head-of-pilot".toList }].length
        = [mixerDep, pilotDep].length :=
  ⟨_, _, rfl,
   (fingerPrint_updates_records_in_place (exampleWorld false []) exampleFlags
      "proxy".toList [mixerDep, pilotDep] [] _ _ _ rfl).1⟩

/-! ## Lemmas: the kinds of call a piece of program makes -/

theorem Prog.Emits.ret {α : Type} (P : Event → Prop) (a : α) :
    Prog.Emits P (Prog.ret a) := by
  intro hist e he
  simp [Prog.ret] at he

theorem Prog.Emits.bind {α β : Type} {P : Event → Prop} {m : Prog α} {f : α → Prog β}
    (hm : Prog.Emits P m) (hf : ∀ a, Prog.Emits P (f a)) :
    Prog.Emits P (Prog.bind m f) := by
  intro hist e he
  unfold Prog.bind at he
  cases hrun : m hist with
  | mk o es =>
    have hes : ∀ e ∈ es, P e := by
      intro e' he'
      exact hm hist e' (by rw [hrun]; exact he')
    rw [hrun] at he
    cases o with
    | done a =>
      simp only [List.mem_append] at he
      rcases he with h | h
      · exact hes e h
      · exact hf a _ e h
    | panic => exact hes e he
    | fatal => exact hes e he

theorem Prog.Emits.mono {α : Type} {P Q : Event → Prop} {m : Prog α}
    (hm : Prog.Emits P m) (hPQ : ∀ e, P e → Q e) : Prog.Emits Q m :=
  fun hist e he => hPQ e (hm hist e he)

theorem fingerPrintLoop_emits (w : World) :
    ∀ (deps : List dependency) (digest : GoString),
      Prog.Emits (fun e => ∃ r b res, e = Event.getHeadCommitSHA r b res)
        (fingerPrintLoop w deps digest) := by
  intro deps
  induction deps with
  | nil => intro digest; exact Prog.Emits.ret _ _
  | cons dep rest ih =>
    intro digest
    unfold fingerPrintLoop
    apply Prog.Emits.bind
    · intro hist e he
      simp [getHeadCommitSHA] at he
      exact ⟨_, _, _, he⟩
    · intro r
      cases r with
      | err e => exact Prog.Emits.ret _ _
      | ok c => exact Prog.Emits.bind (ih _) (fun _ => Prog.Emits.ret _ _)

theorem fingerPrint_emits (w : World) (fl : Flags) (repo : GoString)
    (deps : List dependency) :
    Prog.Emits (fun e => ∃ r b res, e = Event.getHeadCommitSHA r b res)
      (fingerPrintAndUpdateDepSHA w fl repo deps) := by
  unfold fingerPrintAndUpdateDepSHA
  apply Prog.Emits.bind
  · intro hist e he
    simp [getHeadCommitSHA] at he
    exact ⟨_, _, _, he⟩
  · intro r
    cases r with
    | err e => exact Prog.Emits.ret _ _
    | ok c =>
      apply Prog.Emits.bind (fingerPrintLoop_emits w deps _)
      intro out
      cases out.1 <;> exact Prog.Emits.ret _ _

theorem Shell_emits (w : World) (cmd : GoString) :
    Prog.Emits Event.isUpdateCall (Shell w cmd) := by
  intro hist e he
  simp [Shell, sh] at he
  subst he
  simp [Event.isUpdateCall]

theorem updateDepFile_emits (w : World) (dep : dependency) :
    Prog.Emits Event.isUpdateCall (updateDepFile w dep) := by
  unfold updateDepFile
  apply Prog.Emits.bind
  · intro hist e he
    simp [ioutilReadFile] at he
    subst he
    simp [Event.isUpdateCall]
  · intro r
    cases r with
    | err e => exact Prog.Emits.ret _ _
    | ok input =>
      intro hist e he
      simp only [] at he
      cases ht : updateDepFileText input dep with
      | done output =>
        rw [ht] at he
        simp [ioutilWriteFile] at he
        subst he
        simp [Event.isUpdateCall]
      | panic => rw [ht] at he; simp at he
      | fatal => rw [ht] at he; simp at he

theorem updateDepFiles_emits (w : World) :
    ∀ (deps : List dependency), Prog.Emits Event.isUpdateCall (updateDepFiles w deps) := by
  intro deps
  induction deps with
  | nil => exact Prog.Emits.ret _ _
  | cons dep rest ih =>
    unfold updateDepFiles
    apply Prog.Emits.bind (updateDepFile_emits w dep)
    intro err
    cases err with
    | some e => exact Prog.Emits.ret _ _
    | none => exact ih

theorem istioVersionGet_emits (w : World) (key : GoString) :
    Prog.Emits Event.isUpdateCall (istioVersionGet w key) := by
  unfold istioVersionGet
  apply Prog.Emits.bind
  · intro hist e he
    simp [execBash] at he
    subst he
    simp [Event.isUpdateCall]
  · intro _
    exact Prog.Emits.ret _ _

theorem updateIstioDeps_emits (w : World) (deps : List dependency) :
    Prog.Emits Event.isUpdateCall (updateIstioDeps w deps) := by
  unfold updateIstioDeps
  simp only
  split
  · exact Prog.Emits.ret _ _
  · apply Prog.Emits.bind (istioVersionGet_emits w _)
    intro caHub
    cases caHub.2 with
    | some e => exact Prog.Emits.ret _ _
    | none =>
    apply Prog.Emits.bind (istioVersionGet_emits w _)
    intro phub
    cases phub.2 with
    | some e => exact Prog.Emits.ret _ _
    | none =>
    apply Prog.Emits.bind (istioVersionGet_emits w _)
    intro mhub
    cases mhub.2 with
    | some e => exact Prog.Emits.ret _ _
    | none =>
    apply Prog.Emits.bind (istioVersionGet_emits w _)
    intro url
    cases url.2 with
    | some e => exact Prog.Emits.ret _ _
    | none =>
    apply Prog.Emits.bind (istioVersionGet_emits w _)
    intro tag
    cases tag.2 with
    | some e => exact Prog.Emits.ret _ _
    | none =>
    apply Prog.Emits.bind (Shell_emits w _)
    intro r
    cases r <;> exact Prog.Emits.ret _ _

theorem updateDeps_emits (w : World) (repo : GoString) (deps : List dependency) :
    Prog.Emits Event.isUpdateCall (updateDeps w repo deps) := by
  unfold updateDeps
  split
  · apply Prog.Emits.bind (updateIstioDeps_emits w deps)
    intro err
    cases err <;> exact Prog.Emits.ret _ _
  · exact updateDepFiles_emits w deps

theorem updateDependenciesOfTail_emits (w : World) (fl : Flags) (repo : GoString)
    (deps : List dependency) (branch : GoString) :
    Prog.Emits Event.isUpdateCall (updateDependenciesOfTail w fl repo deps branch) := by
  unfold updateDependenciesOfTail
  apply Prog.Emits.bind (Shell_emits w _)
  intro r
  cases r with
  | err e => exact Prog.Emits.ret _ _
  | ok _ =>
  apply Prog.Emits.bind (updateDeps_emits w repo deps)
  intro err
  cases err with
  | some e => exact Prog.Emits.ret _ _
  | none =>
  apply Prog.Emits.bind
  · intro hist e he
    simp [serializeDeps] at he
    subst he
    simp [Event.isUpdateCall]
  intro err
  cases err with
  | some e => exact Prog.Emits.ret _ _
  | none =>
  apply Prog.Emits.bind (Shell_emits w _)
  intro r
  cases r with
  | err e => exact Prog.Emits.ret _ _
  | ok _ =>
  apply Prog.Emits.bind (Shell_emits w _)
  intro r
  cases r with
  | err e => exact Prog.Emits.ret _ _
  | ok _ =>
  apply Prog.Emits.bind
  · intro hist e he
    simp [createPullRequest] at he
    subst he
    simp [Event.isUpdateCall]
  intro err
  cases err <;> exact Prog.Emits.ret _ _

theorem cleanUp_emits (w : World) (repo : GoString) :
    Prog.Emits (Event.isCleanUp repo) (cleanUp w repo) := by
  unfold cleanUp
  apply Prog.Emits.bind
  · intro hist e he
    simp [osChdir] at he
    subst he
    simp [Event.isCleanUp]
  · intro err
    cases err with
    | some e => exact Prog.Emits.ret _ _
    | none =>
      intro hist e he
      simp [osRemoveAll] at he
      subst he
      simp [Event.isCleanUp]

theorem deferredCleanUp_emits (w : World) (repo : GoString) :
    Prog.Emits (Event.isCleanUp repo) (deferredCleanUp w repo) := by
  unfold deferredCleanUp
  apply Prog.Emits.bind (cleanUp_emits w repo)
  intro err
  cases err with
  | some e => intro hist e' he; simp at he
  | none => exact Prog.Emits.ret _ _

/-! ## Lemmas: the shape of an attempt -/

/-- The runs of the statements after the `defer`, by the place where they end:
before the branch-exists check, at a failing check, after the call of
`closeFailedPullRequests` (the branch exists, or the call failed), or in the
statements from line 208 on.  The calls `pre` made before the check are
preparation calls. -/
theorem updateDependenciesOfBody_shape (w : World) (fl : Flags) (repo : GoString)
    (hist : Trace) :
    ∃ pre : List Event, (∀ e ∈ pre, e.isPreparation w fl repo) ∧
      ((∃ err, updateDependenciesOfBody w fl repo hist = (.done (some err), pre)) ∨
       (∃ digest err, updateDependenciesOfBody w fl repo hist
          = (.done (some err),
             pre ++ [Event.existBranch repo ("autoUpdateDeps_".toList ++ digest) (.err err)])) ∨
       (∃ digest b r, (b = true ∨ r ≠ none) ∧
          updateDependenciesOfBody w fl repo hist
            = (.done r,
               pre ++ [Event.existBranch repo ("autoUpdateDeps_".toList ++ digest) (.ok b),
                       Event.closeFailedPullRequests repo fl.baseBranch r])) ∨
       (∃ digest deps,
          updateDependenciesOfBody w fl repo hist
            = ((updateDependenciesOfTail w fl repo deps ("autoUpdateDeps_".toList ++ digest)
                  (hist ++ (pre ++
                    [Event.existBranch repo ("autoUpdateDeps_".toList ++ digest) (.ok false),
                     Event.closeFailedPullRequests repo fl.baseBranch none]))).1,
               pre ++ [Event.existBranch repo ("autoUpdateDeps_".toList ++ digest) (.ok false),
                       Event.closeFailedPullRequests repo fl.baseBranch none]
                 ++ (updateDependenciesOfTail w fl repo deps ("autoUpdateDeps_".toList ++ digest)
                  (hist ++ (pre ++
                    [Event.existBranch repo ("autoUpdateDeps_".toList ++ digest) (.ok false),
                     Event.closeFailedPullRequests repo fl.baseBranch none]))).2))) := by
  have hsh : ∀ (cmd : GoString) (h : Trace),
      Shell w cmd h = (.done (w.sh h (fmtSprintf cmd)),
        [Event.sh cmd false (w.sh h (fmtSprintf cmd))]) :=
    fun _ _ => rfl
  have hde : ∀ (f : GoString) (h : Trace),
      deserializeDeps w f h
        = (.done (w.deserializeDeps h f), [Event.deserializeDeps f (w.deserializeDeps h f)]) :=
    fun _ _ => rfl
  have hex : ∀ (r b : GoString) (h : Trace),
      existBranch w r b h
        = (.done (w.existBranch h r b), [Event.existBranch r b (w.existBranch h r b)]) :=
    fun _ _ _ => rfl
  have hcl : ∀ (r b : GoString) (h : Trace),
      closeFailedPullRequests w r b h
        = (.done (w.closeFailedPullRequests h r b),
           [Event.closeFailedPullRequests r b (w.closeFailedPullRequests h r b)]) :=
    fun _ _ _ => rfl
  rw [updateDependenciesOfBody, Prog.bind_done _ _ hist _ _ (hsh _ hist)]
  cases h1 : w.sh hist (fmtSprintf ("git checkout ".toList ++ fl.baseBranch)) with
  | err e1 =>
    refine ⟨[Event.sh ("git checkout ".toList ++ fl.baseBranch) false (.err e1)], ?_,
      Or.inl ⟨e1, ?_⟩⟩
    · intro e he
      simp at he
      subst he
      simp [Event.isPreparation]
    · simp [Prog.ret]
  | ok out1 =>
    simp only []
    rw [Prog.bind_done _ _ _ _ _ (hde _ _)]
    cases h2 : w.deserializeDeps
        (hist ++ [Event.sh ("git checkout ".toList ++ fl.baseBranch) false (.ok out1)])
        istioDepsFile with
    | err e2 =>
      refine ⟨[Event.sh ("git checkout ".toList ++ fl.baseBranch) false (.ok out1),
        Event.deserializeDeps istioDepsFile (.err e2)], ?_, Or.inl ⟨e2, ?_⟩⟩
      · intro e he
        simp at he
        rcases he with he | he <;> subst he <;> simp [Event.isPreparation]
      · simp [Prog.ret]
    | ok deps =>
      simp only []
      obtain ⟨fp, esfp, hfp⟩ := fingerPrint_pair w fl repo deps
        (hist ++ [Event.sh ("git checkout ".toList ++ fl.baseBranch) false (.ok out1)]
          ++ [Event.deserializeDeps istioDepsFile (.ok deps)])
      have hemit : ∀ e ∈ esfp, ∃ r b res, e = Event.getHeadCommitSHA r b res := by
        intro e he
        exact fingerPrint_emits w fl repo deps _ e (by rw [hfp]; exact he)
      have hpre : ∀ e ∈ [Event.sh ("git checkout ".toList ++ fl.baseBranch) false (.ok out1),
          Event.deserializeDeps istioDepsFile (.ok deps)] ++ esfp,
          e.isPreparation w fl repo := by
        intro e he
        simp only [List.mem_append, List.mem_cons, List.mem_singleton, List.not_mem_nil,
          or_false] at he
        rcases he with (he | he) | he
        · subst he; simp [Event.isPreparation]
        · subst he; simp [Event.isPreparation]
        · obtain ⟨r, b, res, hres⟩ := hemit e he
          subst hres
          simp [Event.isPreparation]
      rw [Prog.bind_done _ _ _ _ _ hfp]
      obtain ⟨digest, oerr, deps'⟩ := fp
      cases oerr with
      | some e3 =>
        refine ⟨_, hpre, Or.inl ⟨e3, ?_⟩⟩
        simp [Prog.ret]
      | none =>
        simp only []
        rw [Prog.bind_done _ _ _ _ _ (hex _ _ _)]
        cases h4 : w.existBranch
            (hist ++ [Event.sh ("git checkout ".toList ++ fl.baseBranch) false (.ok out1)]
              ++ [Event.deserializeDeps istioDepsFile (.ok deps)] ++ esfp)
            repo ("autoUpdateDeps_".toList ++ digest) with
        | err e4 =>
          refine ⟨_, hpre, Or.inr (Or.inl ⟨digest, e4, ?_⟩)⟩
          simp [Prog.ret]
        | ok b =>
          simp only []
          rw [Prog.bind_done _ _ _ _ _ (hcl _ _ _)]
          generalize w.closeFailedPullRequests
            (hist ++ [Event.sh ("git checkout ".toList ++ fl.baseBranch) false (.ok out1)]
              ++ [Event.deserializeDeps istioDepsFile (.ok deps)] ++ esfp
              ++ [Event.existBranch repo ("autoUpdateDeps_".toList ++ digest) (.ok b)])
            repo fl.baseBranch = r
          by_cases hstop : b = true ∨ r ≠ none
          · refine ⟨_, hpre, Or.inr (Or.inr (Or.inl ⟨digest, b, r, hstop, ?_⟩))⟩
            rw [if_pos hstop]
            simp only [Prog.ret, List.append_assoc, List.append_nil, List.cons_append,
              List.nil_append]
          · have hb : b = false := by
              cases b
              · rfl
              · exact absurd (Or.inl rfl) hstop
            have hr : r = none := by
              by_contra hne
              exact hstop (Or.inr hne)
            subst hb hr
            refine ⟨_, hpre, Or.inr (Or.inr (Or.inr ⟨digest, deps', ?_⟩))⟩
            rw [if_neg hstop]
            simp only [List.append_assoc, List.cons_append, List.nil_append]

/-- A deferred call adds its calls after those of the body; unless the deferred
call fails, a body that returned still returns the same value. -/
theorem Prog.defer_run {α : Type} (body : Prog α) (deferred : Prog Unit) (hist : Trace) :
    (Prog.defer body deferred hist).2 = (body hist).2 ∨
    (Prog.defer body deferred hist).2
      = (body hist).2 ++ (deferred (hist ++ (body hist).2)).2 := by
  unfold Prog.defer
  cases hb : body hist with
  | mk o es =>
    cases o with
    | fatal => exact Or.inl rfl
    | done a =>
      right
      cases hd : deferred (hist ++ es) with
      | mk o' es' => cases o' <;> simp [hd]
    | panic =>
      right
      cases hd : deferred (hist ++ es) with
      | mk o' es' => cases o' <;> simp [hd]

/-- The calls of a body with a deferred `cleanUp`: those of the body, then
calls of `cleanUp`. -/
theorem Prog.defer_events {α : Type} (body : Prog α) (w : World) (repo : GoString)
    (hist : Trace) :
    ∃ cleanup, (∀ e ∈ cleanup, e.isCleanUp repo) ∧
      (Prog.defer body (deferredCleanUp w repo) hist).2 = (body hist).2 ++ cleanup := by
  rcases Prog.defer_run body (deferredCleanUp w repo) hist with h | h
  · exact ⟨[], by simp, by simp [h]⟩
  · exact ⟨_, fun e he => deferredCleanUp_emits w repo _ e he, h⟩

/-- `cleanUp` always returns. -/
theorem cleanUp_pair (w : World) (repo : GoString) (hist : Trace) :
    ∃ r es, cleanUp w repo hist = (.done r, es) := by
  have hcd : osChdir w "..".toList hist
      = (.done (w.chdir hist "..".toList),
         [Event.chdir "..".toList (w.chdir hist "..".toList)]) := rfl
  rw [cleanUp, Prog.bind_done _ _ hist _ _ hcd]
  cases w.chdir hist "..".toList with
  | some e => exact ⟨_, _, rfl⟩
  | none => exact ⟨_, _, rfl⟩

/-- When the body returned, the function returns the same value, unless the
deferred `cleanUp` failed and the process was left. -/
theorem Prog.defer_outcome {α : Type} (body : Prog α) (w : World) (repo : GoString)
    (hist : Trace) (a : α) (h : (body hist).1 = .done a) :
    (Prog.defer body (deferredCleanUp w repo) hist).1 = .done a ∨
    (Prog.defer body (deferredCleanUp w repo) hist).1 = .fatal := by
  unfold Prog.defer
  cases hb : body hist with
  | mk o es =>
    rw [hb] at h
    simp only at h
    subst h
    simp only
    have hd : (deferredCleanUp w repo (hist ++ es)).1 = .done () ∨
        (deferredCleanUp w repo (hist ++ es)).1 = .fatal := by
      obtain ⟨r, es', hc⟩ := cleanUp_pair w repo (hist ++ es)
      rw [deferredCleanUp, Prog.bind_done _ _ _ _ _ hc]
      cases r with
      | some e => right; rfl
      | none => left; rfl
    cases hrun : deferredCleanUp w repo (hist ++ es) with
    | mk o' es' =>
      rw [hrun] at hd
      simp only at hd
      rcases hd with hd | hd <;> subst hd <;> simp

theorem updateDependenciesOfTail_head (w : World) (fl : Flags) (repo : GoString)
    (deps : List dependency) (branch : GoString) (hist : Trace) :
    ∃ res rest, (updateDependenciesOfTail w fl repo deps branch hist).2
      = Event.sh ("git checkout -b ".toList ++ branch) false res :: rest := by
  have hsh : Shell w ("git checkout -b ".toList ++ branch) hist
      = (.done (w.sh hist (fmtSprintf ("git checkout -b ".toList ++ branch))),
         [Event.sh ("git checkout -b ".toList ++ branch) false
            (w.sh hist (fmtSprintf ("git checkout -b ".toList ++ branch)))]) := rfl
  rw [updateDependenciesOfTail, Prog.bind_done _ _ hist _ _ hsh]
  exact ⟨_, _, rfl⟩

/-- The calls of an attempt, by the place where it ends.  `pre` are the calls
made before the branch-exists check, `cleanup` those of the deferred `cleanUp`. -/
theorem updateDependenciesOf_shape (w : World) (fl : Flags) (repo : GoString)
    (hist : Trace) :
    ∃ pre cleanup : List Event,
      (∀ e ∈ pre, e.isPreparation w fl repo) ∧ (∀ e ∈ cleanup, e.isCleanUp repo) ∧
      ((updateDependenciesOf w fl repo hist).2 = pre ++ cleanup ∨
       (∃ digest err, (updateDependenciesOf w fl repo hist).2
          = pre ++ [Event.existBranch repo ("autoUpdateDeps_".toList ++ digest) (.err err)]
              ++ cleanup) ∨
       (∃ digest b r, (b = true ∨ r ≠ none) ∧
          (updateDependenciesOf w fl repo hist).2
            = pre ++ [Event.existBranch repo ("autoUpdateDeps_".toList ++ digest) (.ok b),
                      Event.closeFailedPullRequests repo fl.baseBranch r] ++ cleanup ∧
          ((updateDependenciesOf w fl repo hist).1 = .done r ∨
           (updateDependenciesOf w fl repo hist).1 = .fatal)) ∨
       (∃ digest res rest,
          (updateDependenciesOf w fl repo hist).2
            = pre ++ [Event.existBranch repo ("autoUpdateDeps_".toList ++ digest) (.ok false),
                      Event.closeFailedPullRequests repo fl.baseBranch none]
                ++ Event.sh ("git checkout -b ".toList ++ ("autoUpdateDeps_".toList ++ digest))
                    false res :: rest ++ cleanup ∧
          ∀ e ∈ rest, e.isUpdateCall)) := by
  have hrm : ∀ (p : GoString) (h : Trace),
      osRemoveAll w p h = (.done (w.removeAll h p), [Event.removeAll p (w.removeAll h p)]) :=
    fun _ _ => rfl
  have hss : ∀ (cmd : GoString) (h : Trace),
      ShellSilent w cmd h = (.done (w.sh h (fmtSprintf cmd)),
        [Event.sh cmd true (w.sh h (fmtSprintf cmd))]) :=
    fun _ _ => rfl
  have hcd : ∀ (d : GoString) (h : Trace),
      osChdir w d h = (.done (w.chdir h d), [Event.chdir d (w.chdir h d)]) :=
    fun _ _ => rfl
  rw [updateDependenciesOf, Prog.bind_done _ _ hist _ _ (hrm _ hist)]
  cases h1 : w.removeAll hist repo with
  | some e1 =>
    refine ⟨[Event.removeAll repo (some e1)], [], ?_, by simp, Or.inl ?_⟩
    · intro e he
      simp at he
      subst he
      simp [Event.isPreparation]
    · simp [Prog.ret]
  | none =>
    simp only []
    rw [Prog.bind_done _ _ _ _ _ (hss _ _)]
    cases h2 : w.sh (hist ++ [Event.removeAll repo none])
        (fmtSprintf ("git clone ".toList ++ w.remote repo)) with
    | err e2 =>
      refine ⟨[Event.removeAll repo none,
        Event.sh ("git clone ".toList ++ w.remote repo) true (.err e2)], [], ?_, by simp,
        Or.inl ?_⟩
      · intro e he
        simp only [List.mem_cons, List.mem_singleton, List.not_mem_nil, or_false] at he
        rcases he with he | he <;> subst he <;> simp [Event.isPreparation]
      · simp [Prog.ret]
    | ok out2 =>
      simp only []
      rw [Prog.bind_done _ _ _ _ _ (hcd _ _)]
      cases h3 : w.chdir (hist ++ [Event.removeAll repo none]
          ++ [Event.sh ("git clone ".toList ++ w.remote repo) true (.ok out2)]) repo with
      | some e3 =>
        refine ⟨[Event.removeAll repo none,
          Event.sh ("git clone ".toList ++ w.remote repo) true (.ok out2),
          Event.chdir repo (some e3)], [], ?_, by simp, Or.inl ?_⟩
        · intro e he
          simp only [List.mem_cons, List.mem_singleton, List.not_mem_nil, or_false] at he
          rcases he with he | he | he <;> subst he <;> simp [Event.isPreparation]
        · simp [Prog.ret]
      | none =>
        simp only []
        generalize hh : hist ++ [Event.removeAll repo none]
          ++ [Event.sh ("git clone ".toList ++ w.remote repo) true (.ok out2)]
          ++ [Event.chdir repo none] = hist'
        have hstart : ∀ e ∈ [Event.removeAll repo none,
            Event.sh ("git clone ".toList ++ w.remote repo) true (.ok out2),
            Event.chdir repo none], e.isPreparation w fl repo := by
          intro e he
          simp only [List.mem_cons, List.mem_singleton, List.not_mem_nil, or_false] at he
          rcases he with he | he | he <;> subst he <;> simp [Event.isPreparation]
        obtain ⟨cleanup, hclean, hev⟩ :=
          Prog.defer_events (updateDependenciesOfBody w fl repo) w repo hist'
        obtain ⟨pre, hpre, hshape⟩ := updateDependenciesOfBody_shape w fl repo hist'
        have hpre' : ∀ e ∈ [Event.removeAll repo none,
            Event.sh ("git clone ".toList ++ w.remote repo) true (.ok out2),
            Event.chdir repo none] ++ pre, e.isPreparation w fl repo := by
          intro e he
          rcases List.mem_append.mp he with h | h
          · exact hstart e h
          · exact hpre e h
        refine ⟨_, cleanup, hpre', hclean, ?_⟩
        rw [hev]
        rcases hshape with ⟨err, hb⟩ | ⟨digest, err, hb⟩ | ⟨digest, b, r, hbr, hb⟩ |
          ⟨digest, deps, hb⟩
        · left
          rw [hb]
          simp only [List.append_assoc, List.cons_append, List.nil_append]
        · right; left
          refine ⟨digest, err, ?_⟩
          rw [hb]
          simp only [List.append_assoc, List.cons_append, List.nil_append]
        · right; right; left
          refine ⟨digest, b, r, hbr, ?_, ?_⟩
          · rw [hb]
            simp only [List.append_assoc, List.cons_append, List.nil_append]
          · exact Prog.defer_outcome _ w repo hist' r (by rw [hb])
        · right; right; right
          obtain ⟨res, rest, htail⟩ := updateDependenciesOfTail_head w fl repo deps
            ("autoUpdateDeps_".toList ++ digest)
            (hist' ++ (pre ++
              [Event.existBranch repo ("autoUpdateDeps_".toList ++ digest) (.ok false),
               Event.closeFailedPullRequests repo fl.baseBranch none]))
          have hkind := updateDependenciesOfTail_emits w fl repo deps
            ("autoUpdateDeps_".toList ++ digest)
            (hist' ++ (pre ++
              [Event.existBranch repo ("autoUpdateDeps_".toList ++ digest) (.ok false),
               Event.closeFailedPullRequests repo fl.baseBranch none]))
          rw [htail] at hkind
          refine ⟨digest, res, rest, ?_, fun e he => hkind e (List.mem_cons_of_mem _ he)⟩
          rw [hb]
          simp only [htail, List.append_assoc, List.cons_append, List.nil_append]

theorem Event.not_proposal_of_preparation (w : World) (fl : Flags) (repo : GoString)
    (e : Event) (h : e.isPreparation w fl repo) : ¬ e.isProposal w fl repo := by
  cases e <;> simp_all [Event.isPreparation, Event.isProposal]

theorem Event.not_proposal_of_cleanUp (w : World) (fl : Flags) (repo : GoString)
    (e : Event) (h : e.isCleanUp repo) : ¬ e.isProposal w fl repo := by
  cases e <;> simp_all [Event.isCleanUp, Event.isProposal]

/-- The place of a successful branch-exists check in the calls of an attempt:
if the check for `branch` answered `b`, the calls are preparation calls, the
check, the call of `closeFailedPullRequests`, and then either only calls of
`cleanUp` (when the branch exists or the close call failed) or the creation of
the local branch followed by further calls. -/
theorem updateDependenciesOf_check (w : World) (fl : Flags) (repo : GoString)
    (hist : Trace) (branch : GoString) (b : Bool)
    (hcheck : Event.existBranch repo branch (.ok b)
      ∈ (updateDependenciesOf w fl repo hist).2) :
    ∃ pre r rest,
      (updateDependenciesOf w fl repo hist).2
        = pre ++ [Event.existBranch repo branch (.ok b),
                  Event.closeFailedPullRequests repo fl.baseBranch r] ++ rest ∧
      (∀ e ∈ pre, e.isPreparation w fl repo) ∧
      (((b = true ∨ r ≠ none) ∧ (∀ e ∈ rest, e.isCleanUp repo) ∧
          ((updateDependenciesOf w fl repo hist).1 = .done r ∨
           (updateDependenciesOf w fl repo hist).1 = .fatal)) ∨
       (b = false ∧ r = none ∧
          ∃ res rest', rest = Event.sh ("git checkout -b ".toList ++ branch) false res :: rest')) := by
  obtain ⟨pre, cleanup, hpre, hclean, hshape⟩ := updateDependenciesOf_shape w fl repo hist
  rcases hshape with hes | ⟨digest, err, hes⟩ | ⟨digest, b', r, hbr, hes, hout⟩ |
    ⟨digest, res, rest, hes, hrest⟩
  · rw [hes] at hcheck
    rcases List.mem_append.mp hcheck with h | h
    · exact False.elim (hpre _ h)
    · exact False.elim (hclean _ h)
  · rw [hes] at hcheck
    simp only [List.mem_append, List.mem_singleton] at hcheck
    rcases hcheck with (h | h) | h
    · exact False.elim (hpre _ h)
    · simp at h
    · exact False.elim (hclean _ h)
  · rw [hes] at hcheck
    simp only [List.mem_append, List.mem_cons, List.mem_singleton, List.not_mem_nil,
      or_false] at hcheck
    rcases hcheck with (h | h | h) | h
    · exact False.elim (hpre _ h)
    · simp only [Event.existBranch.injEq, Res.ok.injEq, true_and] at h
      obtain ⟨hbranch, hb⟩ := h
      subst hbranch hb
      exact ⟨pre, r, cleanup, hes, hpre, Or.inl ⟨hbr, hclean, hout⟩⟩
    · simp at h
    · exact False.elim (hclean _ h)
  · rw [hes] at hcheck
    simp only [List.mem_append, List.mem_cons, List.mem_singleton, List.not_mem_nil,
      or_false] at hcheck
    rcases hcheck with ((h | h | h) | (h | h)) | h
    · exact False.elim (hpre _ h)
    · simp only [Event.existBranch.injEq, Res.ok.injEq, true_and] at h
      obtain ⟨hbranch, hb⟩ := h
      subst hbranch hb
      refine ⟨pre, none, _, ?_, hpre, Or.inr ⟨rfl, rfl, res, rest ++ cleanup, rfl⟩⟩
      rw [hes]
      simp only [List.append_assoc, List.cons_append, List.nil_append]
    · simp at h
    · simp at h
    · exact False.elim (hrest _ h)
    · exact False.elim (hclean _ h)

/-! ## The orchestrator: theorems -/

/-- C8.  Idempotence of the orchestrator: in every run of `updateDependenciesOf`
in which the branch-exists check for the branch `autoUpdateDeps_<digest>`
answers true, no call proposes an update: no shell command other than the clone
and the checkout of the base branch is run (so no `git checkout -b`, commit or
push), no file is read or written and no version-file lookup is made (no
patch), the manifest is not saved and no pull request is created. -/
theorem updateDependenciesOf_idempotent (w : World) (fl : Flags) (repo : GoString)
    (hist : Trace) (branch : GoString)
    (hexists : Event.existBranch repo branch (.ok true)
      ∈ (updateDependenciesOf w fl repo hist).2) :
    ∀ e ∈ (updateDependenciesOf w fl repo hist).2, ¬ e.isProposal w fl repo := by
  obtain ⟨pre, r, rest, hes, hpre, hcase⟩ :=
    updateDependenciesOf_check w fl repo hist branch true hexists
  rcases hcase with ⟨_, hclean, _⟩ | ⟨hb, _⟩
  · intro e he
    rw [hes] at he
    simp only [List.mem_append, List.mem_cons, List.mem_singleton, List.not_mem_nil,
      or_false] at he
    rcases he with (h | h | h) | h
    · exact Event.not_proposal_of_preparation w fl repo e (hpre e h)
    · subst h; simp [Event.isProposal]
    · subst h; simp [Event.isProposal]
    · exact Event.not_proposal_of_cleanUp w fl repo e (hclean e h)
  · cases hb

set_option maxRecDepth 1000000 in
/-- C8, the theorem applied to a run on repository `proxy` in a world where the
branch exists. -/
theorem updateDependenciesOf_idempotent_witness :
    Event.existBranch "proxy".toList
        "autoUpdateDeps_b26ce02d1f618458fb1624838567a7d9".toList (.ok true)
      ∈ (updateDependenciesOf (exampleWorld true []) exampleFlags "proxy".toList []).2 ∧
    ∀ e ∈ (updateDependenciesOf (exampleWorld true []) exampleFlags "proxy".toList []).2,
      ¬ e.isProposal (exampleWorld true []) exampleFlags "proxy".toList :=
  ⟨by decide,
   updateDependenciesOf_idempotent (exampleWorld true []) exampleFlags "proxy".toList []
     "autoUpdateDeps_b26ce02d1f618458fb1624838567a7d9".toList (by decide)⟩

/-- C9 (as amended).  In every run of `updateDependenciesOf` in which the
branch-exists check answers true, `closeFailedPullRequests` is called once,
right after the check, and the attempt then skips directly to cleanup: all
further calls are calls of `cleanUp`, and the attempt returns what
`closeFailedPullRequests` returned (or the process is left because `cleanUp`
failed). -/
theorem updateDependenciesOf_closes_then_skips (w : World) (fl : Flags) (repo : GoString)
    (hist : Trace) (branch : GoString)
    (hexists : Event.existBranch repo branch (.ok true)
      ∈ (updateDependenciesOf w fl repo hist).2) :
    ∃ pre r cleanup,
      (updateDependenciesOf w fl repo hist).2
        = pre ++ [Event.existBranch repo branch (.ok true),
                  Event.closeFailedPullRequests repo fl.baseBranch r] ++ cleanup ∧
      (∀ e ∈ pre, e.isPreparation w fl repo) ∧
      (∀ e ∈ cleanup, e.isCleanUp repo) ∧
      ((updateDependenciesOf w fl repo hist).1 = .done r ∨
       (updateDependenciesOf w fl repo hist).1 = .fatal) := by
  obtain ⟨pre, r, rest, hes, hpre, hcase⟩ :=
    updateDependenciesOf_check w fl repo hist branch true hexists
  rcases hcase with ⟨_, hclean, hout⟩ | ⟨hb, _⟩
  · exact ⟨pre, r, rest, hes, hpre, hclean, hout⟩
  · cases hb

set_option maxRecDepth 1000000 in
/-- C9, the theorem applied to a run on repository `proxy` in a world where the
branch exists. -/
theorem updateDependenciesOf_closes_then_skips_witness :
    Event.existBranch "proxy".toList
        "autoUpdateDeps_b26ce02d1f618458fb1624838567a7d9".toList (.ok true)
      ∈ (updateDependenciesOf (exampleWorld true []) exampleFlags "proxy".toList []).2 ∧
    ∃ pre r cleanup,
      (updateDependenciesOf (exampleWorld true []) exampleFlags "proxy".toList []).2
        = pre ++ [Event.existBranch "proxy".toList
                    "autoUpdateDeps_b26ce02d1f618458fb1624838567a7d9".toList (.ok true),
                  Event.closeFailedPullRequests "proxy".toList exampleFlags.baseBranch r]
            ++ cleanup ∧
      (∀ e ∈ pre, e.isPreparation (exampleWorld true []) exampleFlags "proxy".toList) ∧
      (∀ e ∈ cleanup, e.isCleanUp "proxy".toList) ∧
      ((updateDependenciesOf (exampleWorld true []) exampleFlags "proxy".toList []).1
          = .done r ∨
       (updateDependenciesOf (exampleWorld true []) exampleFlags "proxy".toList []).1
          = .fatal) :=
  ⟨by decide,
   updateDependenciesOf_closes_then_skips (exampleWorld true []) exampleFlags
     "proxy".toList [] "autoUpdateDeps_b26ce02d1f618458fb1624838567a7d9".toList (by decide)⟩

set_option maxRecDepth 1000000 in
/-- C9 as stated fails: in a run on repository `proxy` in a world where every
call succeeds and the branch exists, `closeFailedPullRequests` is called (the
call after the branch-exists check); these are all the calls of the run. -/
theorem updateDependenciesOf_closes_although_branch_exists :
    updateDependenciesOf (exampleWorld true []) exampleFlags "proxy".toList []
      = (.done none,
         [Event.removeAll "proxy".toList none,
          Event.sh "git clone https://github.com/istio/proxy".toList true (.ok []),
          Event.chdir "proxy".toList none,
          Event.sh "git checkout master".toList false (.ok []),
          Event.deserializeDeps "istio.deps".toList (.ok [mixerDep, pilotDep]),
          Event.getHeadCommitSHA "proxy".toList "master".toList (.ok "head-of-proxy".toList),
          Event.getHeadCommitSHA "mixer".toList "stable".toList (.ok "head-of-mixer".toList),
          Event.getHeadCommitSHA "pilot".toList "stable".toList (.ok "head-of-pilot".toList),
          Event.existBranch "proxy".toList
            "autoUpdateDeps_b26ce02d1f618458fb1624838567a7d9".toList (.ok true),
          Event.closeFailedPullRequests "proxy".toList "master".toList none,
          Event.chdir "..".toList none,
          Event.removeAll "proxy".toList none]) := by
  decide

/-- C10.  Stale-PR closing happens before branch creation: in every run of
`updateDependenciesOf` in which the branch-exists check answers false, the calls
before the check are preparation calls, `closeFailedPullRequests` is the call
right after the check, and `git checkout -b <branch>` is the call right after
that when the close call returned no error; when the close call returned an
error only calls of `cleanUp` follow, so the command is not issued. -/
theorem updateDependenciesOf_closes_before_branching (w : World) (fl : Flags)
    (repo : GoString) (hist : Trace) (branch : GoString)
    (hnew : Event.existBranch repo branch (.ok false)
      ∈ (updateDependenciesOf w fl repo hist).2) :
    ∃ pre r rest,
      (updateDependenciesOf w fl repo hist).2
        = pre ++ [Event.existBranch repo branch (.ok false),
                  Event.closeFailedPullRequests repo fl.baseBranch r] ++ rest ∧
      (∀ e ∈ pre, e.isPreparation w fl repo) ∧
      (r = none →
        ∃ res rest', rest = Event.sh ("git checkout -b ".toList ++ branch) false res :: rest') ∧
      (r ≠ none → ∀ e ∈ rest, e.isCleanUp repo) := by
  obtain ⟨pre, r, rest, hes, hpre, hcase⟩ :=
    updateDependenciesOf_check w fl repo hist branch false hnew
  refine ⟨pre, r, rest, hes, hpre, ?_, ?_⟩
  · intro hr
    rcases hcase with ⟨hbr, _, _⟩ | ⟨_, _, hrest⟩
    · rcases hbr with hb | hne
      · cases hb
      · exact absurd hr hne
    · exact hrest
  · intro hr
    rcases hcase with ⟨_, hclean, _⟩ | ⟨_, hnone, _⟩
    · exact hclean
    · exact absurd hnone hr

set_option maxRecDepth 1000000 in
/-- C10, the theorem applied to a run on repository `proxy` in a world where
the branch does not exist. -/
theorem updateDependenciesOf_closes_before_branching_witness :
    Event.existBranch "proxy".toList
        "autoUpdateDeps_b26ce02d1f618458fb1624838567a7d9".toList (.ok false)
      ∈ (updateDependenciesOf (exampleWorld false []) exampleFlags "proxy".toList []).2 ∧
    ∃ pre r rest,
      (updateDependenciesOf (exampleWorld false []) exampleFlags "proxy".toList []).2
        = pre ++ [Event.existBranch "proxy".toList
                    "autoUpdateDeps_b26ce02d1f618458fb1624838567a7d9".toList (.ok false),
                  Event.closeFailedPullRequests "proxy".toList exampleFlags.baseBranch r]
            ++ rest ∧
      (∀ e ∈ pre, e.isPreparation (exampleWorld false []) exampleFlags "proxy".toList) ∧
      (r = none →
        ∃ res rest', rest = Event.sh ("git checkout -b ".toList
          ++ "autoUpdateDeps_b26ce02d1f618458fb1624838567a7d9".toList) false res :: rest') ∧
      (r ≠ none → ∀ e ∈ rest, e.isCleanUp "proxy".toList) :=
  ⟨by decide,
   updateDependenciesOf_closes_before_branching (exampleWorld false []) exampleFlags
     "proxy".toList [] "autoUpdateDeps_b26ce02d1f618458fb1624838567a7d9".toList (by decide)⟩

/-! ## Lemmas: pieces of program that never leave the process -/

theorem Prog.NeverFatal.after_ret {α : Type} (a : α) : Prog.NeverFatal (Prog.ret a) := by
  intro hist h
  simp [Prog.ret] at h

theorem Prog.NeverFatal.after_bind {α β : Type} {m : Prog α} {f : α → Prog β}
    (hm : Prog.NeverFatal m) (hf : ∀ a, Prog.NeverFatal (f a)) :
    Prog.NeverFatal (Prog.bind m f) := by
  intro hist h
  unfold Prog.bind at h
  cases hrun : m hist with
  | mk o es =>
    rw [hrun] at h
    cases o with
    | done a => exact hf a _ h
    | panic => simp at h
    | fatal => exact hm hist (by rw [hrun])

theorem Prog.NeverFatal.of_done {α : Type} {m : Prog α}
    (h : ∀ hist, ∃ a, (m hist).1 = .done a) : Prog.NeverFatal m := by
  intro hist hf
  obtain ⟨a, ha⟩ := h hist
  rw [ha] at hf
  cases hf

theorem Shell_neverFatal (w : World) (cmd : GoString) : Prog.NeverFatal (Shell w cmd) :=
  Prog.NeverFatal.of_done (fun _ => ⟨_, rfl⟩)

theorem replaceCommit_ne_fatal (line : GoString) (dep : dependency) :
    replaceCommit line dep ≠ .fatal := by
  unfold replaceCommit sliceTo
  simp only
  by_cases h : 0 ≤ stringsIndex line quote ∧ stringsIndex line quote ≤ (line.length : Int)
  · simp [h]
  · simp [h]

theorem updateDepLines_ne_fatal (dep : dependency) :
    ∀ (ls : List GoString), updateDepLines dep ls ≠ .fatal := by
  intro ls
  induction ls with
  | nil => simp [updateDepLines]
  | cons line rest ih =>
    unfold updateDepLines
    have hr := replaceCommit_ne_fatal line dep
    split
    · cases h1 : replaceCommit line dep with
      | done l' =>
        cases h2 : updateDepLines dep rest with
        | done r' => simp
        | panic => simp
        | fatal => exact absurd h2 ih
      | panic => simp
      | fatal => exact absurd h1 hr
    · cases h2 : updateDepLines dep rest with
      | done r' => simp
      | panic => simp
      | fatal => exact absurd h2 ih

theorem updateDepFileText_ne_fatal (input : GoString) (dep : dependency) :
    updateDepFileText input dep ≠ .fatal := by
  unfold updateDepFileText
  have h := updateDepLines_ne_fatal dep (stringsSplit '\n' input)
  cases h2 : updateDepLines dep (stringsSplit '\n' input) with
  | done r' => simp
  | panic => simp
  | fatal => exact absurd h2 h

theorem updateDepFile_neverFatal (w : World) (dep : dependency) :
    Prog.NeverFatal (updateDepFile w dep) := by
  unfold updateDepFile
  apply Prog.NeverFatal.after_bind (Prog.NeverFatal.of_done (fun _ => ⟨_, rfl⟩))
  intro r
  cases r with
  | err e => exact Prog.NeverFatal.after_ret _
  | ok input =>
    intro hist hf
    simp only [] at hf
    cases ht : updateDepFileText input dep with
    | done output => rw [ht] at hf; simp [ioutilWriteFile] at hf
    | panic => rw [ht] at hf; simp at hf
    | fatal => exact updateDepFileText_ne_fatal input dep ht

theorem updateDepFiles_neverFatal (w : World) :
    ∀ (deps : List dependency), Prog.NeverFatal (updateDepFiles w deps) := by
  intro deps
  induction deps with
  | nil => exact Prog.NeverFatal.after_ret _
  | cons dep rest ih =>
    unfold updateDepFiles
    apply Prog.NeverFatal.after_bind (updateDepFile_neverFatal w dep)
    intro err
    cases err with
    | some e => exact Prog.NeverFatal.after_ret _
    | none => exact ih

theorem istioVersionGet_neverFatal (w : World) (key : GoString) :
    Prog.NeverFatal (istioVersionGet w key) :=
  Prog.NeverFatal.of_done (fun _ => ⟨_, rfl⟩)

theorem updateIstioDeps_neverFatal (w : World) (deps : List dependency) :
    Prog.NeverFatal (updateIstioDeps w deps) := by
  unfold updateIstioDeps
  simp only
  split
  · exact Prog.NeverFatal.after_ret _
  · apply Prog.NeverFatal.after_bind (istioVersionGet_neverFatal w _)
    intro caHub
    cases caHub.2 with
    | some e => exact Prog.NeverFatal.after_ret _
    | none =>
    apply Prog.NeverFatal.after_bind (istioVersionGet_neverFatal w _)
    intro phub
    cases phub.2 with
    | some e => exact Prog.NeverFatal.after_ret _
    | none =>
    apply Prog.NeverFatal.after_bind (istioVersionGet_neverFatal w _)
    intro mhub
    cases mhub.2 with
    | some e => exact Prog.NeverFatal.after_ret _
    | none =>
    apply Prog.NeverFatal.after_bind (istioVersionGet_neverFatal w _)
    intro url
    cases url.2 with
    | some e => exact Prog.NeverFatal.after_ret _
    | none =>
    apply Prog.NeverFatal.after_bind (istioVersionGet_neverFatal w _)
    intro tag
    cases tag.2 with
    | some e => exact Prog.NeverFatal.after_ret _
    | none =>
    apply Prog.NeverFatal.after_bind (Shell_neverFatal w _)
    intro r
    cases r <;> exact Prog.NeverFatal.after_ret _

theorem updateDeps_neverFatal (w : World) (repo : GoString) (deps : List dependency) :
    Prog.NeverFatal (updateDeps w repo deps) := by
  unfold updateDeps
  split
  · apply Prog.NeverFatal.after_bind (updateIstioDeps_neverFatal w deps)
    intro err
    cases err <;> exact Prog.NeverFatal.after_ret _
  · exact updateDepFiles_neverFatal w deps

theorem updateDependenciesOfTail_neverFatal (w : World) (fl : Flags) (repo : GoString)
    (deps : List dependency) (branch : GoString) :
    Prog.NeverFatal (updateDependenciesOfTail w fl repo deps branch) := by
  unfold updateDependenciesOfTail
  apply Prog.NeverFatal.after_bind (Shell_neverFatal w _)
  intro r
  cases r with
  | err e => exact Prog.NeverFatal.after_ret _
  | ok _ =>
  apply Prog.NeverFatal.after_bind (updateDeps_neverFatal w repo deps)
  intro err
  cases err with
  | some e => exact Prog.NeverFatal.after_ret _
  | none =>
  apply Prog.NeverFatal.after_bind (Prog.NeverFatal.of_done (fun _ => ⟨_, rfl⟩))
  intro err
  cases err with
  | some e => exact Prog.NeverFatal.after_ret _
  | none =>
  apply Prog.NeverFatal.after_bind (Shell_neverFatal w _)
  intro r
  cases r with
  | err e => exact Prog.NeverFatal.after_ret _
  | ok _ =>
  apply Prog.NeverFatal.after_bind (Shell_neverFatal w _)
  intro r
  cases r with
  | err e => exact Prog.NeverFatal.after_ret _
  | ok _ =>
  apply Prog.NeverFatal.after_bind (Prog.NeverFatal.of_done (fun _ => ⟨_, rfl⟩))
  intro err
  cases err <;> exact Prog.NeverFatal.after_ret _

theorem fingerPrint_neverFatal (w : World) (fl : Flags) (repo : GoString)
    (deps : List dependency) :
    Prog.NeverFatal (fingerPrintAndUpdateDepSHA w fl repo deps) := by
  apply Prog.NeverFatal.of_done
  intro hist
  obtain ⟨out, es, h⟩ := fingerPrint_pair w fl repo deps hist
  exact ⟨out, by rw [h]⟩

theorem updateDependenciesOfBody_neverFatal (w : World) (fl : Flags) (repo : GoString) :
    Prog.NeverFatal (updateDependenciesOfBody w fl repo) := by
  unfold updateDependenciesOfBody
  apply Prog.NeverFatal.after_bind (Shell_neverFatal w _)
  intro r
  cases r with
  | err e => exact Prog.NeverFatal.after_ret _
  | ok _ =>
  apply Prog.NeverFatal.after_bind (Prog.NeverFatal.of_done (fun _ => ⟨_, rfl⟩))
  intro r
  cases r with
  | err e => exact Prog.NeverFatal.after_ret _
  | ok deps =>
  apply Prog.NeverFatal.after_bind (fingerPrint_neverFatal w fl repo deps)
  intro fp
  cases fp.2.1 with
  | some e => exact Prog.NeverFatal.after_ret _
  | none =>
  apply Prog.NeverFatal.after_bind (Prog.NeverFatal.of_done (fun _ => ⟨_, rfl⟩))
  intro r
  cases r with
  | err e => exact Prog.NeverFatal.after_ret _
  | ok b =>
  apply Prog.NeverFatal.after_bind (Prog.NeverFatal.of_done (fun _ => ⟨_, rfl⟩))
  intro err
  split
  · exact Prog.NeverFatal.after_ret _
  · exact updateDependenciesOfTail_neverFatal w fl repo _ _

/-- No statement after the `defer` changes the working directory or removes a
directory. -/
theorem updateDependenciesOfBody_emits (w : World) (fl : Flags) (repo : GoString) :
    Prog.Emits (fun e => ¬ e.isDirectoryCall) (updateDependenciesOfBody w fl repo) := by
  have hupd : ∀ e : Event, e.isUpdateCall → ¬ e.isDirectoryCall := by
    intro e he
    cases e <;> simp_all [Event.isUpdateCall, Event.isDirectoryCall]
  have hlook : ∀ e : Event, (∃ r b res, e = Event.getHeadCommitSHA r b res) →
      ¬ e.isDirectoryCall := by
    rintro e ⟨r, b, res, rfl⟩
    simp [Event.isDirectoryCall]
  unfold updateDependenciesOfBody
  apply Prog.Emits.bind (Prog.Emits.mono (Shell_emits w _) hupd)
  intro r
  cases r with
  | err e => exact Prog.Emits.ret _ _
  | ok _ =>
  apply Prog.Emits.bind
  · intro hist e he
    simp [deserializeDeps] at he
    subst he
    simp [Event.isDirectoryCall]
  intro r
  cases r with
  | err e => exact Prog.Emits.ret _ _
  | ok deps =>
  apply Prog.Emits.bind (Prog.Emits.mono (fingerPrint_emits w fl repo deps) hlook)
  intro fp
  cases fp.2.1 with
  | some e => exact Prog.Emits.ret _ _
  | none =>
  apply Prog.Emits.bind
  · intro hist e he
    simp [existBranch] at he
    subst he
    simp [Event.isDirectoryCall]
  intro r
  cases r with
  | err e => exact Prog.Emits.ret _ _
  | ok b =>
  apply Prog.Emits.bind
  · intro hist e he
    simp [closeFailedPullRequests] at he
    subst he
    simp [Event.isDirectoryCall]
  intro err
  split
  · exact Prog.Emits.ret _ _
  · exact Prog.Emits.mono (updateDependenciesOfTail_emits w fl repo _ _) hupd

/-- A body that does not leave the process is followed by the deferred call. -/
theorem Prog.defer_events_of_ne_fatal {α : Type} (body : Prog α) (deferred : Prog Unit)
    (hist : Trace) (h : (body hist).1 ≠ .fatal) :
    (Prog.defer body deferred hist).2
      = (body hist).2 ++ (deferred (hist ++ (body hist).2)).2 := by
  unfold Prog.defer
  cases hb : body hist with
  | mk o es =>
    rw [hb] at h
    cases o with
    | fatal => exact absurd rfl h
    | done a =>
      cases hd : deferred (hist ++ es) with
      | mk o' es' => cases o' <;> simp [hd]
    | panic =>
      cases hd : deferred (hist ++ es) with
      | mk o' es' => cases o' <;> simp [hd]

/-- A function with a deferred call returns only if the deferred call returned. -/
theorem Prog.defer_done {α : Type} (body : Prog α) (deferred : Prog Unit)
    (hist : Trace) (a : α) (h : (Prog.defer body deferred hist).1 = .done a) :
    (deferred (hist ++ (body hist).2)).1 = .done () := by
  unfold Prog.defer at h
  cases hb : body hist with
  | mk o es =>
    rw [hb] at h
    cases o with
    | fatal => simp at h
    | done a' =>
      cases hd : deferred (hist ++ es) with
      | mk o' es' =>
        cases o' with
        | done u => rfl
        | panic => simp [hd] at h
        | fatal => simp [hd] at h
    | panic =>
      cases hd : deferred (hist ++ es) with
      | mk o' es' =>
        cases o' with
        | done u => rfl
        | panic => simp [hd] at h
        | fatal => simp [hd] at h

/-- The calls of `cleanUp`: the change to the parent directory and, when that
succeeded, the removal of the clone. -/
theorem cleanUp_run (w : World) (repo : GoString) (hist : Trace) :
    (∃ e, cleanUp w repo hist = (.done (some e), [Event.chdir "..".toList (some e)])) ∨
    (∃ r, cleanUp w repo hist
      = (.done r, [Event.chdir "..".toList none, Event.removeAll repo r])) := by
  have hcd : osChdir w "..".toList hist
      = (.done (w.chdir hist "..".toList),
         [Event.chdir "..".toList (w.chdir hist "..".toList)]) := rfl
  rw [cleanUp, Prog.bind_done _ _ hist _ _ hcd]
  cases w.chdir hist "..".toList with
  | some e => exact Or.inl ⟨e, rfl⟩
  | none => exact Or.inr ⟨_, rfl⟩

theorem deferredCleanUp_events (w : World) (repo : GoString) (hist : Trace) :
    (deferredCleanUp w repo hist).2 = (cleanUp w repo hist).2 := by
  obtain ⟨r, es, hc⟩ := cleanUp_pair w repo hist
  rw [deferredCleanUp, Prog.bind_done _ _ _ _ _ hc, hc]
  cases r <;> simp [Prog.ret]

theorem deferredCleanUp_done (w : World) (repo : GoString) (hist : Trace)
    (h : (deferredCleanUp w repo hist).1 = .done ()) :
    (cleanUp w repo hist).1 = .done none := by
  obtain ⟨r, es, hc⟩ := cleanUp_pair w repo hist
  rw [deferredCleanUp, Prog.bind_done _ _ _ _ _ hc] at h
  rw [hc]
  cases r with
  | some e => simp at h
  | none => rfl

/-! ## Cleanup: theorems -/

/-- C11.  Cleanup-always: in every run of `updateDependenciesOf` in which the
removal of the stale directory, the clone and the change into the cloned
directory succeeded, the calls are those three, then the calls `body` of the
statements after the `defer`, none of which changes or removes a directory, and
last the calls of exactly one execution of `cleanUp`: the change to the parent
directory and, when that succeeded, the removal of the clone.  This holds
whether the body completes, skips or fails.  When the attempt returns to its
caller, both calls of `cleanUp` succeeded. -/
theorem updateDependenciesOf_cleans_up_last (w : World) (fl : Flags) (repo : GoString)
    (hist : Trace) (out : GoString)
    (hrm : w.removeAll hist repo = none)
    (hclone : w.sh (hist ++ [Event.removeAll repo none])
      (fmtSprintf ("git clone ".toList ++ w.remote repo)) = .ok out)
    (hcd : w.chdir (hist ++ [Event.removeAll repo none]
      ++ [Event.sh ("git clone ".toList ++ w.remote repo) true (.ok out)]) repo = none) :
    ∃ body : List Event,
      (updateDependenciesOf w fl repo hist).2
        = [Event.removeAll repo none,
           Event.sh ("git clone ".toList ++ w.remote repo) true (.ok out),
           Event.chdir repo none] ++ body
          ++ (cleanUp w repo (hist ++ ([Event.removeAll repo none,
                Event.sh ("git clone ".toList ++ w.remote repo) true (.ok out),
                Event.chdir repo none] ++ body))).2 ∧
      (∀ e ∈ body, ¬ e.isDirectoryCall) ∧
      ((∃ e, (cleanUp w repo (hist ++ ([Event.removeAll repo none,
                Event.sh ("git clone ".toList ++ w.remote repo) true (.ok out),
                Event.chdir repo none] ++ body))).2
            = [Event.chdir "..".toList (some e)]) ∨
       (∃ r, (cleanUp w repo (hist ++ ([Event.removeAll repo none,
                Event.sh ("git clone ".toList ++ w.remote repo) true (.ok out),
                Event.chdir repo none] ++ body))).2
            = [Event.chdir "..".toList none, Event.removeAll repo r])) ∧
      (∀ err, (updateDependenciesOf w fl repo hist).1 = .done err →
        (cleanUp w repo (hist ++ ([Event.removeAll repo none,
                Event.sh ("git clone ".toList ++ w.remote repo) true (.ok out),
                Event.chdir repo none] ++ body))).2
            = [Event.chdir "..".toList none, Event.removeAll repo none]) := by
  have hrm' : osRemoveAll w repo hist
      = (.done (w.removeAll hist repo), [Event.removeAll repo (w.removeAll hist repo)]) := rfl
  have hss : ∀ (cmd : GoString) (h : Trace),
      ShellSilent w cmd h = (.done (w.sh h (fmtSprintf cmd)),
        [Event.sh cmd true (w.sh h (fmtSprintf cmd))]) :=
    fun _ _ => rfl
  have hcd' : ∀ (d : GoString) (h : Trace),
      osChdir w d h = (.done (w.chdir h d), [Event.chdir d (w.chdir h d)]) :=
    fun _ _ => rfl
  have hrun : updateDependenciesOf w fl repo hist
      = ((Prog.defer (updateDependenciesOfBody w fl repo) (deferredCleanUp w repo)
            (hist ++ [Event.removeAll repo none]
              ++ [Event.sh ("git clone ".toList ++ w.remote repo) true (.ok out)]
              ++ [Event.chdir repo none])).1,
         [Event.removeAll repo none] ++
          ([Event.sh ("git clone ".toList ++ w.remote repo) true (.ok out)] ++
            ([Event.chdir repo none] ++
              (Prog.defer (updateDependenciesOfBody w fl repo) (deferredCleanUp w repo)
                (hist ++ [Event.removeAll repo none]
                  ++ [Event.sh ("git clone ".toList ++ w.remote repo) true (.ok out)]
                  ++ [Event.chdir repo none])).2))) := by
    rw [updateDependenciesOf, Prog.bind_done _ _ hist _ _ hrm', hrm]
    simp only []
    rw [Prog.bind_done _ _ _ _ _ (hss _ _), hclone]
    simp only []
    rw [Prog.bind_done _ _ _ _ _ (hcd' _ _), hcd]
  generalize hh : hist ++ [Event.removeAll repo none]
      ++ [Event.sh ("git clone ".toList ++ w.remote repo) true (.ok out)]
      ++ [Event.chdir repo none] = hist' at hrun
  have hh' : ∀ body : List Event, hist ++ ([Event.removeAll repo none,
      Event.sh ("git clone ".toList ++ w.remote repo) true (.ok out),
      Event.chdir repo none] ++ body) = hist' ++ body := by
    intro body
    rw [← hh]
    simp only [List.append_assoc, List.cons_append, List.nil_append]
  have hnf := updateDependenciesOfBody_neverFatal w fl repo hist'
  have hev := Prog.defer_events_of_ne_fatal (updateDependenciesOfBody w fl repo)
    (deferredCleanUp w repo) hist' hnf
  rw [deferredCleanUp_events] at hev
  refine ⟨(updateDependenciesOfBody w fl repo hist').2, ?_, ?_, ?_, ?_⟩
  · rw [hrun, hev, hh']
    simp only [List.append_assoc, List.cons_append, List.nil_append]
  · exact fun e he => updateDependenciesOfBody_emits w fl repo hist' e he
  · rw [hh']
    rcases cleanUp_run w repo (hist' ++ (updateDependenciesOfBody w fl repo hist').2) with
      ⟨e, h⟩ | ⟨r, h⟩
    · exact Or.inl ⟨e, by rw [h]⟩
    · exact Or.inr ⟨r, by rw [h]⟩
  · intro err hdone
    rw [hrun] at hdone
    have hd := Prog.defer_done _ _ hist' err hdone
    have hc := deferredCleanUp_done w repo _ hd
    rw [hh']
    rcases cleanUp_run w repo (hist' ++ (updateDependenciesOfBody w fl repo hist').2) with
      ⟨e, h⟩ | ⟨r, h⟩
    · rw [h] at hc
      simp at hc
    · rw [h] at hc ⊢
      simp only [Outcome.done.injEq] at hc
      rw [hc]

set_option maxRecDepth 1000000 in
/-- C11, the theorem applied to a run on repository `proxy` in a world where
every call succeeds and the branch exists (an early skip). -/
theorem updateDependenciesOf_cleans_up_last_witness :
    (exampleWorld true []).removeAll [] "proxy".toList = none ∧
    ∃ body : List Event,
      (updateDependenciesOf (exampleWorld true []) exampleFlags "proxy".toList []).2
        = [Event.removeAll "proxy".toList none,
           Event.sh ("git clone ".toList ++ (exampleWorld true []).remote "proxy".toList)
             true (.ok []),
           Event.chdir "proxy".toList none] ++ body
          ++ (cleanUp (exampleWorld true []) "proxy".toList
                ([] ++ ([Event.removeAll "proxy".toList none,
                  Event.sh ("git clone ".toList ++ (exampleWorld true []).remote "proxy".toList)
                    true (.ok []),
                  Event.chdir "proxy".toList none] ++ body))).2 ∧
      (∀ e ∈ body, ¬ e.isDirectoryCall) :=
  ⟨rfl,
   Exists.elim
     (updateDependenciesOf_cleans_up_last (exampleWorld true []) exampleFlags
       "proxy".toList [] [] rfl rfl rfl)
     (fun body hb => ⟨body, hb.1, hb.2.1⟩)⟩

/-- C12 (as amended).  In every run of `updateDependenciesOf` in which the
`git clone` command fails, the attempt is aborted with that error and the clone
command is its last call: `cleanUp` is not executed, because it is deferred only
after the change into the cloned directory succeeded.  The only removal of the
directory named after the repository is the one made before the clone. -/
theorem updateDependenciesOf_clone_error (w : World) (fl : Flags) (repo : GoString)
    (hist : Trace) (e : GoError)
    (hrm : w.removeAll hist repo = none)
    (hclone : w.sh (hist ++ [Event.removeAll repo none])
      (fmtSprintf ("git clone ".toList ++ w.remote repo)) = .err e) :
    updateDependenciesOf w fl repo hist
      = (.done (some e),
         [Event.removeAll repo none,
          Event.sh ("git clone ".toList ++ w.remote repo) true (.err e)]) := by
  have hrm' : osRemoveAll w repo hist
      = (.done (w.removeAll hist repo), [Event.removeAll repo (w.removeAll hist repo)]) := rfl
  have hss : ∀ (cmd : GoString) (h : Trace),
      ShellSilent w cmd h = (.done (w.sh h (fmtSprintf cmd)),
        [Event.sh cmd true (w.sh h (fmtSprintf cmd))]) :=
    fun _ _ => rfl
  rw [updateDependenciesOf, Prog.bind_done _ _ hist _ _ hrm', hrm]
  simp only []
  rw [Prog.bind_done _ _ _ _ _ (hss _ _), hclone]
  rfl

/-- C12, the theorem applied to a run on repository `proxy` in a world where
`git clone` fails. -/
theorem updateDependenciesOf_clone_error_witness :
    updateDependenciesOf cloneFailsWorld exampleFlags "proxy".toList []
      = (.done (some ⟨"clone failed".toList⟩),
         [Event.removeAll "proxy".toList none,
          Event.sh ("git clone ".toList ++ cloneFailsWorld.remote "proxy".toList) true
            (.err ⟨"clone failed".toList⟩)]) :=
  updateDependenciesOf_clone_error cloneFailsWorld exampleFlags "proxy".toList []
    ⟨"clone failed".toList⟩ rfl (by decide)

/-- C12 as stated fails: in a run on repository `proxy` in a world where
`git clone` fails, the failing clone is the last call; no change of directory
and no removal follows it. -/
theorem updateDependenciesOf_no_cleanup_after_clone_error :
    updateDependenciesOf cloneFailsWorld exampleFlags "proxy".toList []
      = (.done (some ⟨"clone failed".toList⟩),
         [Event.removeAll "proxy".toList none,
          Event.sh "git clone https://github.com/istio/proxy".toList true
            (.err ⟨"clone failed".toList⟩)]) := by
  decide

/-! ## The distinguished repository: theorems -/

theorem getSHAByName_of_no_record :
    ∀ (deps : List dependency) (name : GoString),
      (∀ d ∈ deps, d.RepoName ≠ name) → getSHAByName deps name = [] := by
  intro deps name
  induction deps with
  | nil => intro _; rfl
  | cons d rest ih =>
    intro h
    have hd : d.RepoName ≠ name := h d (List.mem_cons_self _ _)
    have hrest := ih (fun d' hd' => h d' (List.mem_cons_of_mem _ hd'))
    simp [getSHAByName, hd, hrest]

/-- C13.  An incomplete distinguished dependency set fails closed: when the
commit of one of the roles `pilot`, `mixer`, `auth` (the `LastStableSHA` of the
first record of that repository) is empty, or the role has no record at all, so
that `getSHAByName` gives the empty string, `updateIstioDeps` returns the error
`incomplete dependencies in istio.deps` and makes no call: no version-file
lookup, no shell invocation, nothing written. -/
theorem updateIstioDeps_incomplete :
    (∀ (deps : List dependency) (name : GoString),
      (∀ d ∈ deps, d.RepoName ≠ name) → getSHAByName deps name = []) ∧
    ∀ (w : World) (deps : List dependency) (hist : Trace),
      (getSHAByName deps "pilot".toList = [] ∨ getSHAByName deps "mixer".toList = [] ∨
        getSHAByName deps "auth".toList = []) →
      updateIstioDeps w deps hist
        = (.done (some ⟨"incomplete dependencies in istio.deps".toList⟩), []) := by
  refine ⟨getSHAByName_of_no_record, ?_⟩
  intro w deps hist h
  unfold updateIstioDeps
  simp only
  rw [if_pos h]
  rfl

/-- C13, the theorem applied to the spec's example: pilot unresolved (`""`),
mixer `s2`, auth `a1`. -/
theorem updateIstioDeps_incomplete_witness :
    getSHAByName (istioDeps [] "s2".toList "a1".toList) "pilot".toList = [] ∧
    updateIstioDeps (exampleWorld false []) (istioDeps [] "s2".toList "a1".toList) []
      = (.done (some ⟨"incomplete dependencies in istio.deps".toList⟩), []) :=
  ⟨by decide,
   updateIstioDeps_incomplete.2 (exampleWorld false []) (istioDeps [] "s2".toList "a1".toList)
     [] (Or.inl (by decide))⟩

theorem istioVersionGet_run (w : World) (key : GoString) (hist : Trace) :
    istioVersionGet w key hist
      = (.done (stringsTrimSpace (w.bash hist (versionCommand key)).1,
                (w.bash hist (versionCommand key)).2),
         [Event.bash (versionCommand key) (w.bash hist (versionCommand key)).1
            (w.bash hist (versionCommand key)).2]) := rfl

/-- A lookup followed by the rest of `updateIstioDeps`: if the rest has the
property, so has the whole. -/
theorem LookupFailureIsFinal.lookup (w : World) (key : GoString)
    (f : GoString × Option GoError → Prog (Option GoError))
    (hsome : ∀ v e, v.2 = some e → ∀ h, f v h = (.done (some e), []))
    (hnone : ∀ v, v.2 = none → ∀ h, LookupFailureIsFinal (f v h)) (hist : Trace) :
    LookupFailureIsFinal (Prog.bind (istioVersionGet w key) f hist) := by
  rw [Prog.bind_done _ _ hist _ _ (istioVersionGet_run w key hist)]
  generalize hb : w.bash hist (versionCommand key) = ans
  obtain ⟨out0, err0⟩ := ans
  cases err0 with
  | some e0 =>
    rw [hsome _ e0 rfl]
    intro j cmd out e hj
    cases j with
    | zero =>
      simp at hj
      obtain ⟨_, _, he⟩ := hj
      subst he
      simp
    | succ k => simp at hj
  | none =>
    have hrest := hnone (stringsTrimSpace out0, none) rfl
      (hist ++ [Event.bash (versionCommand key) out0 none])
    intro j cmd out e hj
    cases j with
    | zero => simp at hj
    | succ k =>
      simp only [List.singleton_append, List.getElem?_cons_succ] at hj
      obtain ⟨h1, h2, h3⟩ := hrest k cmd out e hj
      refine ⟨h1, by simp [h2], ?_⟩
      intro e' he' c m res
      simp only [List.singleton_append, List.mem_cons] at he'
      rcases he' with h | h
      · subst h; simp
      · exact h3 e' h c m res

theorem updateIstioDeps_lookupFailure (w : World) (deps : List dependency) (hist : Trace) :
    LookupFailureIsFinal (updateIstioDeps w deps hist) := by
  unfold updateIstioDeps
  simp only
  split
  · intro j cmd out e hj
    simp [Prog.ret] at hj
  · apply LookupFailureIsFinal.lookup
    · rintro ⟨v1, v2⟩ e hv h; simp only at hv; subst hv; rfl
    rintro ⟨caHub, v2⟩ hv h; simp only at hv; subst hv
    apply LookupFailureIsFinal.lookup
    · rintro ⟨v1, v2⟩ e hv h; simp only at hv; subst hv; rfl
    rintro ⟨phub, v2⟩ hv h; simp only at hv; subst hv
    apply LookupFailureIsFinal.lookup
    · rintro ⟨v1, v2⟩ e hv h; simp only at hv; subst hv; rfl
    rintro ⟨mhub, v2⟩ hv h; simp only at hv; subst hv
    apply LookupFailureIsFinal.lookup
    · rintro ⟨v1, v2⟩ e hv h; simp only at hv; subst hv; rfl
    rintro ⟨url, v2⟩ hv h; simp only at hv; subst hv
    apply LookupFailureIsFinal.lookup
    · rintro ⟨v1, v2⟩ e hv h; simp only at hv; subst hv; rfl
    rintro ⟨tag, v2⟩ hv h; simp only at hv; subst hv
    intro j cmd out e hj
    have hsh : ∀ (c : GoString) (h' : Trace),
        Shell w c h' = (.done (w.sh h' (fmtSprintf c)),
        [Event.sh c false (w.sh h' (fmtSprintf c))]) :=
      fun _ _ => rfl
    simp only [] at hj
    rw [Prog.bind_done _ _ _ _ _ (hsh _ _)] at hj
    simp only at hj
    exfalso
    cases j with
    | zero => simp at hj
    | succ k =>
      simp only [List.singleton_append, List.getElem?_cons_succ] at hj
      cases hr : w.sh h _ with
      | ok o => rw [hr] at hj; simp [Prog.ret] at hj
      | err e' => rw [hr] at hj; simp [Prog.ret] at hj

/-- White space that `strings.TrimSpace` removes and that is not ASCII: a
no-break space (bytes `C2 A0`) in front of `hub`, a next-line character (`C2 85`)
and a line feed behind it; an ideographic space (`E3 80 80`) in front of `h`.  A
zero-width space (`E2 80 8B`) is not white space and stays. -/
theorem stringsTrimSpace_unicode :
    stringsTrimSpace ([0xC2, 0xA0, 0x68, 0x75, 0x62, 0xC2, 0x85, 0x0A].map Char.ofNat)
      = "hub".toList ∧
    stringsTrimSpace ([0xE3, 0x80, 0x80, 0x68, 0xE2, 0x80, 0x8B].map Char.ofNat)
      = [0x68, 0xE2, 0x80, 0x8B].map Char.ofNat ∧
    stringsTrimSpace " \t hub \r\n".toList = "hub".toList := by
  decide

/-- What `fmt.Sprintf` makes of a format when the call has no operands: `%%` is a
percent sign, a verb is reported as missing, a `%` at the end as having no
verb. -/
theorem fmtSprintf_without_operands :
    fmtSprintf "100%% of %d".toList = "100% of %!d(MISSING)".toList ∧
    fmtSprintf "a%2Fb".toList = "a%!F(MISSING)b".toList ∧
    fmtSprintf "100%".toList = "100%!(NOVERB)".toList ∧
    fmtSprintf "%[1]d".toList = "%!d(BADINDEX)".toList ∧
    fmtSprintf "git checkout master".toList = "git checkout master".toList := by
  decide

theorem fmtDoPrintf_of_no_percent :
    ∀ (s : GoString) (n : Nat), s.length ≤ n → '%' ∉ s → fmtDoPrintf n s = s
  | [], n, _, _ => by cases n <;> rfl
  | _ :: _, 0, h, _ => by simp at h
  | c :: cs, n + 1, h, hp => by
    have hc : c ≠ '%' := fun hc => hp (by simp [hc])
    have hcs : '%' ∉ cs := fun hcs => hp (List.mem_cons_of_mem _ hcs)
    have hlen : cs.length ≤ n := by simpa using h
    simp only [fmtDoPrintf, if_neg hc, fmtDoPrintf_of_no_percent cs n hlen hcs]

/-- A format without `%` is expanded to itself. -/
theorem fmtSprintf_of_no_percent (s : GoString) (h : '%' ∉ s) : fmtSprintf s = s :=
  fmtDoPrintf_of_no_percent s s.length (le_refl _) h

/-- The run of `updateIstioDeps` when the three commits are there and the five
lookups succeed. -/
theorem updateIstioDeps_success (w : World) (deps : List dependency) (hist : Trace)
    (ca p m url tag : GoString)
    (hp : getSHAByName deps "pilot".toList ≠ [])
    (hm : getSHAByName deps "mixer".toList ≠ [])
    (ha : getSHAByName deps "auth".toList ≠ [])
    (hv : VersionFile w hist
      ["CA_HUB".toList, "PILOT_HUB".toList, "MIXER_HUB".toList, "ISTIOCTL_URL".toList,
       "PILOT_TAG".toList] [ca, p, m, url, tag]) :
    updateIstioDeps w deps hist
      = (.done (Res.error (w.sh
            (hist ++ [Event.bash (versionCommand "CA_HUB".toList) ca none]
              ++ [Event.bash (versionCommand "PILOT_HUB".toList) p none]
              ++ [Event.bash (versionCommand "MIXER_HUB".toList) m none]
              ++ [Event.bash (versionCommand "ISTIOCTL_URL".toList) url none]
              ++ [Event.bash (versionCommand "PILOT_TAG".toList) tag none])
            (fmtSprintf
              (versionBumpCommand (stringsTrimSpace p) (getSHAByName deps "pilot".toList)
                (stringsTrimSpace m) (getSHAByName deps "mixer".toList)
                (stringsReplaceFirst (stringsTrimSpace url) (stringsTrimSpace tag)
                  (getSHAByName deps "pilot".toList))
                (stringsTrimSpace ca) (getSHAByName deps "auth".toList))))),
         [Event.bash (versionCommand "CA_HUB".toList) ca none,
          Event.bash (versionCommand "PILOT_HUB".toList) p none,
          Event.bash (versionCommand "MIXER_HUB".toList) m none,
          Event.bash (versionCommand "ISTIOCTL_URL".toList) url none,
          Event.bash (versionCommand "PILOT_TAG".toList) tag none,
          Event.sh
            (versionBumpCommand (stringsTrimSpace p) (getSHAByName deps "pilot".toList)
              (stringsTrimSpace m) (getSHAByName deps "mixer".toList)
              (stringsReplaceFirst (stringsTrimSpace url) (stringsTrimSpace tag)
                (getSHAByName deps "pilot".toList))
              (stringsTrimSpace ca) (getSHAByName deps "auth".toList))
            false
            (w.sh
              (hist ++ [Event.bash (versionCommand "CA_HUB".toList) ca none]
                ++ [Event.bash (versionCommand "PILOT_HUB".toList) p none]
                ++ [Event.bash (versionCommand "MIXER_HUB".toList) m none]
                ++ [Event.bash (versionCommand "ISTIOCTL_URL".toList) url none]
                ++ [Event.bash (versionCommand "PILOT_TAG".toList) tag none])
              (fmtSprintf
                (versionBumpCommand (stringsTrimSpace p) (getSHAByName deps "pilot".toList)
                  (stringsTrimSpace m) (getSHAByName deps "mixer".toList)
                  (stringsReplaceFirst (stringsTrimSpace url) (stringsTrimSpace tag)
                    (getSHAByName deps "pilot".toList))
                  (stringsTrimSpace ca) (getSHAByName deps "auth".toList))))]) := by
  obtain ⟨h1, h2, h3, h4, h5, _⟩ := hv
  have hsh : ∀ (c : GoString) (h' : Trace),
      Shell w c h' = (.done (w.sh h' (fmtSprintf c)),
        [Event.sh c false (w.sh h' (fmtSprintf c))]) :=
    fun _ _ => rfl
  have hnot : ¬ (getSHAByName deps "pilot".toList = [] ∨
      getSHAByName deps "mixer".toList = [] ∨ getSHAByName deps "auth".toList = []) := by
    rintro (h | h | h)
    · exact hp h
    · exact hm h
    · exact ha h
  unfold updateIstioDeps
  simp only
  rw [if_neg hnot]
  rw [Prog.bind_done _ _ _ _ _ (istioVersionGet_run w _ _), h1]
  simp only []
  rw [Prog.bind_done _ _ _ _ _ (istioVersionGet_run w _ _), h2]
  simp only []
  rw [Prog.bind_done _ _ _ _ _ (istioVersionGet_run w _ _), h3]
  simp only []
  rw [Prog.bind_done _ _ _ _ _ (istioVersionGet_run w _ _), h4]
  simp only []
  rw [Prog.bind_done _ _ _ _ _ (istioVersionGet_run w _ _), h5]
  simp only []
  have hfin : ∀ (c : GoString) (h' : Trace),
      Prog.bind (Shell w c) (fun r =>
        match r with
        | .err e => Prog.ret (some e)
        | .ok _ => Prog.ret none) h'
        = (.done (Res.error (w.sh h' (fmtSprintf c))),
           [Event.sh c false (w.sh h' (fmtSprintf c))]) := by
    intro c h'
    rw [Prog.bind_done _ _ _ _ _ (hsh _ _)]
    cases w.sh h' (fmtSprintf c) <;> rfl
  rw [hfin]
  rfl

/-- C14 (as amended).  Composition of the version-bump invocation.  Let the
pilot, mixer and
auth commits be non-empty and let the five version-file lookups (`CA_HUB`,
`PILOT_HUB`, `MIXER_HUB`, `ISTIOCTL_URL`, `PILOT_TAG`, in this order, each made
after the ones before it) succeed with the outputs `ca`, `p`, `m`, `url`, `tag`.
Let `command` be
`./install/updateVersion.sh -p <PILOT_HUB>,<pilot> -x <MIXER_HUB>,<mixer> -i <url> -c <CA_HUB>,<auth>`,
where the hubs are the outputs without the white space around them and `<url>`
is `ISTIOCTL_URL` with the first occurrence of the old `PILOT_TAG` replaced by
the pilot commit, and let `command` contain no `%`.  Then `updateIstioDeps`
makes the five lookups and after them exactly one call of `util.Shell`, its
argument is `command`, the command the world is asked to run is `command`
itself, and the error of that command is what `updateIstioDeps` returns.  And in
every run, a lookup that fails is the last call, its error is returned and no
shell command is run. -/
theorem updateIstioDeps_invocation :
    (∀ (w : World) (deps : List dependency) (hist : Trace) (ca p m url tag : GoString)
        (lookups : List Event) (command : GoString),
      getSHAByName deps "pilot".toList ≠ [] →
      getSHAByName deps "mixer".toList ≠ [] →
      getSHAByName deps "auth".toList ≠ [] →
      lookups
        = [Event.bash "source istio.VERSION ; echo $CA_HUB".toList ca none,
           Event.bash "source istio.VERSION ; echo $PILOT_HUB".toList p none,
           Event.bash "source istio.VERSION ; echo $MIXER_HUB".toList m none,
           Event.bash "source istio.VERSION ; echo $ISTIOCTL_URL".toList url none,
           Event.bash "source istio.VERSION ; echo $PILOT_TAG".toList tag none] →
      w.bash (hist ++ lookups.take 0) "source istio.VERSION ; echo $CA_HUB".toList
        = (ca, none) →
      w.bash (hist ++ lookups.take 1) "source istio.VERSION ; echo $PILOT_HUB".toList
        = (p, none) →
      w.bash (hist ++ lookups.take 2) "source istio.VERSION ; echo $MIXER_HUB".toList
        = (m, none) →
      w.bash (hist ++ lookups.take 3) "source istio.VERSION ; echo $ISTIOCTL_URL".toList
        = (url, none) →
      w.bash (hist ++ lookups.take 4) "source istio.VERSION ; echo $PILOT_TAG".toList
        = (tag, none) →
      command
        = "./install/updateVersion.sh -p ".toList
            ++ stringsTrimSpace p ++ ",".toList ++ getSHAByName deps "pilot".toList
            ++ " -x ".toList
            ++ stringsTrimSpace m ++ ",".toList ++ getSHAByName deps "mixer".toList
            ++ " -i ".toList
            ++ stringsReplaceFirst (stringsTrimSpace url) (stringsTrimSpace tag)
                (getSHAByName deps "pilot".toList)
            ++ " -c ".toList
            ++ stringsTrimSpace ca ++ ",".toList ++ getSHAByName deps "auth".toList →
      '%' ∉ command →
      updateIstioDeps w deps hist
        = (.done (Res.error (w.sh (hist ++ lookups) command)),
           lookups ++ [Event.sh command false (w.sh (hist ++ lookups) command)])) ∧
    (∀ (w : World) (deps : List dependency) (hist : Trace) (j : Nat) (cmd out : GoString)
      (e : GoError),
      (updateIstioDeps w deps hist).2[j]? = some (Event.bash cmd out (some e)) →
      (updateIstioDeps w deps hist).1 = .done (some e) ∧
      (updateIstioDeps w deps hist).2.length = j + 1 ∧
      ∀ e' ∈ (updateIstioDeps w deps hist).2, ∀ c mu res, e' ≠ Event.sh c mu res) := by
  refine ⟨?_, fun w deps hist j cmd out e hj =>
    updateIstioDeps_lookupFailure w deps hist j cmd out e hj⟩
  intro w deps hist ca p m url tag lookups command hp hm ha hl h1 h2 h3 h4 h5 hc hpc
  subst hl
  have hrun := updateIstioDeps_success w deps hist ca p m url tag hp hm ha
    ⟨by simpa using h1, by simpa [List.append_assoc] using h2,
     by simpa [List.append_assoc] using h3, by simpa [List.append_assoc] using h4,
     by simpa [List.append_assoc] using h5, trivial⟩
  have hcmd : versionBumpCommand (stringsTrimSpace p) (getSHAByName deps "pilot".toList)
      (stringsTrimSpace m) (getSHAByName deps "mixer".toList)
      (stringsReplaceFirst (stringsTrimSpace url) (stringsTrimSpace tag)
        (getSHAByName deps "pilot".toList))
      (stringsTrimSpace ca) (getSHAByName deps "auth".toList) = command := hc.symm
  rw [hcmd, fmtSprintf_of_no_percent command hpc] at hrun
  rw [hrun]
  simp [List.append_assoc, versionCommand]

set_option maxRecDepth 1000000 in
/-- C14, the theorem applied to the commits `p1`, `m1`, `a1`: in a world whose
version file has every key and gives the URL `https://storage/istioctl/old-tag/bin`
the one shell command is
`./install/updateVersion.sh -p hub,p1 -x hub,m1 -i https://storage/istioctl/p1/bin -c hub,a1`,
and in a world where `MIXER_HUB` cannot be read the third lookup is the last
call. -/
theorem updateIstioDeps_invocation_witness :
    updateIstioDeps (versionWorld []) (istioDeps "p1".toList "m1".toList "a1".toList) []
      = (.done none,
         [Event.bash "source istio.VERSION ; echo $CA_HUB".toList "hub\n".toList none,
          Event.bash "source istio.VERSION ; echo $PILOT_HUB".toList "hub\n".toList none,
          Event.bash "source istio.VERSION ; echo $MIXER_HUB".toList "hub\n".toList none,
          Event.bash "source istio.VERSION ; echo $ISTIOCTL_URL".toList
            "https://storage/istioctl/old-tag/bin\n".toList none,
          Event.bash "source istio.VERSION ; echo $PILOT_TAG".toList "old-tag\n".toList none,
          Event.sh
            ("./install/updateVersion.sh -p hub,p1 -x hub,m1 "
              ++ "-i https://storage/istioctl/p1/bin -c hub,a1").toList
            false (.ok [])]) ∧
    (updateIstioDeps (versionWorld ["MIXER_HUB".toList])
        (istioDeps "p1".toList "m1".toList "a1".toList) []).2.length = 3 :=
  ⟨updateIstioDeps_invocation.1 (versionWorld [])
     (istioDeps "p1".toList "m1".toList "a1".toList) []
     "hub\n".toList "hub\n".toList "hub\n".toList
     "https://storage/istioctl/old-tag/bin\n".toList "old-tag\n".toList
     [Event.bash "source istio.VERSION ; echo $CA_HUB".toList "hub\n".toList none,
      Event.bash "source istio.VERSION ; echo $PILOT_HUB".toList "hub\n".toList none,
      Event.bash "source istio.VERSION ; echo $MIXER_HUB".toList "hub\n".toList none,
      Event.bash "source istio.VERSION ; echo $ISTIOCTL_URL".toList
        "https://storage/istioctl/old-tag/bin\n".toList none,
      Event.bash "source istio.VERSION ; echo $PILOT_TAG".toList "old-tag\n".toList none]
     ("./install/updateVersion.sh -p hub,p1 -x hub,m1 "
        ++ "-i https://storage/istioctl/p1/bin -c hub,a1").toList
     (by decide) (by decide) (by decide) rfl
     (by decide) (by decide) (by decide) (by decide) (by decide)
     (by decide) (by decide),
   (updateIstioDeps_invocation.2 (versionWorld ["MIXER_HUB".toList])
     (istioDeps "p1".toList "m1".toList "a1".toList) [] 2
     (versionCommand "MIXER_HUB".toList) [] ⟨"exit status 1".toList⟩ (by decide)).2.1⟩

set_option maxRecDepth 1000000 in
/-- C14 as stated fails: the commits are `p1`, `m1`,
`a1`, the five lookups succeed, and the version file gives the URL
`https://storage/istioctl%2Fold-tag/bin`.  The argument of the one `util.Shell`
call is the command of the claim,
`./install/updateVersion.sh -p hub,p1 -x hub,m1 -i https://storage/istioctl%2Fp1/bin -c hub,a1`,
but `util.sh` expands it with `fmt.Sprintf` before it runs it, and the command
that is run (the world prints it) has `%!F(MISSING)` in place of `%2F`. -/
theorem updateIstioDeps_runs_expanded_command :
    updateIstioDeps escapedUrlWorld (istioDeps "p1".toList "m1".toList "a1".toList) []
      = (.done none,
         [Event.bash "source istio.VERSION ; echo $CA_HUB".toList "hub\n".toList none,
          Event.bash "source istio.VERSION ; echo $PILOT_HUB".toList "hub\n".toList none,
          Event.bash "source istio.VERSION ; echo $MIXER_HUB".toList "hub\n".toList none,
          Event.bash "source istio.VERSION ; echo $ISTIOCTL_URL".toList
            "https://storage/istioctl%2Fold-tag/bin\n".toList none,
          Event.bash "source istio.VERSION ; echo $PILOT_TAG".toList "old-tag\n".toList none,
          Event.sh
            ("./install/updateVersion.sh -p hub,p1 -x hub,m1 "
              ++ "-i https://storage/istioctl%2Fp1/bin -c hub,a1").toList
            false
            (.ok ("./install/updateVersion.sh -p hub,p1 -x hub,m1 "
              ++ "-i https://storage/istioctl%!F(MISSING)p1/bin -c hub,a1").toList)]) ∧
    fmtSprintf ("./install/updateVersion.sh -p hub,p1 -x hub,m1 "
        ++ "-i https://storage/istioctl%2Fp1/bin -c hub,a1").toList
      = ("./install/updateVersion.sh -p hub,p1 -x hub,m1 "
        ++ "-i https://storage/istioctl%!F(MISSING)p1/bin -c hub,a1").toList := by
  decide

/-! ## The batch: theorems -/

theorem mainLoop_of_allReturn (w : World) (fl : Flags) :
    ∀ (repos : List GoString) (hist : Trace), AllReturn w fl repos hist →
      mainLoop w fl repos hist = (.done (), attemptsTrace w fl repos hist) := by
  intro repos
  induction repos with
  | nil => intro hist _; rfl
  | cons r rest ih =>
    intro hist h
    obtain ⟨⟨err, herr⟩, hrest⟩ := h
    have hrun : updateDependenciesOf w fl r hist
        = (.done err, (updateDependenciesOf w fl r hist).2) := by
      rw [← herr]
    rw [mainLoop, Prog.bind_done _ _ hist _ _ hrun, ih _ hrest]
    rfl

/-- C15.  One repository's returned error never aborts the batch: when a token
file is given, the token and the client are obtained, no single repository is
selected and `listRepos` gives `repos`, `main` invokes `updateDependenciesOf`
once for every repository of `repos`, in list order, provided every invocation
returns to `main`, whatever error it returns: the calls of `main` are the three
of the start followed by the calls of the attempts, one after the other. -/
theorem main_attempts_every_repo (w : World) (fl : Flags) (hist : Trace)
    (token : GoString) (repos : List GoString)
    (hfile : fl.tokenFile ≠ [])
    (hall : fl.repo = [])
    (htoken : w.getAPITokenFromFile hist fl.tokenFile = .ok token)
    (hclient : w.newGithubClient
      (hist ++ [Event.getAPITokenFromFile fl.tokenFile (.ok token)]) fl.owner token = none)
    (hlist : w.listRepos
      (hist ++ [Event.getAPITokenFromFile fl.tokenFile (.ok token)]
        ++ [Event.newGithubClient fl.owner token none]) = .ok repos)
    (hret : AllReturn w fl repos
      (hist ++ [Event.getAPITokenFromFile fl.tokenFile (.ok token)]
        ++ [Event.newGithubClient fl.owner token none]
        ++ [Event.listRepos (.ok repos)])) :
    main w fl hist
      = (.done (),
         [Event.getAPITokenFromFile fl.tokenFile (.ok token),
          Event.newGithubClient fl.owner token none,
          Event.listRepos (.ok repos)]
          ++ attemptsTrace w fl repos
              (hist ++ [Event.getAPITokenFromFile fl.tokenFile (.ok token)]
                ++ [Event.newGithubClient fl.owner token none]
                ++ [Event.listRepos (.ok repos)])) := by
  have htok : GetAPITokenFromFile w fl.tokenFile hist
      = (.done (w.getAPITokenFromFile hist fl.tokenFile),
         [Event.getAPITokenFromFile fl.tokenFile (w.getAPITokenFromFile hist fl.tokenFile)]) :=
    rfl
  have hcl : ∀ (o t : GoString) (h : Trace), newGithubClient w o t h
      = (.done (w.newGithubClient h o t),
         [Event.newGithubClient o t (w.newGithubClient h o t)]) := fun _ _ _ => rfl
  have hlr : ∀ (h : Trace), listRepos w h
      = (.done (w.listRepos h), [Event.listRepos (w.listRepos h)]) := fun _ => rfl
  have hnot : ¬ fl.repo ≠ [] := fun h => h hall
  rw [main, if_neg hfile, Prog.bind_done _ _ hist _ _ htok, htoken]
  simp only []
  rw [Prog.bind_done _ _ _ _ _ (hcl _ _ _), hclient]
  simp only []
  rw [if_neg hnot, Prog.bind_done _ _ _ _ _ (hlr _), hlist]
  simp only []
  rw [mainLoop_of_allReturn w fl repos _ hret]
  rfl

set_option maxRecDepth 1000000 in
/-- C15, the theorem applied to a world in which the head commit of `mixer`
cannot be looked up: the attempts for `mixer` and for `pilot` both return an
error, and both are made. -/
theorem main_attempts_every_repo_witness :
    (updateDependenciesOf (exampleWorld false ["mixer".toList]) exampleFlags "mixer".toList
        ([] ++ [Event.getAPITokenFromFile exampleFlags.tokenFile (.ok "secret".toList)]
          ++ [Event.newGithubClient exampleFlags.owner "secret".toList none]
          ++ [Event.listRepos (.ok ["mixer".toList, "pilot".toList])])).1
      = .done (some ⟨"not found".toList⟩) ∧
    main (exampleWorld false ["mixer".toList]) exampleFlags []
      = (.done (),
         [Event.getAPITokenFromFile exampleFlags.tokenFile (.ok "secret".toList),
          Event.newGithubClient exampleFlags.owner "secret".toList none,
          Event.listRepos (.ok ["mixer".toList, "pilot".toList])]
          ++ attemptsTrace (exampleWorld false ["mixer".toList]) exampleFlags
              ["mixer".toList, "pilot".toList]
              ([] ++ [Event.getAPITokenFromFile exampleFlags.tokenFile (.ok "secret".toList)]
                ++ [Event.newGithubClient exampleFlags.owner "secret".toList none]
                ++ [Event.listRepos (.ok ["mixer".toList, "pilot".toList])])) :=
  ⟨by decide,
   main_attempts_every_repo (exampleWorld false ["mixer".toList]) exampleFlags []
     "secret".toList ["mixer".toList, "pilot".toList] (by decide) rfl rfl rfl rfl
     ⟨⟨some ⟨"not found".toList⟩, by decide⟩, ⟨some ⟨"not found".toList⟩, by decide⟩,
      trivial⟩⟩

/-! ## Generic patching: further theorems -/

/-- A loop all of whose matching lines are already rewritten leaves the lines as
they are. -/
theorem updateDepLines_of_fixed (dep : dependency) :
    ∀ (ls : List GoString),
      (∀ l ∈ ls, stringsContains l (dep.Name ++ " = ".toList) = true →
        replaceCommit l dep = .done l) →
      updateDepLines dep ls = .done ls := by
  intro ls
  induction ls with
  | nil => intro _; simp [updateDepLines]
  | cons line rest ih =>
    intro h
    have h2 := ih (fun l hl => h l (List.mem_cons_of_mem _ hl))
    cases hc : stringsContains line (dep.Name ++ " = ".toList) with
    | true =>
      have h1 := h line (List.mem_cons_self _ _) hc
      rw [updateDepLines, hc, h1, h2]
      simp
    | false =>
      rw [updateDepLines, hc, h2]
      simp

/-- A line that `replaceCommit` produced is rewritten to itself. -/
theorem replaceCommit_idem (line out : GoString) (dep : dependency)
    (h : replaceCommit line dep = .done out) : replaceCommit out dep = .done out := by
  have hq : '"' ∈ line := (replaceCommit_done_iff line dep).mp ⟨out, h⟩
  obtain ⟨pre, rest, hpre, rfl⟩ := mem_split_at '"' line hq
  rw [replaceCommit_of_quote pre rest dep hpre] at h
  injection h with h
  subst h
  have := replaceCommit_of_quote pre (dep.LastStableSHA ++ "\",".toList) dep hpre
  simpa [quote] using this

/-- C18.  Generic patching is idempotent: for every file text and dependency
whose new commit contains no newline, such that every line containing
`<name> = ` also contains a double quote, the text transformation of
`updateDepFile` produces an output, and applied to that output it produces the
same output again. -/
theorem updateDepFileText_idempotent (input : GoString) (dep : dependency)
    (hsha : '\n' ∉ dep.LastStableSHA)
    (hquote : ∀ line ∈ stringsSplit '\n' input,
      stringsContains line (dep.Name ++ " = ".toList) = true → '"' ∈ line) :
    ∃ output, updateDepFileText input dep = .done output ∧
      updateDepFileText output dep = .done output := by
  obtain ⟨ls', hls'⟩ := (updateDepLines_done_iff dep (stringsSplit '\n' input)).mpr hquote
  have hout : updateDepFileText input dep = .done (stringsJoin ls' "\n".toList) := by
    simp only [updateDepFileText, hls']
  refine ⟨_, hout, ?_⟩
  have hl := updateDepFileText_lines input _ dep hsha hout
  rw [hls'] at hl
  injection hl with hl
  have hf := updateDepLines_done dep _ _ hls'
  have hfixed : ∀ l' ∈ ls', stringsContains l' (dep.Name ++ " = ".toList) = true →
      replaceCommit l' dep = .done l' := by
    intro l' hl' hc'
    obtain ⟨l, _, h1, h2⟩ := forall₂_mem_right hf l' hl'
    cases hc : stringsContains l (dep.Name ++ " = ".toList) with
    | true => exact replaceCommit_idem l l' dep (h1 hc)
    | false =>
      have := h2 hc
      subst this
      rw [hc] at hc'
      cases hc'
  have hagain := updateDepLines_of_fixed dep ls' hfixed
  unfold updateDepFileText
  rw [← hl, hagain]

/-- C18, the theorem applied to the example manifest and dependency `pilot`. -/
theorem updateDepFileText_idempotent_witness :
    '\n' ∉ pilotDep.LastStableSHA ∧
    ∃ output, updateDepFileText exampleManifest pilotDep = .done output ∧
      updateDepFileText output pilotDep = .done output :=
  ⟨by decide, updateDepFileText_idempotent exampleManifest pilotDep (by decide) (by decide)⟩

theorem updateDepLines_panic_of_no_quote (dep : dependency) :
    ∀ (ls : List GoString),
      (∃ l ∈ ls, stringsContains l (dep.Name ++ " = ".toList) = true ∧ '"' ∉ l) →
      updateDepLines dep ls = .panic := by
  intro ls h
  have hnd : ¬ ∃ ls', updateDepLines dep ls = .done ls' := by
    rw [updateDepLines_done_iff]
    intro hall
    obtain ⟨l, hl, hc, hq⟩ := h
    exact hq (hall l hl hc)
  cases hr : updateDepLines dep ls with
  | done ls' => exact absurd ⟨ls', hr⟩ hnd
  | panic => rfl
  | fatal => exact absurd hr (updateDepLines_ne_fatal dep ls)

/-- C19.  `replaceCommit` is total only on lines that contain a double quote:
on a line with a `"` it returns the text before the first `"` followed by
`"<LastStableSHA>",`; on a line without one `strings.Index` gives `-1`, the
slice `line[:idx]` is out of range and the call panics.  So `updateDepFile`
panics, after reading the file and without writing it, on every file that has a
line containing `<name> = ` but no double quote. -/
theorem replaceCommit_total_only_with_quote :
    (∀ (pre rest : GoString) (dep : dependency), '"' ∉ pre →
      replaceCommit (pre ++ '"' :: rest) dep
        = .done (pre ++ quote ++ dep.LastStableSHA ++ "\",".toList)) ∧
    (∀ (line : GoString) (dep : dependency), '"' ∉ line →
      stringsIndex line quote = -1 ∧ sliceTo line (-1) = .panic ∧
      replaceCommit line dep = .panic) ∧
    (∀ (w : World) (dep : dependency) (hist : Trace) (input : GoString),
      w.readFile hist dep.File = .ok input →
      (∃ line ∈ stringsSplit '\n' input,
        stringsContains line (dep.Name ++ " = ".toList) = true ∧ '"' ∉ line) →
      updateDepFile w dep hist = (.panic, [Event.readFile dep.File (.ok input)])) := by
  refine ⟨replaceCommit_of_quote, ?_, ?_⟩
  · intro line dep hq
    refine ⟨?_, by simp [sliceTo], replaceCommit_no_quote line dep hq⟩
    simp [stringsIndex, quote, firstIndex_singleton_none '"' line hq]
  · intro w dep hist input hread hline
    have hp := updateDepLines_panic_of_no_quote dep _ hline
    have ht : updateDepFileText input dep = .panic := by
      simp only [updateDepFileText, hp]
    have hrd : ioutilReadFile w dep.File hist
        = (.done (w.readFile hist dep.File),
           [Event.readFile dep.File (w.readFile hist dep.File)]) := rfl
    rw [updateDepFile, Prog.bind_done _ _ hist _ _ hrd, hread]
    simp only [ht]
    rfl

/-- C19, the theorem applied to a file whose only line is `pilot = abc123`. -/
theorem replaceCommit_total_only_with_quote_witness :
    replaceCommit "pilot = abc123".toList pilotDep = .panic ∧
    updateDepFile
        { exampleWorld false [] with readFile := fun _ _ => .ok "pilot = abc123".toList }
        pilotDep []
      = (.panic, [Event.readFile pilotDep.File (.ok "pilot = abc123".toList)]) :=
  ⟨(replaceCommit_total_only_with_quote.2.1 "pilot = abc123".toList pilotDep
      (by decide)).2.2,
   replaceCommit_total_only_with_quote.2.2
     { exampleWorld false [] with readFile := fun _ _ => .ok "pilot = abc123".toList }
     pilotDep [] "pilot = abc123".toList rfl
     ⟨"pilot = abc123".toList, by decide, by decide, by decide⟩⟩

/-- C20.  Generic patching matches by substring, not by key: every line that
contains `<name> = ` anywhere is rewritten by `replaceCommit`, whenever the
patch produces an output and the new commit contains no newline.  So in the
manifest with the lines `pilot = "a",` and `istio_pilot = "b",`, two distinct
keys of which one is a suffix of the other, patching dependency `pilot` rewrites
both lines to the new commit. -/
theorem updateDepFileText_matches_substring :
    (∀ (input output : GoString) (dep : dependency), '\n' ∉ dep.LastStableSHA →
      updateDepFileText input dep = .done output →
      ∀ (i : Nat) (line : GoString), (stringsSplit '\n' input)[i]? = some line →
        stringsContains line (dep.Name ++ " = ".toList) = true →
        ∃ line', (stringsSplit '\n' output)[i]? = some line' ∧
          replaceCommit line dep = .done line') ∧
    stringsContains "istio_pilot = \"b\",".toList (pilotDep.Name ++ " = ".toList) = true ∧
    updateDepFileText "pilot = \"a\",\nistio_pilot = \"b\",\n".toList pilotDep
      = .done "pilot = \"ffffff\",\nistio_pilot = \"ffffff\",\n".toList := by
  refine ⟨?_, by decide, by decide⟩
  intro input output dep hsha h i line hi hc
  have hl := updateDepFileText_lines input output dep hsha h
  have hf := updateDepLines_done dep _ _ hl
  obtain ⟨l', h1, h2, _⟩ := forall₂_getElem? hf i line hi
  exact ⟨l', h1, h2 hc⟩

/-- C20, the theorem applied to the manifest of the example: line 1, the
`istio_pilot` line, is rewritten. -/
theorem updateDepFileText_matches_substring_witness :
    ∃ line', (stringsSplit '\n' "pilot = \"ffffff\",\nistio_pilot = \"ffffff\",\n".toList)[1]?
        = some line' ∧
      replaceCommit "istio_pilot = \"b\",".toList pilotDep = .done line' :=
  updateDepFileText_matches_substring.1 "pilot = \"a\",\nistio_pilot = \"b\",\n".toList
    "pilot = \"ffffff\",\nistio_pilot = \"ffffff\",\n".toList pilotDep (by decide)
    (by decide) 1 "istio_pilot = \"b\",".toList (by decide) (by decide)

/-! ## Lemmas: `float64` -/

theorem roundHalfEven_ge_one (x : ℚ) (h : 1 ≤ x) : 1 ≤ roundHalfEven x := by
  have hf : (1 : ℤ) ≤ ⌊x⌋ := Int.le_floor.mpr (by exact_mod_cast h)
  unfold roundHalfEven
  split_ifs <;> omega

theorem roundHalfEven_le_neg_one (x : ℚ) (h : x ≤ -1) : roundHalfEven x ≤ -1 := by
  have hfx : (⌊x⌋ : ℚ) ≤ x := Int.floor_le x
  have hf : ⌊x⌋ ≤ -1 := by
    have : (⌊x⌋ : ℚ) ≤ ((-1 : ℤ) : ℚ) := by push_cast; linarith
    exact_mod_cast this
  unfold roundHalfEven
  split_ifs with h1 h2 h3
  · exact hf
  · have : (⌊x⌋ : ℚ) < ((-1 : ℤ) : ℚ) := by push_cast; linarith
    have : ⌊x⌋ < -1 := by exact_mod_cast this
    omega
  · exact hf
  · have h4 : (1 : ℚ) / 2 ≤ x - (⌊x⌋ : ℚ) := not_lt.mp h1
    have : (⌊x⌋ : ℚ) < ((-1 : ℤ) : ℚ) := by push_cast; linarith
    have : ⌊x⌋ < -1 := by exact_mod_cast this
    omega

/-- A finite binary64 value is a multiple of the smallest subnormal `2^-1074`. -/
theorem IsBinary64.on_grid {q : ℚ} (h : IsBinary64 q) :
    ∃ k : ℤ, q = (k : ℚ) * (2 : ℚ) ^ (-1074 : ℤ) := by
  obtain ⟨m, e, _, he, _, hq⟩ := h
  refine ⟨m * 2 ^ (e + 1074).toNat, ?_⟩
  have hnat : ((e + 1074).toNat : ℤ) = e + 1074 := Int.toNat_of_nonneg (by omega)
  have hpow : (2 : ℚ) ^ e = (2 : ℚ) ^ ((e + 1074).toNat : ℤ) * (2 : ℚ) ^ (-1074 : ℤ) := by
    rw [← zpow_add₀ (by norm_num : (2 : ℚ) ≠ 0), hnat]
    congr 1
    omega
  rw [hq, hpow, zpow_natCast]
  push_cast
  ring

/-- The last place of the binary64 values around a non-zero multiple of
`2^-1074` is not above its magnitude. -/
theorem two_pow_binary64Exponent_le (q : ℚ) (hq : q ≠ 0)
    (hgrid : ∃ k : ℤ, q = (k : ℚ) * (2 : ℚ) ^ (-1074 : ℤ)) :
    (2 : ℚ) ^ binary64Exponent q ≤ |q| := by
  have habs : 0 < |q| := abs_pos.mpr hq
  unfold binary64Exponent
  rcases le_total (Int.log 2 |q| - 52) (-1074) with h | h
  · rw [max_eq_right h]
    obtain ⟨k, hk⟩ := hgrid
    have hk0 : k ≠ 0 := by
      intro h0
      rw [h0] at hk
      simp at hk
      exact hq hk
    have hk1 : (1 : ℚ) ≤ |(k : ℚ)| := by
      have : (1 : ℤ) ≤ |k| := Int.one_le_abs hk0
      exact_mod_cast this
    have hpos : (0 : ℚ) < (2 : ℚ) ^ (-1074 : ℤ) := zpow_pos (by norm_num) _
    rw [hk, abs_mul, abs_of_pos hpos]
    calc (2 : ℚ) ^ (-1074 : ℤ) = 1 * (2 : ℚ) ^ (-1074 : ℤ) := (one_mul _).symm
      _ ≤ |(k : ℚ)| * (2 : ℚ) ^ (-1074 : ℤ) := mul_le_mul_of_nonneg_right hk1 hpos.le
  · rw [max_eq_left h]
    have h1 : (2 : ℚ) ^ (Int.log 2 |q| - 52) ≤ (2 : ℚ) ^ Int.log 2 |q| :=
      zpow_le_zpow_right₀ (by norm_num) (by omega)
    have h2 : ((2 : ℕ) : ℚ) ^ Int.log 2 |q| ≤ |q| :=
      Int.zpow_log_le_self (by norm_num) habs
    have h3 : ((2 : ℕ) : ℚ) = (2 : ℚ) := by norm_num
    rw [h3] at h2
    exact le_trans h1 h2

/-- Rounding keeps the sign of a multiple of `2^-1074`: the rounded value is
below zero exactly when the exact value is. -/
theorem roundBinary64_lt_zero (q : ℚ)
    (hgrid : ∃ k : ℤ, q = (k : ℚ) * (2 : ℚ) ^ (-1074 : ℤ)) :
    (roundBinary64 q).lt (.finite 0) = true ↔ q < 0 := by
  by_cases hq : q = 0
  · subst hq
    simp [roundBinary64, Float64.lt]
  · have hle := two_pow_binary64Exponent_le q hq hgrid
    have hpow : (0 : ℚ) < (2 : ℚ) ^ binary64Exponent q := zpow_pos (by norm_num) _
    unfold roundBinary64
    rw [if_neg hq]
    rcases lt_or_gt_of_ne hq with hneg | hpos
    · have hdiv : q / (2 : ℚ) ^ binary64Exponent q ≤ -1 := by
        rw [div_le_iff₀ hpow]
        rw [abs_of_neg hneg] at hle
        linarith
      have hr := roundHalfEven_le_neg_one _ hdiv
      have hrq : (roundHalfEven (q / (2 : ℚ) ^ binary64Exponent q) : ℚ) ≤ -1 := by
        exact_mod_cast hr
      have hv : (roundHalfEven (q / (2 : ℚ) ^ binary64Exponent q) : ℚ)
          * (2 : ℚ) ^ binary64Exponent q < 0 :=
        mul_neg_of_neg_of_pos (by linarith) hpow
      split_ifs
      · simp [Float64.lt, hneg]
      · simp [Float64.lt, hneg, hv]
    · have hdiv : 1 ≤ q / (2 : ℚ) ^ binary64Exponent q := by
        rw [le_div_iff₀ hpow]
        rw [abs_of_pos hpos] at hle
        linarith
      have hr := roundHalfEven_ge_one _ hdiv
      have hrq : (1 : ℚ) ≤ (roundHalfEven (q / (2 : ℚ) ^ binary64Exponent q) : ℚ) := by
        exact_mod_cast hr
      have hv : 0 < (roundHalfEven (q / (2 : ℚ) ^ binary64Exponent q) : ℚ)
          * (2 : ℚ) ^ binary64Exponent q :=
        mul_pos (by linarith) hpow
      have hnot : ¬ q < 0 := not_lt.mpr hpos.le
      split_ifs
      · simp [Float64.lt, hnot]
      · simp [Float64.lt, hnot, hv.le]

/-- On `float64`, `delta + threshold < 0` says the same as `delta < -threshold`. -/
theorem Float64.add_lt_zero_iff (d t : Float64) (hd : IsFloat64 d) (ht : IsFloat64 t) :
    (d.add t).lt (.finite 0) = true ↔ d.lt t.neg = true := by
  cases d with
  | nan => cases t <;> simp [Float64.add, Float64.lt, Float64.neg]
  | inf a =>
    cases t with
    | nan => simp [Float64.add, Float64.lt, Float64.neg]
    | inf b => cases a <;> cases b <;> simp [Float64.add, Float64.lt, Float64.neg]
    | finite y => simp [Float64.add, Float64.lt, Float64.neg]
  | finite x =>
    cases t with
    | nan => simp [Float64.add, Float64.lt, Float64.neg]
    | inf b => simp [Float64.add, Float64.lt, Float64.neg]
    | finite y =>
      obtain ⟨kx, hx⟩ := IsBinary64.on_grid hd
      obtain ⟨ky, hy⟩ := IsBinary64.on_grid ht
      have hgrid : ∃ k : ℤ, x + y = (k : ℚ) * (2 : ℚ) ^ (-1074 : ℤ) :=
        ⟨kx + ky, by rw [hx, hy]; push_cast; ring⟩
      have h := roundBinary64_lt_zero (x + y) hgrid
      simp only [Float64.add, Float64.neg]
      rw [h]
      simp only [Float64.lt, decide_eq_true_eq]
      constructor <;> intro h' <;> linarith

/-- The loop of `checkDelta`: the code becomes `THRESHOLD_EXCEEDED_ERROR` when an
entry makes the test true, and stays what it was otherwise. -/
theorem checkDeltaLoop_eq (t : Float64) :
    ∀ (deltas : List (GoString × Float64)) (code : Int),
      ((∃ entry ∈ deltas, (entry.2.add t).lt (.finite 0) = true) →
        checkDeltaLoop t deltas code = THRESHOLD_EXCEEDED_ERROR) ∧
      ((¬ ∃ entry ∈ deltas, (entry.2.add t).lt (.finite 0) = true) →
        checkDeltaLoop t deltas code = code) := by
  intro deltas
  induction deltas with
  | nil =>
    intro code
    refine ⟨?_, fun _ => rfl⟩
    rintro ⟨e, he, _⟩
    exact absurd he (List.not_mem_nil e)
  | cons entry rest ih =>
    intro code
    by_cases hc : (entry.2.add t).lt (.finite 0) = true
    · have hstep : checkDeltaLoop t (entry :: rest) code
          = checkDeltaLoop t rest THRESHOLD_EXCEEDED_ERROR := by
        rw [checkDeltaLoop, if_pos hc]
      rw [hstep]
      constructor
      · intro _
        by_cases hrest : ∃ e ∈ rest, (e.2.add t).lt (.finite 0) = true
        · exact (ih _).1 hrest
        · exact (ih _).2 hrest
      · intro hno
        exact absurd ⟨entry, List.mem_cons_self _ _, hc⟩ hno
    · have hstep : checkDeltaLoop t (entry :: rest) code = checkDeltaLoop t rest code := by
        rw [checkDeltaLoop, if_neg hc]
      rw [hstep]
      constructor
      · rintro ⟨e, he, hce⟩
        rcases List.mem_cons.mp he with h | h
        · subst h; exact absurd hce hc
        · exact (ih _).1 ⟨e, h, hce⟩
      · intro hno
        exact (ih _).2 (fun ⟨e, he, hce⟩ => hno ⟨e, List.mem_cons_of_mem _ he, hce⟩)

/-! ## The coverage check and `UpdateKeyValueInFile`: theorems -/

/-- C17.  The coverage check triggers the error exactly when some package drops
more than the threshold: for every threshold `t` and delta map of `float64`
values, `checkDelta` returns `THRESHOLD_EXCEEDED_ERROR` (2) if and only if some
package has `delta < -t`, and `NO_ERROR_CODE` (0) otherwise; a map whose only
entry is a drop of exactly `t` gives `NO_ERROR_CODE`. -/
theorem checkDelta_threshold (t : Float64) (deltas report baseline : List (GoString × Float64))
    (ht : IsFloat64 t) (hdeltas : ∀ entry ∈ deltas, IsFloat64 entry.2) :
    (checkDelta t deltas report baseline = THRESHOLD_EXCEEDED_ERROR ↔
      ∃ entry ∈ deltas, entry.2.lt t.neg = true) ∧
    (checkDelta t deltas report baseline = NO_ERROR_CODE ↔
      ¬ ∃ entry ∈ deltas, entry.2.lt t.neg = true) ∧
    (∀ pkg : GoString, checkDelta t [(pkg, t.neg)] report baseline = NO_ERROR_CODE) := by
  have hiff : (∃ entry ∈ deltas, (entry.2.add t).lt (.finite 0) = true) ↔
      ∃ entry ∈ deltas, entry.2.lt t.neg = true := by
    constructor
    · rintro ⟨e, he, h⟩
      exact ⟨e, he, (Float64.add_lt_zero_iff e.2 t (hdeltas e he) ht).mp h⟩
    · rintro ⟨e, he, h⟩
      exact ⟨e, he, (Float64.add_lt_zero_iff e.2 t (hdeltas e he) ht).mpr h⟩
  have hloop := checkDeltaLoop_eq t deltas NO_ERROR_CODE
  have hne : THRESHOLD_EXCEEDED_ERROR ≠ NO_ERROR_CODE := by decide
  refine ⟨?_, ?_, ?_⟩
  · rw [← hiff]
    constructor
    · intro h
      by_contra hno
      have := hloop.2 hno
      unfold checkDelta at h
      rw [this] at h
      exact hne h.symm
    · exact hloop.1
  · rw [← hiff]
    constructor
    · intro h hex
      have := hloop.1 hex
      unfold checkDelta at h
      rw [this] at h
      exact hne h
    · exact hloop.2
  · intro pkg
    have hneg : IsFloat64 t.neg := by
      cases t with
      | nan => trivial
      | inf b => trivial
      | finite x =>
        obtain ⟨m, e, hm, h1, h2, hx⟩ := ht
        exact ⟨-m, e, by simpa using hm, h1, h2, by rw [hx]; push_cast; ring⟩
    have hirr : t.neg.lt t.neg = false := by
      cases t with
      | nan => rfl
      | inf b => cases b <;> rfl
      | finite x => simp [Float64.neg, Float64.lt]
    have hno : ¬ ∃ entry ∈ [(pkg, t.neg)], (entry.2.add t).lt (.finite 0) = true := by
      rintro ⟨e, he, h⟩
      rw [List.mem_singleton] at he
      subst he
      have := (Float64.add_lt_zero_iff t.neg t hneg ht).mp h
      rw [hirr] at this
      cases this
    exact (checkDeltaLoop_eq t [(pkg, t.neg)] NO_ERROR_CODE).2 hno

/-- C17, the theorem applied to the default threshold 5 and two packages, one
dropping by 6 and one by exactly 5: the error code is returned, because of the
first package. -/
theorem checkDelta_threshold_witness :
    checkDelta (.finite 5)
        [("istio.io/mixer".toList, .finite (-6)), ("istio.io/pilot".toList, .finite (-5))]
        [] [] = THRESHOLD_EXCEEDED_ERROR ∧
    (Float64.finite (-5)).lt (Float64.finite 5).neg = false :=
  ⟨(checkDelta_threshold (.finite 5)
      [("istio.io/mixer".toList, .finite (-6)), ("istio.io/pilot".toList, .finite (-5))]
      [] []
      ⟨5, 0, by norm_num, by norm_num, by norm_num, by norm_num⟩
      (by
        intro entry he
        simp only [List.mem_cons, List.mem_singleton, List.not_mem_nil, or_false] at he
        rcases he with h | h
        · subst h
          exact ⟨-6, 0, by norm_num, by norm_num, by norm_num, by norm_num⟩
        · subst h
          exact ⟨-5, 0, by norm_num, by norm_num, by norm_num, by norm_num⟩)).1.mpr
      ⟨("istio.io/mixer".toList, .finite (-6)), List.mem_cons_self _ _,
        by simp [Float64.lt, Float64.neg]; norm_num⟩,
   by simp [Float64.lt, Float64.neg]⟩

/-- C16 fails on the code: on the file `a=1 KEY=2`, key `KEY` and value `9`,
`UpdateKeyValueInFile` succeeds and writes `a=9`.  The line contains `KEY=`, but
the value is replaced after the first `=` of the line, which is not the one that
follows the key; the value assigned to `KEY` is not replaced by `9`. -/
theorem UpdateKeyValueInFile_replaces_after_first_splitter :
    stringsHasPrefix "a=1 KEY=2".toList "#".toList = false ∧
    stringsHasPrefix "a=1 KEY=2".toList "//".toList = false ∧
    stringsContains "a=1 KEY=2".toList ("KEY".toList ++ "=".toList) = true ∧
    UpdateKeyValueInFile
        { exampleWorld false [] with readFile := fun _ _ => .ok "a=1 KEY=2\n".toList }
        "istio.VERSION".toList "KEY".toList "9".toList []
      = (.done none,
         [Event.readFile "istio.VERSION".toList (.ok "a=1 KEY=2\n".toList),
          Event.writeFile "istio.VERSION".toList "a=9\n".toList none]) := by
  decide

/-! ## Lemmas: `UpdateKeyValueInFile` -/

theorem byteAt_ne_fatal (s : GoString) (idx : Int) : byteAt s idx ≠ .fatal := by
  unfold byteAt
  split
  · cases s[idx.toNat]? <;> simp
  · simp

theorem sliceTo_ne_fatal (s : GoString) (idx : Int) : sliceTo s idx ≠ .fatal := by
  unfold sliceTo
  split <;> simp

theorem replaceValue_ne_fatal (value line splitter : GoString) :
    replaceValue value line splitter ≠ .fatal := by
  unfold replaceValue
  simp only
  cases hb : byteAt line (stringsIndex line splitter + (splitter.length : Int)) with
  | fatal => exact absurd hb (byteAt_ne_fatal _ _)
  | panic => simp
  | done c =>
    cases hs : sliceTo line (stringsIndex line splitter + (splitter.length : Int)) with
    | fatal => exact absurd hs (sliceTo_ne_fatal _ _)
    | panic => simp
    | done head =>
      simp only
      split <;> simp

theorem updateKeyValueLine_ne_fatal (key value line : GoString) :
    ∀ (splitters : List GoString), updateKeyValueLine key value line splitters ≠ .fatal := by
  intro splitters
  induction splitters with
  | nil => simp [updateKeyValueLine]
  | cons sp rest ih =>
    unfold updateKeyValueLine
    split
    · cases hr : replaceValue value line sp with
      | fatal => exact absurd hr (replaceValue_ne_fatal _ _ _)
      | panic => simp
      | done l => simp
    · exact ih

/-- The index past the last byte: when the first occurrence of the splitter ends
the line, `idx` is the length of the line and the access `(*line)[idx]` panics. -/
theorem replaceValue_panic_at_end (value line splitter : GoString) (i : Nat)
    (hidx : firstIndex splitter line = some i) (hend : i + splitter.length = line.length) :
    stringsIndex line splitter + (splitter.length : Int) = (line.length : Int) ∧
    byteAt line (stringsIndex line splitter + (splitter.length : Int)) = .panic ∧
    replaceValue value line splitter = .panic := by
  have hi : stringsIndex line splitter = (i : Int) := by
    simp only [stringsIndex, hidx]
  have hlen : stringsIndex line splitter + (splitter.length : Int) = (line.length : Int) := by
    rw [hi]
    exact_mod_cast hend
  have hb : byteAt line (stringsIndex line splitter + (splitter.length : Int)) = .panic := by
    rw [hlen]
    unfold byteAt
    rw [if_neg (by omega)]
  refine ⟨hlen, hb, ?_⟩
  unfold replaceValue
  simp only [hb]

/-- The inner loop panics when the splitter it selects makes `replaceValue` panic. -/
theorem updateKeyValueLine_panic (key value line : GoString) :
    ∀ (splitters : List GoString) (s : GoString),
      splitters.find? (fun sp => stringsContains line (key ++ sp)) = some s →
      replaceValue value line s = .panic →
      updateKeyValueLine key value line splitters = .panic := by
  intro splitters
  induction splitters with
  | nil => intro s h; simp at h
  | cons sp rest ih =>
    intro s hfind hrep
    by_cases hc : stringsContains line (key ++ sp) = true
    · have hs : sp = s := by simpa [List.find?, hc] using hfind
      subst hs
      rw [updateKeyValueLine, if_pos hc, hrep]
    · have hrest : rest.find? (fun sp => stringsContains line (key ++ sp)) = some s := by
        simpa [List.find?, hc] using hfind
      rw [updateKeyValueLine, if_neg hc]
      exact ih s hrest hrep

/-- The outer loop panics when the inner loop panics on one of the lines that
are not comments. -/
theorem updateKeyValueLines_panic (key value : GoString) :
    ∀ (ls : List GoString),
      (∃ line ∈ ls, stringsHasPrefix line "#".toList = false ∧
        stringsHasPrefix line "//".toList = false ∧
        updateKeyValueLine key value line kvSplitters = .panic) →
      updateKeyValueLines key value ls = .panic := by
  intro ls
  induction ls with
  | nil => rintro ⟨l, hl, _⟩; simp at hl
  | cons line rest ih =>
    rintro ⟨bad, hmem, h1, h2, hp⟩
    by_cases hcomment : (stringsHasPrefix line "#".toList
        || stringsHasPrefix line "//".toList) = true
    · have hrest : bad ∈ rest := by
        rcases List.mem_cons.mp hmem with h | h
        · subst h
          rw [h1, h2] at hcomment
          cases hcomment
        · exact h
      have := ih ⟨bad, hrest, h1, h2, hp⟩
      rw [updateKeyValueLines, if_pos hcomment, this]
    · rw [updateKeyValueLines, if_neg hcomment]
      cases hline : updateKeyValueLine key value line kvSplitters with
      | fatal => exact absurd hline (updateKeyValueLine_ne_fatal _ _ _ _)
      | panic => rfl
      | done new =>
        have hrest : bad ∈ rest := by
          rcases List.mem_cons.mp hmem with h | h
          · subst h
            rw [hp] at hline
            cases hline
          · exact h
        have := ih ⟨bad, hrest, h1, h2, hp⟩
        simp only [this]

theorem ReadFile_run (w : World) (filePath : GoString) (hist : Trace) :
    ReadFile w filePath hist
      = (.done (w.readFile hist filePath),
         [Event.readFile filePath (w.readFile hist filePath)]) := by
  have hrd : ioutilReadFile w filePath hist
      = (.done (w.readFile hist filePath),
         [Event.readFile filePath (w.readFile hist filePath)]) := rfl
  rw [ReadFile, Prog.bind_done _ _ hist _ _ hrd]
  cases w.readFile hist filePath <;> rfl

/-! ## `UpdateKeyValueInFile`: the empty value -/

/-- C21 (as amended).  `UpdateKeyValueInFile` indexes past the end of a line
whose value is empty.  When the first occurrence of a splitter ends the line,
`idx` is the length of the line and the access `(*line)[idx]` in `replaceValue`
is out of range.  So when the file is read and has a line that does not start
with `#` or `//`, for which the splitter selected by the loop (the first of
` = `, `=`, `:` such that the line contains `key + splitter`) has its first
occurrence at the very end of the line, the function panics: it neither returns
an error nor writes the file. -/
theorem UpdateKeyValueInFile_panics_on_empty_value :
    (∀ (value line splitter : GoString) (i : Nat),
      firstIndex splitter line = some i → i + splitter.length = line.length →
      stringsIndex line splitter + (splitter.length : Int) = (line.length : Int) ∧
      byteAt line (stringsIndex line splitter + (splitter.length : Int)) = .panic ∧
      replaceValue value line splitter = .panic) ∧
    (∀ (w : World) (file key value : GoString) (hist : Trace) (input : GoString),
      w.readFile hist file = .ok input →
      (∃ line ∈ stringsSplit '\n' input,
        stringsHasPrefix line "#".toList = false ∧
        stringsHasPrefix line "//".toList = false ∧
        ∃ (splitter : GoString) (i : Nat), selectedSplitter key line = some splitter ∧
          firstIndex splitter line = some i ∧ i + splitter.length = line.length) →
      UpdateKeyValueInFile w file key value hist
        = (.panic, [Event.readFile file (.ok input)])) := by
  refine ⟨replaceValue_panic_at_end, ?_⟩
  intro w file key value hist input hread hline
  obtain ⟨line, hmem, h1, h2, splitter, i, hsel, hidx, hend⟩ := hline
  have hrep := (replaceValue_panic_at_end value line splitter i hidx hend).2.2
  have hl := updateKeyValueLine_panic key value line kvSplitters splitter hsel hrep
  have hp := updateKeyValueLines_panic key value (stringsSplit '\n' input)
    ⟨line, hmem, h1, h2, hl⟩
  rw [UpdateKeyValueInFile, Prog.bind_done _ _ hist _ _ (ReadFile_run w file hist), hread]
  simp only [hp]
  rfl

/-- C21, the theorem applied to the file whose only line is `KEY=`, with key
`KEY` and value `9`. -/
theorem UpdateKeyValueInFile_panics_on_empty_value_witness :
    selectedSplitter "KEY".toList "KEY=".toList = some "=".toList ∧
    replaceValue "9".toList "KEY=".toList "=".toList = .panic ∧
    UpdateKeyValueInFile
        { exampleWorld false [] with readFile := fun _ _ => .ok "KEY=\n".toList }
        "istio.VERSION".toList "KEY".toList "9".toList []
      = (.panic, [Event.readFile "istio.VERSION".toList (.ok "KEY=\n".toList)]) :=
  ⟨by decide,
   (UpdateKeyValueInFile_panics_on_empty_value.1 "9".toList "KEY=".toList "=".toList 3
      (by decide) (by decide)).2.2,
   UpdateKeyValueInFile_panics_on_empty_value.2
     { exampleWorld false [] with readFile := fun _ _ => .ok "KEY=\n".toList }
     "istio.VERSION".toList "KEY".toList "9".toList [] "KEY=\n".toList rfl
     ⟨"KEY=".toList, by decide, by decide, by decide, "=".toList, 3, by decide, by decide,
      by decide⟩⟩

/-- C21 as stated fails when the line contains the key with two splitters.  The
line `KEY=KEY:` does not start with `#` or `//`, contains `KEY` followed by `:`,
and the first occurrence of `:` is at its very end; but the loop selects `=`,
which comes before `:` in `kvSplitters`, no index is out of range, and the
function succeeds and writes `KEY=9`. -/
theorem UpdateKeyValueInFile_no_panic_with_earlier_splitter :
    stringsHasPrefix "KEY=KEY:".toList "#".toList = false ∧
    stringsHasPrefix "KEY=KEY:".toList "//".toList = false ∧
    ":".toList ∈ kvSplitters ∧
    stringsContains "KEY=KEY:".toList ("KEY".toList ++ ":".toList) = true ∧
    firstIndex ":".toList "KEY=KEY:".toList = some 7 ∧
    7 + ":".toList.length = "KEY=KEY:".toList.length ∧
    selectedSplitter "KEY".toList "KEY=KEY:".toList = some "=".toList ∧
    UpdateKeyValueInFile
        { exampleWorld false [] with readFile := fun _ _ => .ok "KEY=KEY:\n".toList }
        "istio.VERSION".toList "KEY".toList "9".toList []
      = (.done none,
         [Event.readFile "istio.VERSION".toList (.ok "KEY=KEY:\n".toList),
          Event.writeFile "istio.VERSION".toList "KEY=9\n".toList none]) := by
  decide

end DepsUpdate
